import Mathlib

/-! GTK-graph: the social-network graph model.

A shallow embedding of the `SocialNetwork` class of `v7.cc` and `gui_v2.cpp`
(`social.cpp` and `social_gui.cc` carry the same model as `gui_v2.cpp`, with the
results printed instead of returned).

Modelling conventions.

* `std::unordered_set<T>` is a duplicate-free `List T` in iteration order and
  `std::unordered_map<K, V>` is a `List (K × V)` with distinct keys, again in
  iteration order.  The C++ standard leaves that order unspecified; the model
  puts a freshly inserted element at the front.  Every theorem about a query is
  stated for an arbitrary well-formed state, hence for every iteration order.
* `int` identifiers are `Int`; the one place where a decimal token is turned into
  an `int` (`iss >> id`) checks the 32-bit range, as `operator>>` does.  The `int`
  line counter of `readFromFile` is an `Int` that wraps past 2^31 - 1
  (`SocialNetwork.nextLineNumber`).
* `std::shared_ptr<Node>` values stored by `addNode` are never null; the only
  null pointer the program can create is dereferenced on the spot (see
  `SocialNetwork.dominanceLoop`), which is undefined behaviour and is modelled by
  the result `none`.
* `std::sort` is only specified up to the order of equivalent elements; the model
  uses an insertion sort driven by the same comparator.
-/

/-! ## Unordered containers -/

/-- Model of `std::unordered_set::insert`: nothing happens when the element is present. -/
def usInsert {α : Type} [DecidableEq α] (s : List α) (x : α) : List α :=
  if x ∈ s then s else x :: s

/-- Model of `std::unordered_map::find`, as an optional value. -/
def umFind {κ ν : Type} [DecidableEq κ] : List (κ × ν) → κ → Option ν
  | [], _ => none
  | (k, v) :: rest, key => if k = key then some v else umFind rest key

/-- Model of `std::unordered_map::emplace` (and the insertion half of `operator[]`): the pair
is added only when the key is absent. -/
def umEmplace {κ ν : Type} [DecidableEq κ] (m : List (κ × ν)) (key : κ) (v : ν) :
    List (κ × ν) :=
  match umFind m key with
  | some _ => m
  | none => (key, v) :: m

/-- Assignment through the reference returned by `operator[]` / `find` for a key:
the value stored under `key` is replaced by `f` of it. -/
def umUpdate {κ ν : Type} [DecidableEq κ] : List (κ × ν) → κ → (ν → ν) → List (κ × ν)
  | [], _, _ => []
  | (k, v) :: rest, key, f =>
    if k = key then (k, f v) :: rest else (k, v) :: umUpdate rest key f

/-- The keys of a map, in iteration order. -/
def umKeys {κ ν : Type} (m : List (κ × ν)) : List κ := m.map Prod.fst

/-! ## `std::sort` -/

/-- Insertion of one element into a list sorted for `comp`: it goes in front of the
first element that `comp` does not place before it. -/
def sortInsert {α : Type} (comp : α → α → Bool) (x : α) : List α → List α
  | [] => [x]
  | y :: ys => if comp y x then y :: sortInsert comp x ys else x :: y :: ys

/-- Model of `std::sort(first, last, comp)`: insertion sort with the comparator. -/
def stdSort {α : Type} (comp : α → α → Bool) : List α → List α
  | [] => []
  | x :: xs => sortInsert comp x (stdSort comp xs)

/-! ## The data model -/

/-- The `class Node`. -/
structure Node where
  id : Int
  characteristics : List String
  deriving DecidableEq, Repr

/-- The `class SocialNetwork` of `v7.cc`.  The class of `gui_v2.cpp` has the first two
members only; its operations never touch `availableCharacteristics`. -/
structure SocialNetwork where
  nodes : List (Int × Node)
  adjList : List (Int × List Int)
  availableCharacteristics : List String
  deriving DecidableEq, Repr

namespace SocialNetwork

/-- A freshly constructed network. -/
def empty : SocialNetwork := ⟨[], [], []⟩

/-- The stored neighbor set of `a` (empty when `a` is not a key of `adjList`). -/
def neighbors (s : SocialNetwork) (a : Int) : List Int :=
  (umFind s.adjList a).getD []

/-- The inner loop shared by `targetAds` and `calculateDominanceAndInfluence`:
`matchesTarget` stays true iff every target is found in `characteristics`. -/
def matchesTarget (characteristics target : List String) : Bool :=
  target.all (fun t => decide (t ∈ characteristics))

/-- Embedding of `SocialNetwork::addNode` (v7.cc:27-33).  After the `emplace` the key is present,
so `nodes[id]` finds the node and inserts nothing. -/
def addNode (s : SocialNetwork) (id : Int) (characteristics : List String) :
    SocialNetwork :=
  let nodes1 := umEmplace s.nodes id ⟨id, []⟩
  let nodes2 := umUpdate nodes1 id
    (fun n => { n with characteristics := characteristics })
  { s with
    nodes := nodes2
    availableCharacteristics := characteristics.foldl usInsert s.availableCharacteristics }

/-- Embedding of `SocialNetwork::addEdge` (v7.cc:35-38, gui_v2.cpp:28-31). -/
def addEdge (s : SocialNetwork) (id1 id2 : Int) : SocialNetwork :=
  let adj1 := umUpdate (umEmplace s.adjList id1 []) id1 (fun ns => usInsert ns id2)
  let adj2 := umUpdate (umEmplace adj1 id2 []) id2 (fun ns => usInsert ns id1)
  { s with adjList := adj2 }

/-- The first loop of `postMessage`: the two local sets after the pass over
`nodes`. -/
def classify (keyword : String) :
    List (Int × Node) → List Int × List Int → List Int × List Int
  | [], acc => acc
  | (_, node) :: rest, (reachedNodes, notReachedNodes) =>
    if keyword ∈ node.characteristics then
      classify keyword rest (usInsert reachedNodes node.id, notReachedNodes)
    else
      classify keyword rest (reachedNodes, usInsert notReachedNodes node.id)

/-- Embedding of `SocialNetwork::postMessage` (v7.cc:40-63). -/
def postMessage (s : SocialNetwork) (keyword : String) : List (Int × String) :=
  let sets := classify keyword s.nodes ([], [])
  sets.1.map (fun nodeId => (nodeId, "Received")) ++
    sets.2.map (fun nodeId => (nodeId, "Not Received"))

/-- Embedding of `SocialNetwork::targetAds` (v7.cc:65-81). -/
def targetAds (s : SocialNetwork) (targetCharacteristics : List String) : List Int :=
  (s.nodes.filter
    (fun pair => matchesTarget pair.2.characteristics targetCharacteristics)).map
    (fun pair => pair.2.id)

/-- The loop over `adjList` of `calculateDominanceAndInfluence` (v7.cc:86-104),
threading the node table and the vector built so far.  With a non-empty target the
loop evaluates `*(nodes[node])`: for a key of the node table this is its node and
the table is untouched; for any other id `operator[]` inserts a null
`shared_ptr` and the dereference is undefined behaviour, modelled as `none`. -/
def dominanceLoop (targetCharacteristics : List String) :
    List (Int × List Int) → List (Int × Node) → List (Int × List Int) →
      Option (List (Int × Node) × List (Int × List Int))
  | [], nodes, dominanceLevels => some (nodes, dominanceLevels)
  | (node, connections) :: rest, nodes, dominanceLevels =>
    if targetCharacteristics ≠ [] then
      match umFind nodes node with
      | none => none
      | some nodeObj =>
        if matchesTarget nodeObj.characteristics targetCharacteristics then
          dominanceLoop targetCharacteristics rest nodes
            (dominanceLevels ++ [(node, connections)])
        else
          dominanceLoop targetCharacteristics rest nodes dominanceLevels
    else
      dominanceLoop targetCharacteristics rest nodes
        (dominanceLevels ++ [(node, connections)])

/-- The comparator of v7.cc:107-109. -/
def bySize (a b : Int × List Int) : Bool := decide (a.2.length > b.2.length)

/-- Embedding of `SocialNetwork::calculateDominanceAndInfluence` (v7.cc:83-112): the network after
the call and the ranked vector, or `none` when the call runs into undefined
behaviour. -/
def calculateDominanceAndInfluence (s : SocialNetwork)
    (targetCharacteristics : List String) :
    Option (SocialNetwork × List (Int × List Int)) :=
  match dominanceLoop targetCharacteristics s.adjList s.nodes [] with
  | none => none
  | some (nodes, dominanceLevels) =>
    some ({ s with nodes := nodes }, stdSort bySize dominanceLevels)

/-! ### Loading -/

/-- What `readFromFile` writes to `std::cerr`: `Error opening file: <filename>`,
`Error reading node ID at line <n>` and `Error reading edge at line <n>`. -/
inductive Diagnostic where
  | openError (filename : String)
  | nodeIdError (lineNumber : Int)
  | edgeError (lineNumber : Int)
  deriving DecidableEq, Repr

/-- Model of `std::isspace` in the "C" locale. -/
def isSpace (c : Char) : Bool :=
  c = ' ' || c = '\t' || c = '\n' || c = '\r' || c.toNat = 11 || c.toNat = 12

/-- The `while (getline(file, line))` loop, as the list of lines it delivers: a
line ends at `\n` or at the end of the file, and a read that extracts nothing at
the end of the file fails and ends the loop.  `cur` is the line read so far,
reversed. -/
def getLines : List Char → List Char → List (List Char)
  | [], cur => if cur = [] then [] else [cur.reverse]
  | c :: cs, cur =>
    if c = '\n' then cur.reverse :: getLines cs [] else getLines cs (c :: cur)

/-- The value of a run of decimal digits. -/
def digitsValue (ds : List Char) : Nat :=
  ds.foldl (fun acc d => 10 * acc + (d.toNat - 48)) 0

/-- The extraction `iss >> id` for an `int`: leading whitespace is skipped, an optional
sign and the longest run of decimal digits are consumed; the extraction fails when
there is no digit or the value does not fit a 32-bit `int`.  On success the value
and the unread rest of the stream are returned. -/
def extractInt (stream : List Char) : Option (Int × List Char) :=
  let s := stream.dropWhile isSpace
  let signed : Bool × List Char :=
    match s with
    | '-' :: t => (true, t)
    | '+' :: t => (false, t)
    | _ => (false, s)
  let ds := signed.2.takeWhile Char.isDigit
  let rest := signed.2.dropWhile Char.isDigit
  if ds = [] then none
  else
    let v : Int := if signed.1 then -(digitsValue ds : Int) else (digitsValue ds : Int)
    if -2147483648 ≤ v ∧ v ≤ 2147483647 then some (v, rest) else none

/-- The successive values of `characteristic` delivered by the loop
`while (iss >> characteristic)`: each extraction skips whitespace and takes the
characters up to the next whitespace or the end of the stream.  `cur` is the word
read so far, reversed. -/
def streamWords : List Char → List Char → List String
  | [], cur => if cur = [] then [] else [String.mk cur.reverse]
  | c :: cs, cur =>
    if isSpace c then
      if cur = [] then streamWords cs [] else String.mk cur.reverse :: streamWords cs []
    else streamWords cs (c :: cur)

/-- The set `characteristics` built by v7.cc:138-142 from the rest of the line. -/
def readCharacteristics (stream : List Char) : List String :=
  (streamWords stream []).foldl usInsert []

/-- The statement `lineNumber++` on the 32-bit `int` counter of v7.cc:123-125.  Past
`INT_MAX` the increment overflows, which is undefined behaviour in C++; the model
takes the two's-complement wrap that the usual compilers produce for it. -/
def nextLineNumber (lineNumber : Int) : Int :=
  if lineNumber = 2147483647 then -2147483648 else lineNumber + 1

/-- The local state of the loop of `readFromFile`; `lineNumber` is the `int` counter. -/
structure LoadState where
  net : SocialNetwork
  readingNodes : Bool
  lineNumber : Int
  diagnostics : List Diagnostic
  deriving DecidableEq, Repr

/-- One iteration of the loop of `readFromFile` (v7.cc:124-152). -/
def readLine (st : LoadState) (line : List Char) : LoadState :=
  let lineNumber := nextLineNumber st.lineNumber
  if line = "edges".toList then
    { st with readingNodes := false, lineNumber := lineNumber }
  else if st.readingNodes then
    match extractInt line with
    | none =>
      { st with lineNumber := lineNumber,
                diagnostics := st.diagnostics ++ [Diagnostic.nodeIdError lineNumber] }
    | some (id, rest) =>
      { st with lineNumber := lineNumber,
                net := st.net.addNode id (readCharacteristics rest) }
  else
    match extractInt line with
    | none =>
      { st with lineNumber := lineNumber,
                diagnostics := st.diagnostics ++ [Diagnostic.edgeError lineNumber] }
    | some (id1, rest) =>
      match extractInt rest with
      | none =>
        { st with lineNumber := lineNumber,
                  diagnostics := st.diagnostics ++ [Diagnostic.edgeError lineNumber] }
      | some (id2, _) =>
        { st with lineNumber := lineNumber, net := st.net.addEdge id1 id2 }

/-- Embedding of `SocialNetwork::readFromFile` (v7.cc:114-153).  `file` is the content of the file
named `filename`, or `none` when it cannot be opened; the result is the network
after the call and the diagnostics written to `std::cerr`. -/
def readFromFile (s : SocialNetwork) (filename : String) (file : Option String) :
    SocialNetwork × List Diagnostic :=
  match file with
  | none => (s, [Diagnostic.openError filename])
  | some content =>
    let st := (getLines content.toList []).foldl readLine ⟨s, true, 0, []⟩
    (st.net, st.diagnostics)

end SocialNetwork

/-! ## The variant of `gui_v2.cpp` -/

namespace GuiV2

open SocialNetwork

/-- Embedding of `SocialNetwork::addNode` (gui_v2.cpp:23-26): no vocabulary is kept. -/
def addNode (s : SocialNetwork) (id : Int) (characteristics : List String) :
    SocialNetwork :=
  let nodes1 := umEmplace s.nodes id ⟨id, []⟩
  { s with
    nodes := umUpdate nodes1 id (fun n => { n with characteristics := characteristics }) }

/-- Embedding of `SocialNetwork::postMessage` (gui_v2.cpp:33-61).  The local `characteristicCounts`
is filled but never read, and is left out. -/
def postMessage (s : SocialNetwork) (keyword : String) : List (Int × String) :=
  let sets := classify keyword s.nodes ([], [])
  sets.1.map (fun nodeId => (nodeId, "Received")) ++
    sets.2.map (fun nodeId => (nodeId, "Not Received"))

/-- Embedding of `SocialNetwork::targetAds` (gui_v2.cpp:63-79). -/
def targetAds (s : SocialNetwork) (targetCharacteristics : List String) : List Int :=
  (s.nodes.filter
    (fun pair => matchesTarget pair.2.characteristics targetCharacteristics)).map
    (fun pair => pair.2.id)

/-- The comparator of gui_v2.cpp:92-94. -/
def byCount (a b : Int × Int) : Bool := decide (a.2 > b.2)

/-- Embedding of `SocialNetwork::calculateDominanceAndInfluence` (gui_v2.cpp:81-97).  The count is
`int connections = pair.second.size()`; container sizes are taken as the naturals
they are (a neighbor set never comes near the 2^31 members at which the narrowing
to `int` would change the value). -/
def calculateDominanceAndInfluence (s : SocialNetwork) : List (Int × Int) :=
  stdSort byCount (s.adjList.map (fun pair => (pair.1, (pair.2.length : Int))))

end GuiV2

/-! ## Well-formed and reachable states -/

namespace SocialNetwork

/-- The representation invariant of the class: the containers are sets and maps
(no repeated member, no repeated key) and every node is stored under its own id. -/
structure WF (s : SocialNetwork) : Prop where
  nodes_keys : (umKeys s.nodes).Nodup
  nodes_id : ∀ p ∈ s.nodes, p.2.id = p.1
  nodes_chars : ∀ p ∈ s.nodes, p.2.characteristics.Nodup
  adj_keys : (umKeys s.adjList).Nodup
  adj_sets : ∀ p ∈ s.adjList, p.2.Nodup
  vocabulary : s.availableCharacteristics.Nodup

/-- The part of the invariant the queries over the node table rely on. -/
structure NodeTableWF (s : SocialNetwork) : Prop where
  nodes_keys : (umKeys s.nodes).Nodup
  nodes_id : ∀ p ∈ s.nodes, p.2.id = p.1

/-- The states the public interface of `v7.cc` can produce from a fresh network. -/
inductive Reachable : SocialNetwork → Prop where
  | init : Reachable empty
  | addNode {s : SocialNetwork} (id : Int) (characteristics : List String) :
      Reachable s → characteristics.Nodup → Reachable (s.addNode id characteristics)
  | addEdge {s : SocialNetwork} (id1 id2 : Int) :
      Reachable s → Reachable (s.addEdge id1 id2)
  | load {s : SocialNetwork} (filename : String) (file : Option String) :
      Reachable s → Reachable (s.readFromFile filename file).1

/-- Adjacency symmetry. -/
def Symmetric (s : SocialNetwork) : Prop :=
  ∀ a b : Int, b ∈ s.neighbors a ↔ a ∈ s.neighbors b

/-- The test an entry of `adjList` has to pass to be ranked (v7.cc:88-100): none
for an empty target, otherwise its node has all the target characteristics. -/
def passesFilter (targetCharacteristics : List String) (nodes : List (Int × Node))
    (pair : Int × List Int) : Bool :=
  decide (targetCharacteristics = []) ||
    match umFind nodes pair.1 with
    | some nodeObj => matchesTarget nodeObj.characteristics targetCharacteristics
    | none => false

/-- A small network in which every endpoint of an edge is a node. -/
def sampleNet : SocialNetwork :=
  ⟨[(1, ⟨1, ["red", "blue"]⟩), (2, ⟨2, ["Red"]⟩), (3, ⟨3, []⟩)],
   [(1, [2, 3]), (2, [1]), (3, [1])],
   ["red", "blue", "Red"]⟩

/-- The network loaded from the three lines `5 red blue`, `edges`, `5 7`. -/
def loadedNet : SocialNetwork :=
  (empty.readFromFile "nodes.txt" (some "5 red blue\nedges\n5 7")).1

end SocialNetwork

/-! ## The remaining operations and the load format as the specification words it -/

namespace GuiV2

open SocialNetwork

/-- One iteration of the loop of `readFromFile` (gui_v2.cpp:109-137, social.cpp:139-162):
the text of v7.cc with the `addNode` of this variant. -/
def readLine (st : LoadState) (line : List Char) : LoadState :=
  let lineNumber := nextLineNumber st.lineNumber
  if line = "edges".toList then
    { st with readingNodes := false, lineNumber := lineNumber }
  else if st.readingNodes then
    match extractInt line with
    | none =>
      { st with lineNumber := lineNumber,
                diagnostics := st.diagnostics ++ [Diagnostic.nodeIdError lineNumber] }
    | some (id, rest) =>
      { st with lineNumber := lineNumber,
                net := GuiV2.addNode st.net id (readCharacteristics rest) }
  else
    match extractInt line with
    | none =>
      { st with lineNumber := lineNumber,
                diagnostics := st.diagnostics ++ [Diagnostic.edgeError lineNumber] }
    | some (id1, rest) =>
      match extractInt rest with
      | none =>
        { st with lineNumber := lineNumber,
                  diagnostics := st.diagnostics ++ [Diagnostic.edgeError lineNumber] }
      | some (id2, _) =>
        { st with lineNumber := lineNumber, net := st.net.addEdge id1 id2 }

/-- Embedding of `SocialNetwork::readFromFile` (gui_v2.cpp:99-138, social.cpp:132-163). -/
def readFromFile (s : SocialNetwork) (filename : String) (file : Option String) :
    SocialNetwork × List Diagnostic :=
  match file with
  | none => (s, [Diagnostic.openError filename])
  | some content =>
    let st := (getLines content.toList []).foldl GuiV2.readLine ⟨s, true, 0, []⟩
    (st.net, st.diagnostics)

end GuiV2

namespace SocialNetwork

/-- Embedding of `SocialNetwork::getAvailableCharacteristics` (v7.cc:155-157). -/
def getAvailableCharacteristics (s : SocialNetwork) : List String :=
  s.availableCharacteristics

/-- The marker line. -/
def edgesLine : List Char := "edges".toList

/-- Specification side: the whitespace-delimited tokens of a line, in order. -/
def tokens (line : List Char) : List String := streamWords line []

/-- The sign of a numeral and what follows it. -/
def splitSign : List Char → Bool × List Char
  | '-' :: t => (true, t)
  | '+' :: t => (false, t)
  | w => (false, w)

/-- Specification side: the value of a token that is an integer as a whole, that is
an optional sign followed by one or more decimal digits and nothing else, denoting
a value of type `int`; `none` for every other token. -/
def intTokenValue (token : String) : Option Int :=
  let signed := splitSign token.data
  if signed.2 ≠ [] ∧ signed.2.all Char.isDigit = true then
    let v : Int :=
      if signed.1 then -(digitsValue signed.2 : Int) else (digitsValue signed.2 : Int)
    if -2147483648 ≤ v ∧ v ≤ 2147483647 then some v else none
  else none

/-- A call of one of the two mutators. -/
inductive Call where
  | addNode (id : Int) (characteristics : List String)
  | addEdge (id1 id2 : Int)
  deriving DecidableEq, Repr

/-- The effect of a call on the network. -/
def Call.run (s : SocialNetwork) : Call → SocialNetwork
  | Call.addNode id characteristics => s.addNode id characteristics
  | Call.addEdge id1 id2 => s.addEdge id1 id2

/-- Specification side: the call of a well-formed node line `<id> <c1> ... <cn>`: the
first token is the integer id, the remaining tokens form the characteristic set. -/
def specNodeLine (line : List Char) : Option Call :=
  match tokens line with
  | [] => none
  | t :: ts => (intTokenValue t).map (fun id => Call.addNode id (ts.foldl usInsert []))

/-- Specification side: the call of a well-formed edge line `<a> <b>`: exactly two
tokens, both integers. -/
def specEdgeLine (line : List Char) : Option Call :=
  match tokens line with
  | [a, b] =>
    match intTokenValue a, intTokenValue b with
    | some id1, some id2 => some (Call.addEdge id1 id2)
    | _, _ => none
  | _ => none

/-- Specification side: the calls of a source all of whose lines are well-formed, in
file order; `none` when some line is not.  Lines are node lines up to the first
marker line and edge lines after it. -/
def specCalls : Bool → List (List Char) → Option (List Call)
  | _, [] => some []
  | inNodeSection, line :: rest =>
    if line = edgesLine then specCalls false rest
    else
      match (if inNodeSection then specNodeLine line else specEdgeLine line),
        specCalls inNodeSection rest with
      | some c, some cs => some (c :: cs)
      | _, _ => none

/-- The test of malformed lines: a node-section line without a leading integer, an
edge-section line that does not start with two integers.  The loop applies it to
the lines other than the marker, and skips those that meet it with a diagnostic. -/
def isMalformed (inNodeSection : Bool) (line : List Char) : Bool :=
  if inNodeSection then (extractInt line).isNone
  else
    match extractInt line with
    | none => true
    | some (_, rest) => (extractInt rest).isNone

/-- The lines of a source without the malformed ones.  The first marker line is the
section switch and is kept; a marker line met in the edge section is an edge-section
line that does not start with two integers and is dropped with the others. -/
def dropMalformed : Bool → List (List Char) → List (List Char)
  | _, [] => []
  | inNodeSection, line :: rest =>
    if line = edgesLine then
      if inNodeSection then line :: dropMalformed false rest else dropMalformed false rest
    else if isMalformed inNodeSection line then dropMalformed inNodeSection rest
    else line :: dropMalformed inNodeSection rest

/-- The text whose lines are the given ones, each ended by a newline. -/
def joinLines : List (List Char) → List Char
  | [] => []
  | line :: rest => line ++ '\n' :: joinLines rest

/-- Specification side: the diagnostic owed to the line at the 1-based `position`:
none to a marker line, one to a line skipped as malformed, none to any other. -/
def specDiagnosticOf (inNodeSection : Bool) (position : Int) (line : List Char) :
    List Diagnostic :=
  if line = edgesLine then []
  else if isMalformed inNodeSection line then
    [if inNodeSection then Diagnostic.nodeIdError position
     else Diagnostic.edgeError position]
  else []

/-- Specification side: the diagnostics owed to the lines `rest` that follow the
lines `seen`: a line is in the node section iff no earlier line is the marker, and
its position counts every earlier line. -/
def specDiagnosticsAfter (seen : List (List Char)) : List (List Char) → List Diagnostic
  | [] => []
  | line :: rest =>
    specDiagnosticOf (decide (edgesLine ∉ seen)) ((seen.length : Int) + 1) line ++
      specDiagnosticsAfter (seen ++ [line]) rest

/-- Specification side: the diagnostics of a whole source. -/
def specDiagnostics (lines : List (List Char)) : List Diagnostic :=
  specDiagnosticsAfter [] lines

/-- The lines of a source text. -/
def linesOf (text : String) : List (List Char) := getLines text.toList []

end SocialNetwork

/-! ## Models built by a sequence of calls -/

namespace SocialNetwork

/-- The network built from a fresh one by a sequence of calls, in order. -/
def build (calls : List Call) : SocialNetwork := calls.foldl Call.run empty

/-- The unordered pair of two ids, written smaller id first. -/
def unorderedPair (a b : Int) : Int × Int := if a ≤ b then (a, b) else (b, a)

/-- The pair a call adds to the graph, if any. -/
def Call.pair : Call → Option (Int × Int)
  | Call.addEdge id1 id2 => some (unorderedPair id1 id2)
  | Call.addNode _ _ => none

/-- Specification side: the distinct unordered pairs of the `addEdge` calls of a
sequence of calls. -/
def addedPairs (calls : List Call) : Finset (Int × Int) :=
  (calls.filterMap Call.pair).toFinset

/-- The sum of the sizes of the stored neighbor sets. -/
def degreeSum (s : SocialNetwork) : Nat :=
  (s.adjList.map (fun pair => pair.2.length)).sum

/-- Specification side: the characteristic tokens of the accepted node lines of a
source, that is, for every line before the first marker line that starts with an
integer, the tokens that follow that integer. -/
def acceptedNodeTokens : List (List Char) → List String
  | [] => []
  | line :: rest =>
    if line = edgesLine then []
    else
      (match extractInt line with
        | some (_, afterId) => tokens afterId
        | none => []) ++ acceptedNodeTokens rest

end SocialNetwork

/-! ## Lemmas on the containers -/

section Containers

variable {α κ ν : Type} [DecidableEq α] [DecidableEq κ]

theorem mem_usInsert (s : List α) (x y : α) : y ∈ usInsert s x ↔ y = x ∨ y ∈ s := by
  unfold usInsert
  split
  · constructor
    · intro h; exact Or.inr h
    · rintro (h | h)
      · subst h; assumption
      · exact h
  · simp

theorem nodup_usInsert (s : List α) (x : α) (h : s.Nodup) : (usInsert s x).Nodup := by
  unfold usInsert
  split
  · exact h
  · exact List.nodup_cons.mpr ⟨by assumption, h⟩

theorem usInsert_of_mem (s : List α) (x : α) (h : x ∈ s) : usInsert s x = s := by
  simp [usInsert, h]

theorem length_usInsert_of_not_mem (s : List α) (x : α) (h : x ∉ s) :
    (usInsert s x).length = s.length + 1 := by
  simp [usInsert, h]

theorem mem_foldl_usInsert (xs : List α) (s : List α) (y : α) :
    y ∈ xs.foldl usInsert s ↔ y ∈ s ∨ y ∈ xs := by
  induction xs generalizing s with
  | nil => simp
  | cons x xs ih =>
    simp only [List.foldl_cons, ih, mem_usInsert, List.mem_cons]
    tauto

theorem nodup_foldl_usInsert (xs : List α) (s : List α) (h : s.Nodup) :
    (xs.foldl usInsert s).Nodup := by
  induction xs generalizing s with
  | nil => simpa using h
  | cons x xs ih => exact ih _ (nodup_usInsert s x h)

theorem umFind_eq_none_iff (m : List (κ × ν)) (k : κ) :
    umFind m k = none ↔ k ∉ umKeys m := by
  induction m with
  | nil => simp [umFind, umKeys]
  | cons p m ih =>
    obtain ⟨k1, v1⟩ := p
    by_cases h : k1 = k
    · simp [umFind, umKeys, h]
    · have h2 : ¬ k = k1 := fun e => h e.symm
      simpa [umFind, umKeys, h, h2] using ih

theorem umFind_mem (m : List (κ × ν)) (k : κ) (v : ν) (h : umFind m k = some v) :
    (k, v) ∈ m := by
  induction m with
  | nil => simp [umFind] at h
  | cons p m ih =>
    obtain ⟨k1, v1⟩ := p
    by_cases hk : k1 = k
    · simp [umFind, hk] at h
      subst hk; subst h; simp
    · simp [umFind, hk] at h
      exact List.mem_cons_of_mem _ (ih h)

theorem umFind_of_mem (m : List (κ × ν)) (k : κ) (v : ν) (hnd : (umKeys m).Nodup)
    (h : (k, v) ∈ m) : umFind m k = some v := by
  induction m with
  | nil => simp at h
  | cons p m ih =>
    obtain ⟨k1, v1⟩ := p
    simp only [umKeys, List.map_cons, List.nodup_cons] at hnd
    rcases List.mem_cons.mp h with h1 | h1
    · injection h1 with h2 h3
      subst h2; subst h3; simp [umFind]
    · have hk : k1 ≠ k := by
        intro e; subst e
        exact hnd.1 (List.mem_map.mpr ⟨(k1, v), h1, rfl⟩)
      simp only [umFind, hk, if_false]
      exact ih hnd.2 h1

theorem umFind_isSome_iff (m : List (κ × ν)) (k : κ) :
    (∃ v, umFind m k = some v) ↔ k ∈ umKeys m := by
  have h := umFind_eq_none_iff m k
  cases hf : umFind m k with
  | none => simp [hf] at h; simp [h]
  | some v => simp [hf] at h; simp [h]

theorem umKeys_umUpdate (m : List (κ × ν)) (k : κ) (f : ν → ν) :
    umKeys (umUpdate m k f) = umKeys m := by
  induction m with
  | nil => rfl
  | cons p m ih =>
    obtain ⟨k1, v1⟩ := p
    by_cases h : k1 = k
    · simp [umUpdate, umKeys, h]
    · simp only [umUpdate, h, if_false, umKeys, List.map_cons] at ih ⊢
      rw [ih]

theorem umFind_umUpdate (m : List (κ × ν)) (k k2 : κ) (f : ν → ν) :
    umFind (umUpdate m k f) k2 = if k2 = k then (umFind m k).map f else umFind m k2 := by
  induction m with
  | nil => simp [umUpdate, umFind]
  | cons p m ih =>
    obtain ⟨k1, v1⟩ := p
    by_cases h : k1 = k
    · subst h
      by_cases h2 : k2 = k1
      · subst h2; simp [umUpdate, umFind]
      · have h3 : ¬ k1 = k2 := fun e => h2 e.symm
        simp [umUpdate, umFind, h2, h3]
    · by_cases h2 : k2 = k
      · subst h2
        simp only [umUpdate, h, if_false, umFind, ih, if_true]
      · simp only [umUpdate, h, if_false, umFind, ih, h2]

theorem mem_umUpdate (m : List (κ × ν)) (k : κ) (f : ν → ν) (p : κ × ν)
    (h : p ∈ umUpdate m k f) : p ∈ m ∨ ∃ v, (k, v) ∈ m ∧ p = (k, f v) := by
  induction m with
  | nil => simp [umUpdate] at h
  | cons q m ih =>
    obtain ⟨k1, v1⟩ := q
    by_cases hk : k1 = k
    · simp only [umUpdate, hk, if_true, List.mem_cons] at h
      rcases h with h | h
      · exact Or.inr ⟨v1, by simp [hk], h⟩
      · exact Or.inl (List.mem_cons_of_mem _ h)
    · simp only [umUpdate, hk, if_false, List.mem_cons] at h
      rcases h with h | h
      · exact Or.inl (by simp [h])
      · rcases ih h with h1 | ⟨v, hv, e⟩
        · exact Or.inl (List.mem_cons_of_mem _ h1)
        · exact Or.inr ⟨v, List.mem_cons_of_mem _ hv, e⟩

theorem umUpdate_of_fixed (m : List (κ × ν)) (k : κ) (f : ν → ν)
    (h : ∀ v, umFind m k = some v → f v = v) : umUpdate m k f = m := by
  induction m with
  | nil => rfl
  | cons p m ih =>
    obtain ⟨k1, v1⟩ := p
    by_cases hk : k1 = k
    · have := h v1 (by simp [umFind, hk])
      simp [umUpdate, hk, this]
    · simp only [umUpdate, hk, if_false]
      rw [ih (fun v hv => h v (by simpa [umFind, hk] using hv))]

theorem umUpdate_umUpdate (m : List (κ × ν)) (k : κ) (f g : ν → ν) :
    umUpdate (umUpdate m k f) k g = umUpdate m k (fun v => g (f v)) := by
  induction m with
  | nil => rfl
  | cons p m ih =>
    obtain ⟨k1, v1⟩ := p
    by_cases hk : k1 = k
    · simp [umUpdate, hk]
    · simp only [umUpdate, hk, if_false]
      rw [ih]

theorem umKeys_umEmplace (m : List (κ × ν)) (k : κ) (v : ν) :
    umKeys (umEmplace m k v) = if k ∈ umKeys m then umKeys m else k :: umKeys m := by
  unfold umEmplace
  cases hf : umFind m k with
  | none =>
    have := (umFind_eq_none_iff m k).mp hf
    rw [if_neg this]
    rfl
  | some w =>
    have := (umFind_isSome_iff m k).mp ⟨w, hf⟩
    rw [if_pos this]

theorem umFind_umEmplace (m : List (κ × ν)) (k k2 : κ) (v : ν) :
    umFind (umEmplace m k v) k2 =
      if k2 = k then some ((umFind m k).getD v) else umFind m k2 := by
  unfold umEmplace
  cases hf : umFind m k with
  | none =>
    by_cases h : k2 = k
    · subst h; simp [umFind]
    · have h3 : ¬ k = k2 := fun e => h e.symm
      simp [umFind, h, h3]
  | some w =>
    by_cases h : k2 = k
    · subst h; simp [hf]
    · simp [h]

theorem umEmplace_of_mem (m : List (κ × ν)) (k : κ) (v : ν) (h : k ∈ umKeys m) :
    umEmplace m k v = m := by
  obtain ⟨w, hw⟩ := (umFind_isSome_iff m k).mpr h
  simp [umEmplace, hw]

theorem nodup_umKeys_umEmplace (m : List (κ × ν)) (k : κ) (v : ν)
    (h : (umKeys m).Nodup) : (umKeys (umEmplace m k v)).Nodup := by
  rw [umKeys_umEmplace]
  split
  · exact h
  · exact List.nodup_cons.mpr ⟨by assumption, h⟩

theorem mem_umEmplace (m : List (κ × ν)) (k : κ) (v : ν) (p : κ × ν)
    (h : p ∈ umEmplace m k v) : p ∈ m ∨ p = (k, v) := by
  unfold umEmplace at h
  cases hf : umFind m k with
  | none => simp [hf] at h; tauto
  | some w => simp [hf] at h; exact Or.inl h

end Containers

/-! ## Lemmas on `std::sort` -/

section Sorting

variable {α : Type}

theorem perm_sortInsert (comp : α → α → Bool) (x : α) (l : List α) :
    (sortInsert comp x l).Perm (x :: l) := by
  induction l with
  | nil => exact List.Perm.refl _
  | cons y ys ih =>
    unfold sortInsert
    split
    · exact ((List.Perm.cons y ih).trans (List.Perm.swap x y ys))
    · exact List.Perm.refl _

theorem perm_stdSort (comp : α → α → Bool) (l : List α) : (stdSort comp l).Perm l := by
  induction l with
  | nil => exact List.Perm.refl _
  | cons x xs ih =>
    exact (perm_sortInsert comp x (stdSort comp xs)).trans (List.Perm.cons x ih)

/-- The output of `stdSort` is ordered for every comparator that is a strict weak
ordering (the precondition of `std::sort`): no element is placed by `comp` before
an element that precedes it. -/
theorem pairwise_stdSort (comp : α → α → Bool)
    (hasym : ∀ a b, comp a b = true → comp b a = false)
    (htrans : ∀ a b c, comp a b = false → comp b c = false → comp a c = false)
    (l : List α) : (stdSort comp l).Pairwise (fun a b => comp b a = false) := by
  have ins : ∀ (x : α) (m : List α), m.Pairwise (fun a b => comp b a = false) →
      (sortInsert comp x m).Pairwise (fun a b => comp b a = false) := by
    intro x m
    induction m with
    | nil => intro _; simp [sortInsert]
    | cons y ys ih =>
      intro h
      rw [List.pairwise_cons] at h
      unfold sortInsert
      cases hc : comp y x with
      | true =>
        simp only [if_true]
        refine List.pairwise_cons.mpr ⟨?_, ih h.2⟩
        intro z hz
        rcases List.mem_cons.mp ((perm_sortInsert comp x ys).mem_iff.mp hz) with e | e
        · subst e; exact hasym _ _ hc
        · exact h.1 z e
      | false =>
        simp only [Bool.false_eq_true, if_false]
        refine List.pairwise_cons.mpr ⟨?_, List.pairwise_cons.mpr h⟩
        intro z hz
        rcases List.mem_cons.mp hz with e | e
        · subst e; exact hc
        · exact htrans _ _ _ (h.1 z e) hc
  induction l with
  | nil => simp [stdSort]
  | cons x xs ih => exact ins x _ ih

theorem pairwise_stdSort_bySize (l : List (Int × List Int)) :
    (stdSort SocialNetwork.bySize l).Pairwise (fun a b => a.2.length ≥ b.2.length) := by
  have h := pairwise_stdSort SocialNetwork.bySize
    (by intro a b; simp only [SocialNetwork.bySize, decide_eq_true_eq, decide_eq_false_iff_not]; omega)
    (by intro a b c; simp only [SocialNetwork.bySize, decide_eq_false_iff_not]; omega) l
  refine h.imp ?_
  intro a b hab
  simp only [SocialNetwork.bySize, decide_eq_false_iff_not] at hab
  omega

theorem pairwise_stdSort_byCount (l : List (Int × Int)) :
    (stdSort GuiV2.byCount l).Pairwise (fun a b => a.2 ≥ b.2) := by
  have h := pairwise_stdSort GuiV2.byCount
    (by intro a b; simp only [GuiV2.byCount, decide_eq_true_eq, decide_eq_false_iff_not]; omega)
    (by intro a b c; simp only [GuiV2.byCount, decide_eq_false_iff_not]; omega) l
  refine h.imp ?_
  intro a b hab
  simp only [GuiV2.byCount, decide_eq_false_iff_not] at hab
  omega

end Sorting

/-! ## Lemmas on the queries -/

namespace SocialNetwork

theorem matchesTarget_iff (characteristics target : List String) :
    matchesTarget characteristics target = true ↔ ∀ t ∈ target, t ∈ characteristics := by
  simp [matchesTarget, List.all_eq_true]

theorem matchesTarget_nil (characteristics : List String) :
    matchesTarget characteristics [] = true := by
  simp [matchesTarget]

theorem mem_classify_fst (keyword : String) (l : List (Int × Node)) (acc : List Int × List Int)
    (x : Int) :
    x ∈ (classify keyword l acc).1 ↔
      x ∈ acc.1 ∨ ∃ p ∈ l, p.2.id = x ∧ keyword ∈ p.2.characteristics := by
  induction l generalizing acc with
  | nil => simp [classify]
  | cons q l ih =>
    obtain ⟨k, node⟩ := q
    obtain ⟨r, n⟩ := acc
    unfold classify
    split
    · rw [ih]
      simp only [mem_usInsert, List.mem_cons, exists_eq_or_imp]
      constructor
      · rintro ((h | h) | h)
        · exact Or.inr (Or.inl ⟨h.symm, by assumption⟩)
        · exact Or.inl h
        · exact Or.inr (Or.inr h)
      · rintro (h | ⟨h, _⟩ | h)
        · exact Or.inl (Or.inr h)
        · exact Or.inl (Or.inl h.symm)
        · exact Or.inr h
    · rw [ih]
      simp only [List.mem_cons, exists_eq_or_imp]
      constructor
      · rintro (h | h)
        · exact Or.inl h
        · exact Or.inr (Or.inr h)
      · rintro (h | ⟨_, h⟩ | h)
        · exact Or.inl h
        · contradiction
        · exact Or.inr h

theorem mem_classify_snd (keyword : String) (l : List (Int × Node)) (acc : List Int × List Int)
    (x : Int) :
    x ∈ (classify keyword l acc).2 ↔
      x ∈ acc.2 ∨ ∃ p ∈ l, p.2.id = x ∧ keyword ∉ p.2.characteristics := by
  induction l generalizing acc with
  | nil => simp [classify]
  | cons q l ih =>
    obtain ⟨k, node⟩ := q
    obtain ⟨r, n⟩ := acc
    unfold classify
    split
    · rw [ih]
      simp only [List.mem_cons, exists_eq_or_imp]
      constructor
      · rintro (h | h)
        · exact Or.inl h
        · exact Or.inr (Or.inr h)
      · rintro (h | ⟨_, h⟩ | h)
        · exact Or.inl h
        · contradiction
        · exact Or.inr h
    · rw [ih]
      simp only [mem_usInsert, List.mem_cons, exists_eq_or_imp]
      constructor
      · rintro ((h | h) | h)
        · exact Or.inr (Or.inl ⟨h.symm, by assumption⟩)
        · exact Or.inl h
        · exact Or.inr (Or.inr h)
      · rintro (h | ⟨h, _⟩ | h)
        · exact Or.inl (Or.inr h)
        · exact Or.inl (Or.inl h.symm)
        · exact Or.inr h

theorem nodup_classify (keyword : String) (l : List (Int × Node)) (acc : List Int × List Int)
    (h1 : acc.1.Nodup) (h2 : acc.2.Nodup) :
    (classify keyword l acc).1.Nodup ∧ (classify keyword l acc).2.Nodup := by
  induction l generalizing acc with
  | nil => exact ⟨h1, h2⟩
  | cons q l ih =>
    obtain ⟨k, node⟩ := q
    obtain ⟨r, n⟩ := acc
    unfold classify
    split
    · exact ih _ (nodup_usInsert _ _ h1) h2
    · exact ih _ h1 (nodup_usInsert _ _ h2)

theorem WF.table {s : SocialNetwork} (h : WF s) : NodeTableWF s :=
  ⟨h.nodes_keys, h.nodes_id⟩

/-- In a well-formed table an id determines its node. -/
theorem node_unique (s : SocialNetwork) (h : NodeTableWF s) (p q : Int × Node)
    (hp : p ∈ s.nodes) (hq : q ∈ s.nodes) (e : p.2.id = q.2.id) : p = q := by
  have e1 : p.1 = q.1 := by rw [← h.nodes_id p hp, ← h.nodes_id q hq, e]
  obtain ⟨pk, pn⟩ := p
  obtain ⟨qk, qn⟩ := q
  simp only at e1
  subst e1
  have f1 := umFind_of_mem s.nodes pk pn h.nodes_keys hp
  have f2 := umFind_of_mem s.nodes pk qn h.nodes_keys hq
  rw [f1] at f2
  injection f2 with f3
  rw [f3]

/-- Membership in the result of `postMessage`. -/
theorem mem_postMessage (s : SocialNetwork) (keyword : String) (i : Int) (status : String) :
    (i, status) ∈ postMessage s keyword ↔
      (status = "Received" ∧ ∃ p ∈ s.nodes, p.2.id = i ∧ keyword ∈ p.2.characteristics) ∨
      (status = "Not Received" ∧
        ∃ p ∈ s.nodes, p.2.id = i ∧ keyword ∉ p.2.characteristics) := by
  simp only [postMessage, List.mem_append, List.mem_map, Prod.mk.injEq]
  constructor
  · rintro (⟨x, hx, e1, e2⟩ | ⟨x, hx, e1, e2⟩)
    · subst e1
      rw [mem_classify_fst] at hx
      simp only [List.not_mem_nil, false_or] at hx
      exact Or.inl ⟨e2.symm, hx⟩
    · subst e1
      rw [mem_classify_snd] at hx
      simp only [List.not_mem_nil, false_or] at hx
      exact Or.inr ⟨e2.symm, hx⟩
  · rintro (⟨e, hx⟩ | ⟨e, hx⟩)
    · exact Or.inl ⟨i, (mem_classify_fst _ _ _ _).mpr (Or.inr hx), rfl, e.symm⟩
    · exact Or.inr ⟨i, (mem_classify_snd _ _ _ _).mpr (Or.inr hx), rfl, e.symm⟩

/-- The ids listed by `postMessage`, in order. -/
theorem postMessage_ids (s : SocialNetwork) (keyword : String) :
    (postMessage s keyword).map Prod.fst =
      (classify keyword s.nodes ([], [])).1 ++ (classify keyword s.nodes ([], [])).2 := by
  simp [postMessage, List.map_append, List.map_map, Function.comp_def]

theorem nodup_postMessage_ids (s : SocialNetwork) (h : NodeTableWF s) (keyword : String) :
    ((postMessage s keyword).map Prod.fst).Nodup := by
  rw [postMessage_ids]
  have hnd := nodup_classify keyword s.nodes ([], []) List.nodup_nil List.nodup_nil
  refine List.nodup_append.mpr ⟨hnd.1, hnd.2, ?_⟩
  intro x hx1 hx2
  rw [mem_classify_fst] at hx1
  rw [mem_classify_snd] at hx2
  simp only [List.not_mem_nil, false_or] at hx1 hx2
  obtain ⟨p, hp, e1, hin⟩ := hx1
  obtain ⟨q, hq, e2, hout⟩ := hx2
  have := node_unique s h p q hp hq (e1.trans e2.symm)
  subst this
  exact hout hin

theorem mem_postMessage_ids (s : SocialNetwork) (h : NodeTableWF s) (keyword : String) (i : Int) :
    i ∈ (postMessage s keyword).map Prod.fst ↔ i ∈ umKeys s.nodes := by
  rw [postMessage_ids, List.mem_append, mem_classify_fst, mem_classify_snd]
  simp only [List.not_mem_nil, false_or, umKeys, List.mem_map]
  constructor
  · rintro (⟨p, hp, e, _⟩ | ⟨p, hp, e, _⟩)
    · exact ⟨p, hp, by rw [← h.nodes_id p hp, e]⟩
    · exact ⟨p, hp, by rw [← h.nodes_id p hp, e]⟩
  · rintro ⟨p, hp, e⟩
    have e2 : p.2.id = i := by rw [h.nodes_id p hp, e]
    by_cases hk : keyword ∈ p.2.characteristics
    · exact Or.inl ⟨p, hp, e2, hk⟩
    · exact Or.inr ⟨p, hp, e2, hk⟩

/-- The label `postMessage` gives to a node of a well-formed table. -/
theorem postMessage_classifies_helper (s : SocialNetwork) (hs : NodeTableWF s) (k : String)
    (p : Int × Node) (hp : p ∈ s.nodes) :
    ((p.1, "Received") ∈ postMessage s k ↔ k ∈ p.2.characteristics) ∧
    ((p.1, "Not Received") ∈ postMessage s k ↔ k ∉ p.2.characteristics) := by
  have key : ∀ q ∈ s.nodes, q.2.id = p.1 → q = p := by
    intro q hq e
    exact node_unique s hs q p hq hp (e.trans (hs.nodes_id p hp).symm)
  constructor
  · rw [mem_postMessage]
    constructor
    · rintro (⟨_, q, hq, e, hk⟩ | ⟨e, _⟩)
      · rw [← key q hq e]; exact hk
      · exact absurd e (by decide)
    · intro hk
      exact Or.inl ⟨rfl, p, hp, hs.nodes_id p hp, hk⟩
  · rw [mem_postMessage]
    constructor
    · rintro (⟨e, _⟩ | ⟨_, q, hq, e, hk⟩)
      · exact absurd e (by decide)
      · rw [← key q hq e]; exact hk
    · intro hk
      exact Or.inr ⟨rfl, p, hp, hs.nodes_id p hp, hk⟩

/-- Membership in the result of `targetAds`. -/
theorem mem_targetAds (s : SocialNetwork) (target : List String) (i : Int) :
    i ∈ targetAds s target ↔
      ∃ p ∈ s.nodes, p.2.id = i ∧ ∀ t ∈ target, t ∈ p.2.characteristics := by
  simp only [targetAds, List.mem_map, List.mem_filter, matchesTarget_iff]
  constructor
  · rintro ⟨p, ⟨hp, hm⟩, e⟩
    exact ⟨p, hp, e, hm⟩
  · rintro ⟨p, hp, e, hm⟩
    exact ⟨p, ⟨hp, hm⟩, e⟩

theorem targetAds_eq_keys (s : SocialNetwork) (h : NodeTableWF s) (target : List String) :
    targetAds s target =
      umKeys (s.nodes.filter (fun pair => matchesTarget pair.2.characteristics target)) := by
  unfold targetAds umKeys
  apply List.map_congr_left
  intro p hp
  exact h.nodes_id p (List.mem_of_mem_filter hp)

theorem nodup_targetAds (s : SocialNetwork) (h : NodeTableWF s) (target : List String) :
    (targetAds s target).Nodup := by
  rw [targetAds_eq_keys s h]
  exact List.Nodup.sublist (List.Sublist.map _ (List.filter_sublist _)) h.nodes_keys

end SocialNetwork

/-! ## Lemmas on the mutators -/

section Containers

variable {κ ν : Type} [DecidableEq κ]

/-- The access pattern `m[k] = f (m[k])` of `operator[]`: the key is created with the
default value when absent, then its value is replaced. -/
theorem umFind_update_emplace (m : List (κ × ν)) (k x : κ) (d : ν) (f : ν → ν) :
    umFind (umUpdate (umEmplace m k d) k f) x =
      if x = k then some (f ((umFind m k).getD d)) else umFind m x := by
  rw [umFind_umUpdate]
  by_cases h : x = k
  · simp [h, umFind_umEmplace]
  · simp [h, umFind_umEmplace]

theorem nodup_keys_update_emplace (m : List (κ × ν)) (k : κ) (d : ν) (f : ν → ν)
    (h : (umKeys m).Nodup) : (umKeys (umUpdate (umEmplace m k d) k f)).Nodup := by
  rw [umKeys_umUpdate]
  exact nodup_umKeys_umEmplace m k d h

theorem forall_update_emplace (P : κ × ν → Prop) (m : List (κ × ν)) (k : κ) (d : ν)
    (f : ν → ν) (hm : ∀ p ∈ m, P p) (hd : P (k, d)) (hf : ∀ v, P (k, v) → P (k, f v)) :
    ∀ p ∈ umUpdate (umEmplace m k d) k f, P p := by
  have he : ∀ p ∈ umEmplace m k d, P p := by
    intro p hp
    rcases mem_umEmplace m k d p hp with h | h
    · exact hm p h
    · rw [h]; exact hd
  intro p hp
  rcases mem_umUpdate _ k f p hp with h | ⟨v, hv, e⟩
  · exact he p h
  · rw [e]; exact hf v (he _ hv)

end Containers

namespace SocialNetwork

theorem addNode_nodes (s : SocialNetwork) (id : Int) (cs : List String) :
    (s.addNode id cs).nodes =
      umUpdate (umEmplace s.nodes id ⟨id, []⟩) id
        (fun n => { n with characteristics := cs }) := rfl

theorem addEdge_adjList (s : SocialNetwork) (a b : Int) :
    (s.addEdge a b).adjList =
      umUpdate (umEmplace (umUpdate (umEmplace s.adjList a []) a
        (fun ns => usInsert ns b)) b []) b (fun ns => usInsert ns a) := rfl

theorem addNode_adjList (s : SocialNetwork) (id : Int) (cs : List String) :
    (s.addNode id cs).adjList = s.adjList := rfl

theorem addEdge_nodes (s : SocialNetwork) (a b : Int) :
    (s.addEdge a b).nodes = s.nodes := rfl

theorem addEdge_vocabulary (s : SocialNetwork) (a b : Int) :
    (s.addEdge a b).availableCharacteristics = s.availableCharacteristics := rfl

theorem neighbors_addNode (s : SocialNetwork) (id : Int) (cs : List String) (x : Int) :
    (s.addNode id cs).neighbors x = s.neighbors x := rfl

theorem umFind_addEdge (s : SocialNetwork) (a b x : Int) :
    umFind (s.addEdge a b).adjList x =
      if x = b then
        some (usInsert (if b = a then usInsert (s.neighbors a) b else s.neighbors b) a)
      else if x = a then some (usInsert (s.neighbors a) b)
      else umFind s.adjList x := by
  simp only [addEdge_adjList, umFind_update_emplace, neighbors]
  by_cases hb : x = b
  · by_cases hab : b = a
    · simp [hb, hab]
    · simp [hb, hab]
  · simp [hb]

theorem neighbors_addEdge (s : SocialNetwork) (a b x : Int) :
    (s.addEdge a b).neighbors x =
      if x = b then usInsert (if b = a then usInsert (s.neighbors a) b else s.neighbors b) a
      else if x = a then usInsert (s.neighbors a) b
      else s.neighbors x := by
  unfold neighbors
  rw [umFind_addEdge]
  by_cases hb : x = b
  · simp [hb, neighbors]
  · by_cases ha : x = a
    · subst ha
      simp [hb, neighbors]
    · simp [hb, ha]

theorem mem_neighbors_addEdge (s : SocialNetwork) (a b x y : Int) :
    y ∈ (s.addEdge a b).neighbors x ↔
      y ∈ s.neighbors x ∨ (x = a ∧ y = b) ∨ (x = b ∧ y = a) := by
  rw [neighbors_addEdge]
  by_cases hb : x = b
  · by_cases hab : b = a
    · subst hb; subst hab
      simp only [if_true, mem_usInsert]
      tauto
    · subst hb
      simp only [if_true, hab, if_false, mem_usInsert]
      tauto
  · by_cases ha : x = a
    · subst ha
      simp only [hb, if_false, if_true, mem_usInsert]
      tauto
    · simp only [hb, ha, if_false]
      tauto

theorem umKeys_addEdge_nodup (s : SocialNetwork) (a b : Int) (h : (umKeys s.adjList).Nodup) :
    (umKeys (s.addEdge a b).adjList).Nodup := by
  rw [addEdge_adjList]
  exact nodup_keys_update_emplace _ _ _ _ (nodup_keys_update_emplace _ _ _ _ h)

theorem mem_umKeys_addEdge (s : SocialNetwork) (a b x : Int) :
    x ∈ umKeys (s.addEdge a b).adjList ↔ x = a ∨ x = b ∨ x ∈ umKeys s.adjList := by
  rw [← umFind_isSome_iff, ← umFind_isSome_iff, umFind_addEdge]
  by_cases hb : x = b
  · simp [hb]
  · by_cases ha : x = a
    · subst ha
      simp [hb]
    · simp [hb, ha]

theorem WF_empty : WF empty := by
  constructor <;> simp [empty, umKeys]

theorem WF_addEdge (s : SocialNetwork) (a b : Int) (h : WF s) : WF (s.addEdge a b) := by
  refine ⟨h.nodes_keys, h.nodes_id, h.nodes_chars, umKeys_addEdge_nodup s a b h.adj_keys, ?_,
    h.vocabulary⟩
  rw [addEdge_adjList]
  refine forall_update_emplace (fun p : Int × List Int => p.2.Nodup) _ _ _ _ ?_
    List.nodup_nil (fun v hv => nodup_usInsert _ _ hv)
  exact forall_update_emplace (fun p : Int × List Int => p.2.Nodup) _ _ _ _ h.adj_sets
    List.nodup_nil (fun v hv => nodup_usInsert _ _ hv)

theorem umFind_addNode (s : SocialNetwork) (id x : Int) (cs : List String) :
    umFind (s.addNode id cs).nodes x =
      if x = id then
        some { (umFind s.nodes id).getD ⟨id, []⟩ with characteristics := cs }
      else umFind s.nodes x := by
  rw [addNode_nodes, umFind_update_emplace]

theorem WF_addNode (s : SocialNetwork) (id : Int) (cs : List String) (h : WF s)
    (hcs : cs.Nodup) : WF (s.addNode id cs) := by
  refine ⟨?_, ?_, ?_, h.adj_keys, h.adj_sets, ?_⟩
  · rw [addNode_nodes]
    exact nodup_keys_update_emplace _ _ _ _ h.nodes_keys
  · rw [addNode_nodes]
    exact forall_update_emplace (fun p : Int × Node => p.2.id = p.1) _ _ _ _ h.nodes_id
      rfl (fun v hv => hv)
  · rw [addNode_nodes]
    exact forall_update_emplace (fun p : Int × Node => p.2.characteristics.Nodup) _ _ _ _
      h.nodes_chars List.nodup_nil (fun v _ => hcs)
  · exact nodup_foldl_usInsert _ _ h.vocabulary

theorem NodeTableWF_addNode (s : SocialNetwork) (id : Int) (cs : List String)
    (h : NodeTableWF s) : NodeTableWF (s.addNode id cs) := by
  refine ⟨?_, ?_⟩
  · rw [addNode_nodes]
    exact nodup_keys_update_emplace _ _ _ _ h.nodes_keys
  · rw [addNode_nodes]
    exact forall_update_emplace (fun p : Int × Node => p.2.id = p.1) _ _ _ _ h.nodes_id
      rfl (fun v hv => hv)

theorem nodup_readCharacteristics (stream : List Char) :
    (readCharacteristics stream).Nodup :=
  nodup_foldl_usInsert _ _ List.nodup_nil

/-- Every property kept by `addNode` and `addEdge` is kept by one iteration of the
loop of `readFromFile`. -/
theorem readLine_preserves (P : SocialNetwork → Prop)
    (hN : ∀ s id cs, P s → cs.Nodup → P (s.addNode id cs))
    (hE : ∀ s a b, P s → P (s.addEdge a b))
    (st : LoadState) (line : List Char) (h : P st.net) : P (readLine st line).net := by
  unfold readLine
  split
  · exact h
  · split
    · split
      · exact h
      · exact hN _ _ _ h (nodup_readCharacteristics _)
    · split
      · exact h
      · split
        · exact h
        · exact hE _ _ _ h

theorem foldl_readLine_preserves (P : SocialNetwork → Prop)
    (hN : ∀ s id cs, P s → cs.Nodup → P (s.addNode id cs))
    (hE : ∀ s a b, P s → P (s.addEdge a b))
    (lines : List (List Char)) (st : LoadState) (h : P st.net) :
    P (lines.foldl readLine st).net := by
  induction lines generalizing st with
  | nil => exact h
  | cons l ls ih => exact ih _ (readLine_preserves P hN hE st l h)

theorem readFromFile_preserves (P : SocialNetwork → Prop)
    (hN : ∀ s id cs, P s → cs.Nodup → P (s.addNode id cs))
    (hE : ∀ s a b, P s → P (s.addEdge a b))
    (s : SocialNetwork) (filename : String) (file : Option String) (h : P s) :
    P (s.readFromFile filename file).1 := by
  cases file with
  | none => exact h
  | some content => exact foldl_readLine_preserves P hN hE _ _ h

/-- Invariants: a property of the fresh network kept by `addNode` and `addEdge`
holds in every reachable state. -/
theorem Reachable.invariant (P : SocialNetwork → Prop) (h0 : P empty)
    (hN : ∀ s id cs, P s → cs.Nodup → P (s.addNode id cs))
    (hE : ∀ s a b, P s → P (s.addEdge a b))
    {s : SocialNetwork} (h : Reachable s) : P s := by
  induction h with
  | init => exact h0
  | addNode id cs _ hcs ih => exact hN _ id cs ih hcs
  | addEdge a b _ ih => exact hE _ a b ih
  | load fn file _ ih => exact readFromFile_preserves P hN hE _ fn file ih

theorem Reachable.wf {s : SocialNetwork} (h : Reachable s) : WF s :=
  Reachable.invariant WF WF_empty (fun s id cs hs hcs => WF_addNode s id cs hs hcs)
    (fun s a b hs => WF_addEdge s a b hs) h

theorem Symmetric_empty : Symmetric empty := by
  intro a b; simp [neighbors, empty, umFind]

theorem Symmetric_addEdge (s : SocialNetwork) (a b : Int) (h : Symmetric s) :
    Symmetric (s.addEdge a b) := by
  intro x y
  rw [mem_neighbors_addEdge, mem_neighbors_addEdge, h x y]
  tauto

theorem Symmetric_addNode (s : SocialNetwork) (id : Int) (cs : List String)
    (h : Symmetric s) : Symmetric (s.addNode id cs) := by
  intro x y
  exact h x y

end SocialNetwork

/-! ## Lemmas on the ranking -/

namespace SocialNetwork

theorem WF_sampleNet : WF sampleNet := by
  constructor <;> decide

theorem dominanceLoop_some (target : List String) (adj : List (Int × List Int))
    (nodes : List (Int × Node)) (acc : List (Int × List Int))
    (out : List (Int × Node) × List (Int × List Int))
    (h : dominanceLoop target adj nodes acc = some out) :
    out = (nodes, acc ++ adj.filter (passesFilter target nodes)) := by
  induction adj generalizing acc with
  | nil =>
    simp only [dominanceLoop, Option.some.injEq] at h
    simp [← h]
  | cons p adj ih =>
    obtain ⟨node, connections⟩ := p
    unfold dominanceLoop at h
    by_cases ht : target = []
    · simp only [ht, ne_eq, not_true_eq_false, if_false] at h
      have := ih _ (by rw [ht]; exact h)
      rw [this]
      simp [passesFilter, ht]
    · simp only [ne_eq, ht, not_false_eq_true, if_true] at h
      cases hf : umFind nodes node with
      | none => simp [hf] at h
      | some nodeObj =>
        simp only [hf] at h
        by_cases hm : matchesTarget nodeObj.characteristics target = true
        · simp only [hm, if_true] at h
          rw [ih _ h]
          simp [passesFilter, ht, hf, hm]
        · simp only [hm, if_false] at h
          rw [ih _ h]
          simp [passesFilter, ht, hf, hm]

theorem dominanceLoop_total (target : List String) (adj : List (Int × List Int))
    (nodes : List (Int × Node)) (acc : List (Int × List Int))
    (h : target = [] ∨ ∀ k ∈ umKeys adj, k ∈ umKeys nodes) :
    ∃ out, dominanceLoop target adj nodes acc = some out := by
  induction adj generalizing acc with
  | nil => exact ⟨_, rfl⟩
  | cons p adj ih =>
    obtain ⟨node, connections⟩ := p
    have h2 : target = [] ∨ ∀ k ∈ umKeys adj, k ∈ umKeys nodes := by
      rcases h with h | h
      · exact Or.inl h
      · exact Or.inr (fun k hk => h k (by simp only [umKeys, List.map_cons, List.mem_cons]; exact Or.inr hk))
    unfold dominanceLoop
    by_cases ht : target = []
    · simp only [ht, ne_eq, not_true_eq_false, if_false]
      have := ih (acc ++ [(node, connections)]) h2
      rw [ht] at this
      exact this
    · simp only [ne_eq, ht, not_false_eq_true, if_true]
      have hk : node ∈ umKeys nodes := by
        rcases h with h | h
        · exact absurd h ht
        · exact h node (by simp [umKeys])
      obtain ⟨nodeObj, hf⟩ := (umFind_isSome_iff nodes node).mpr hk
      simp only [hf]
      split
      · exact ih _ h2
      · exact ih _ h2

/-- Whenever the call returns, the network is unchanged and the vector is the sorted
list of the entries of `adjList` that pass the filter. -/
theorem calculateDominance_some (s : SocialNetwork) (target : List String)
    (out : SocialNetwork × List (Int × List Int))
    (h : calculateDominanceAndInfluence s target = some out) :
    out = (s, stdSort bySize (s.adjList.filter (passesFilter target s.nodes))) := by
  unfold calculateDominanceAndInfluence at h
  cases hl : dominanceLoop target s.adjList s.nodes [] with
  | none => simp [hl] at h
  | some res =>
    have := dominanceLoop_some target s.adjList s.nodes [] res hl
    simp only [hl, Option.some.injEq] at h
    rw [← h, this]
    simp

/-- The call returns when the target is empty or every key of `adjList` is a node. -/
theorem calculateDominance_total (s : SocialNetwork) (target : List String)
    (h : target = [] ∨ ∀ k ∈ umKeys s.adjList, k ∈ umKeys s.nodes) :
    calculateDominanceAndInfluence s target =
      some (s, stdSort bySize (s.adjList.filter (passesFilter target s.nodes))) := by
  obtain ⟨res, hl⟩ := dominanceLoop_total target s.adjList s.nodes [] h
  have hc : calculateDominanceAndInfluence s target =
      some ({ s with nodes := res.1 }, stdSort bySize res.2) := by
    unfold calculateDominanceAndInfluence
    rw [hl]
  rw [hc]
  exact congrArg some (calculateDominance_some s target _ hc)

theorem calculateDominance_nil (s : SocialNetwork) :
    calculateDominanceAndInfluence s [] = some (s, stdSort bySize s.adjList) := by
  rw [calculateDominance_total s [] (Or.inl rfl)]
  have : s.adjList.filter (passesFilter [] s.nodes) = s.adjList := by
    apply List.filter_eq_self.mpr
    intro p _
    simp [passesFilter]
  rw [this]

theorem neighbors_of_mem (s : SocialNetwork) (h : (umKeys s.adjList).Nodup)
    (p : Int × List Int) (hp : p ∈ s.adjList) : s.neighbors p.1 = p.2 := by
  unfold neighbors
  rw [umFind_of_mem s.adjList p.1 p.2 h hp]
  rfl

end SocialNetwork

/-! ## The claims -/

namespace SocialNetwork

/-- C1: in every well-formed state and for every keyword `k`, the ids listed by
`postMessage k` are a rearrangement of the ids of the node table (one entry per
node, no other id); every entry is labelled `Received` or `Not Received`; the entry
of a node is labelled `Received` iff `k` is a member of its characteristic set and
`Not Received` iff it is not, membership being plain string equality, so nodes
holding only `Red` or `reddish` are `Not Received` for `red`.  The function of
`gui_v2.cpp` returns the same vector. -/
theorem postMessage_classifies_every_node (s : SocialNetwork) (hs : WF s) (k : String) :
    ((postMessage s k).map Prod.fst).Perm (umKeys s.nodes) ∧
    ((postMessage s k).map Prod.fst).Nodup ∧
    (∀ e ∈ postMessage s k, e.2 = "Received" ∨ e.2 = "Not Received") ∧
    (∀ p ∈ s.nodes,
      ((p.1, "Received") ∈ postMessage s k ↔ k ∈ p.2.characteristics) ∧
      ((p.1, "Not Received") ∈ postMessage s k ↔ k ∉ p.2.characteristics)) ∧
    GuiV2.postMessage s k = postMessage s k ∧
    postMessage ⟨[(1, ⟨1, ["Red"]⟩), (2, ⟨2, ["reddish"]⟩), (3, ⟨3, ["red"]⟩)], [], []⟩ "red" =
      [(3, "Received"), (2, "Not Received"), (1, "Not Received")] := by
  have hnd := nodup_postMessage_ids s hs.table k
  refine ⟨?_, hnd, ?_, ?_, rfl, by decide⟩
  · exact (List.perm_ext_iff_of_nodup hnd hs.nodes_keys).mpr
      (fun i => mem_postMessage_ids s hs.table k i)
  · rintro ⟨i, status⟩ he
    rcases (mem_postMessage s k i status).mp he with ⟨e, _⟩ | ⟨e, _⟩
    · exact Or.inl e
    · exact Or.inr e
  · intro p hp
    exact postMessage_classifies_helper s hs.table k p hp

/-- Witness of C1 on `sampleNet` with the keyword `red`. -/
theorem postMessage_classifies_every_node_witness :
    WF sampleNet ∧ ((postMessage sampleNet "red").map Prod.fst).Perm (umKeys sampleNet.nodes) :=
  ⟨WF_sampleNet, (postMessage_classifies_every_node sampleNet WF_sampleNet "red").1⟩

/-- C2: in every well-formed state and for every set `S`, `targetAds S` lists no id
twice and lists exactly the ids of the nodes whose characteristic set contains
every member of `S`; for a singleton `S` these are the nodes whose set contains its
only member.  The function of `gui_v2.cpp` returns the same vector. -/
theorem targetAds_exactly_supersets (s : SocialNetwork) (hs : WF s) (S : List String) :
    (targetAds s S).Nodup ∧
    (∀ i, i ∈ targetAds s S ↔
      ∃ n, (i, n) ∈ s.nodes ∧ ∀ t ∈ S, t ∈ n.characteristics) ∧
    (∀ c i, i ∈ targetAds s [c] ↔ ∃ n, (i, n) ∈ s.nodes ∧ c ∈ n.characteristics) ∧
    GuiV2.targetAds s S = targetAds s S := by
  have main : ∀ (T : List String) (i : Int), i ∈ targetAds s T ↔
      ∃ n, (i, n) ∈ s.nodes ∧ ∀ t ∈ T, t ∈ n.characteristics := by
    intro T i
    rw [mem_targetAds]
    constructor
    · rintro ⟨⟨j, n⟩, hp, e, hm⟩
      have : j = i := (hs.nodes_id _ hp).symm.trans e
      subst this
      exact ⟨n, hp, hm⟩
    · rintro ⟨n, hp, hm⟩
      exact ⟨(i, n), hp, hs.nodes_id _ hp, hm⟩
  refine ⟨nodup_targetAds s hs.table S, main S, ?_, rfl⟩
  intro c i
  rw [main [c] i]
  simp

/-- Witness of C2 on `sampleNet` with the target `red`, `blue`. -/
theorem targetAds_exactly_supersets_witness :
    WF sampleNet ∧ (targetAds sampleNet ["red", "blue"]).Nodup :=
  ⟨WF_sampleNet, (targetAds_exactly_supersets sampleNet WF_sampleNet ["red", "blue"]).1⟩

/-- C3: in every well-formed state `targetAds` of the empty set lists exactly the ids
of the node table, none twice, nodes with an empty characteristic set included, and
as many ids as the table has nodes. -/
theorem targetAds_empty_all_nodes (s : SocialNetwork) (hs : WF s) :
    (∀ i, i ∈ targetAds s [] ↔ i ∈ umKeys s.nodes) ∧
    (targetAds s []).Nodup ∧
    (∀ p ∈ s.nodes, p.2.characteristics = [] → p.1 ∈ targetAds s []) ∧
    (targetAds s []).length = s.nodes.length ∧
    (GuiV2.targetAds s []).length = s.nodes.length := by
  have hall : s.nodes.filter (fun pair => matchesTarget pair.2.characteristics []) =
      s.nodes := by
    apply List.filter_eq_self.mpr
    intro p _
    exact matchesTarget_nil _
  have hkeys : targetAds s [] = umKeys s.nodes := by
    rw [targetAds_eq_keys s hs.table, hall]
  have hlen : (targetAds s []).length = s.nodes.length := by
    rw [hkeys]; simp [umKeys]
  refine ⟨fun i => by rw [hkeys], nodup_targetAds s hs.table [], ?_, hlen, hlen⟩
  intro p hp _
  rw [hkeys]
  exact List.mem_map.mpr ⟨p, hp, rfl⟩

/-- Witness of C3 on `sampleNet`, whose node 3 has no characteristic. -/
theorem targetAds_empty_all_nodes_witness :
    WF sampleNet ∧ (targetAds sampleNet []).length = sampleNet.nodes.length :=
  ⟨WF_sampleNet, (targetAds_empty_all_nodes sampleNet WF_sampleNet).2.2.2.1⟩

/-- C4: in every state the vector returned by `calculateDominanceAndInfluence` is in
non-increasing order of neighbor count: in `gui_v2.cpp` the count of an entry is at
least the count of the next entry (and of every later one), and in `v7.cc`, for
every target set with which the call returns, the neighbor list of an entry is at
least as long as that of the next entry (and of every later one); with the empty
target the call of `v7.cc` always returns. -/
theorem dominance_sorted_non_increasing (s : SocialNetwork) :
    List.Chain' (fun a b => a.2 ≥ b.2) (GuiV2.calculateDominanceAndInfluence s) ∧
    List.Pairwise (fun a b => a.2 ≥ b.2) (GuiV2.calculateDominanceAndInfluence s) ∧
    (∀ S out, calculateDominanceAndInfluence s S = some out →
      List.Chain' (fun a b => a.2.length ≥ b.2.length) out.2 ∧
      List.Pairwise (fun a b => a.2.length ≥ b.2.length) out.2) ∧
    (calculateDominanceAndInfluence s []).isSome = true := by
  have h1 := pairwise_stdSort_byCount (s.adjList.map (fun pair => (pair.1, (pair.2.length : Int))))
  refine ⟨List.Pairwise.chain' h1, h1, ?_, ?_⟩
  · intro S out h
    rw [calculateDominance_some s S out h]
    have h2 := pairwise_stdSort_bySize (s.adjList.filter (passesFilter S s.nodes))
    exact ⟨List.Pairwise.chain' h2, h2⟩
  · rw [calculateDominance_nil]; rfl

/-- Witness of C4 on `sampleNet` with the target `red`. -/
theorem dominance_sorted_non_increasing_witness :
    calculateDominanceAndInfluence sampleNet ["red"] = some (sampleNet, [(1, [2, 3])]) ∧
    List.Chain' (fun a b : Int × List Int => a.2.length ≥ b.2.length)
      (sampleNet, [(1, [2, 3])]).2 :=
  ⟨by decide,
   ((dominance_sorted_non_increasing sampleNet).2.2.1 ["red"] (sampleNet, [(1, [2, 3])])
      (by decide)).1⟩

/-- C5: in every well-formed state the unfiltered ranking has one entry per key of
the adjacency relation: its ids are a rearrangement of the keys, without
repetition, whether or not they are in the node table.  In `gui_v2.cpp` the entry
of `X` carries the number of elements of the stored neighbor set of `X`; in `v7.cc`
the call returns, leaves the network as it was, and the entry of `X` carries a
duplicate-free list whose members are exactly the stored neighbors of `X`. -/
theorem dominance_unfiltered_one_entry_per_key (s : SocialNetwork) (hs : WF s) :
    (((GuiV2.calculateDominanceAndInfluence s).map Prod.fst).Perm (umKeys s.adjList) ∧
     ((GuiV2.calculateDominanceAndInfluence s).map Prod.fst).Nodup ∧
     ∀ e ∈ GuiV2.calculateDominanceAndInfluence s,
       (s.neighbors e.1).Nodup ∧ e.2 = ((s.neighbors e.1).length : Int)) ∧
    ∃ r, calculateDominanceAndInfluence s [] = some (s, r) ∧
      (r.map Prod.fst).Perm (umKeys s.adjList) ∧
      (r.map Prod.fst).Nodup ∧
      ∀ e ∈ r, e.2.Nodup ∧ ∀ b, b ∈ e.2 ↔ b ∈ s.neighbors e.1 := by
  constructor
  · have hp : (GuiV2.calculateDominanceAndInfluence s).Perm
        (s.adjList.map (fun pair => (pair.1, (pair.2.length : Int)))) :=
      perm_stdSort _ _
    have hk : ((GuiV2.calculateDominanceAndInfluence s).map Prod.fst).Perm
        (umKeys s.adjList) := by
      have := hp.map Prod.fst
      simpa [umKeys, List.map_map, Function.comp_def] using this
    refine ⟨hk, hk.nodup_iff.mpr hs.adj_keys, ?_⟩
    intro e he
    obtain ⟨p, hp2, e2⟩ := List.mem_map.mp (hp.mem_iff.mp he)
    rw [← e2]
    simp only
    rw [neighbors_of_mem s hs.adj_keys p hp2]
    exact ⟨hs.adj_sets p hp2, rfl⟩
  · refine ⟨stdSort bySize s.adjList, calculateDominance_nil s, ?_⟩
    have hp : (stdSort bySize s.adjList).Perm s.adjList := perm_stdSort _ _
    have hk : ((stdSort bySize s.adjList).map Prod.fst).Perm (umKeys s.adjList) :=
      hp.map Prod.fst
    refine ⟨hk, hk.nodup_iff.mpr hs.adj_keys, ?_⟩
    intro e he
    have hmem := hp.mem_iff.mp he
    rw [neighbors_of_mem s hs.adj_keys e hmem]
    exact ⟨hs.adj_sets e hmem, fun b => Iff.rfl⟩

/-- Witness of C5 on `loadedNet`, whose key 7 is not in the node table. -/
theorem dominance_unfiltered_one_entry_per_key_witness :
    WF loadedNet ∧
    ((GuiV2.calculateDominanceAndInfluence loadedNet).map Prod.fst).Perm
      (umKeys loadedNet.adjList) :=
  ⟨Reachable.wf (Reachable.load _ _ Reachable.init),
   (dominance_unfiltered_one_entry_per_key loadedNet
      (Reachable.wf (Reachable.load _ _ Reachable.init))).1.1⟩

/-- C6: in every well-formed state and for every non-empty target set `S`, every id
in a vector returned by `calculateDominanceAndInfluence S` of `v7.cc` is an id
returned by `targetAds S`, that is the id of a node of the table whose
characteristic set contains every member of `S`; and the call does return when
every key of the adjacency relation is in the node table. -/
theorem dominance_filtered_within_targetAds (s : SocialNetwork) (hs : WF s)
    (S : List String) (hS : S ≠ []) :
    (∀ out, calculateDominanceAndInfluence s S = some out →
      ∀ e ∈ out.2, e.1 ∈ targetAds s S ∧
        ∃ n, (e.1, n) ∈ s.nodes ∧ ∀ t ∈ S, t ∈ n.characteristics) ∧
    ((∀ k ∈ umKeys s.adjList, k ∈ umKeys s.nodes) →
      (calculateDominanceAndInfluence s S).isSome = true) := by
  constructor
  · intro out h e he
    rw [calculateDominance_some s S out h] at he
    have hmem := (perm_stdSort _ _).mem_iff.mp he
    have hpass := (List.mem_filter.mp hmem).2
    simp only [passesFilter, hS, decide_False, Bool.false_or] at hpass
    cases hf : umFind s.nodes e.1 with
    | none => simp [hf] at hpass
    | some n =>
      simp only [hf] at hpass
      have hin := umFind_mem s.nodes e.1 n hf
      have hm := (matchesTarget_iff _ _).mp hpass
      exact ⟨(mem_targetAds s S e.1).mpr ⟨(e.1, n), hin, hs.nodes_id _ hin, hm⟩, n, hin, hm⟩
  · intro hk
    rw [calculateDominance_total s S (Or.inr hk)]
    rfl

/-- Witness of C6 on `sampleNet` with the target `red`. -/
theorem dominance_filtered_within_targetAds_witness :
    WF sampleNet ∧
    calculateDominanceAndInfluence sampleNet ["red"] = some (sampleNet, [(1, [2, 3])]) ∧
    (1 : Int) ∈ targetAds sampleNet ["red"] :=
  ⟨WF_sampleNet, by decide,
   ((dominance_filtered_within_targetAds sampleNet WF_sampleNet ["red"] (by decide)).1
      (sampleNet, [(1, [2, 3])]) (by decide) (1, [2, 3]) (by decide)).1⟩

end SocialNetwork

namespace SocialNetwork

/-- With a non-empty target the ranking of `v7.cc` has no defined result as soon as
one key of the adjacency relation is missing from the node table, whatever the
iteration order. -/
theorem calculateDominance_undefined (s : SocialNetwork) (S : List String) (hS : S ≠ [])
    (k : Int) (hk : k ∈ umKeys s.adjList) (hn : k ∉ umKeys s.nodes) :
    calculateDominanceAndInfluence s S = none := by
  have loop : ∀ (adj : List (Int × List Int)) (acc : List (Int × List Int)),
      k ∈ umKeys adj → dominanceLoop S adj s.nodes acc = none := by
    intro adj
    induction adj with
    | nil => intro acc h; simp [umKeys] at h
    | cons p adj ih =>
      intro acc h
      obtain ⟨node, connections⟩ := p
      unfold dominanceLoop
      simp only [ne_eq, hS, not_false_eq_true, if_true]
      by_cases e : node = k
      · rw [e, (umFind_eq_none_iff s.nodes k).mpr hn]
      · have h2 : k ∈ umKeys adj := by
          simp only [umKeys, List.map_cons, List.mem_cons] at h
          rcases h with h | h
          · exact absurd h.symm e
          · exact h
        cases umFind s.nodes node with
        | none => rfl
        | some nodeObj =>
          simp only
          split
          · exact ih _ h2
          · exact ih _ h2
  unfold calculateDominanceAndInfluence
  rw [loop s.adjList [] hk]

/-- C7 (the code departs from the claim): after loading `5 red blue`, `edges`, `5 7`
the node table holds node 5 only while 5 and 7 are both keys of the adjacency
relation, and the ranking of `v7.cc` with the target `red` has no defined result:
for the key 7 it evaluates `*(nodes[7])`, the dereference of the null pointer that
`operator[]` has just inserted, instead of returning the single entry of node 5
with the neighbor list `[7]`. -/
theorem dominance_filtered_dangling_key :
    umKeys loadedNet.nodes = [5] ∧
    loadedNet.neighbors 5 = [7] ∧
    loadedNet.neighbors 7 = [5] ∧
    (7 : Int) ∈ umKeys loadedNet.adjList ∧
    (7 : Int) ∉ umKeys loadedNet.nodes ∧
    calculateDominanceAndInfluence loadedNet ["red"] = none ∧
    calculateDominanceAndInfluence loadedNet ["red"] ≠ some (loadedNet, [(5, [7])]) := by
  refine ⟨by decide, by decide, by decide, by decide, by decide, ?_, ?_⟩
  · exact calculateDominance_undefined loadedNet ["red"] (by decide) 7 (by decide) (by decide)
  · rw [calculateDominance_undefined loadedNet ["red"] (by decide) 7 (by decide) (by decide)]
    exact fun h => Option.noConfusion h

/-- C8: in every state reached from the fresh network by `addNode`, `addEdge` and
`readFromFile`, for all ids `a` and `b`, `b` is in the stored neighbor set of `a`
iff `a` is in the stored neighbor set of `b`. -/
theorem adjacency_symmetric_in_reachable_states (s : SocialNetwork) (h : Reachable s)
    (a b : Int) : b ∈ s.neighbors a ↔ a ∈ s.neighbors b :=
  Reachable.invariant Symmetric Symmetric_empty
    (fun s id cs hs _ => Symmetric_addNode s id cs hs)
    (fun s x y hs => Symmetric_addEdge s x y hs) h a b

/-- Witness of C8 on a state built with all three operations. -/
theorem adjacency_symmetric_in_reachable_states_witness :
    Reachable ((loadedNet.addNode 9 ["green"]).addEdge 9 5) ∧
    ((9 : Int) ∈ ((loadedNet.addNode 9 ["green"]).addEdge 9 5).neighbors 5 ↔
      (5 : Int) ∈ ((loadedNet.addNode 9 ["green"]).addEdge 9 5).neighbors 9) :=
  ⟨Reachable.addEdge 9 5
      (Reachable.addNode 9 ["green"] (Reachable.load _ _ Reachable.init) (by decide)),
   adjacency_symmetric_in_reachable_states _
     (Reachable.addEdge 9 5
       (Reachable.addNode 9 ["green"] (Reachable.load _ _ Reachable.init) (by decide))) 5 9⟩

/-- C9: in every state, for ids `a ≠ b` that are not connected, `addEdge a b` makes
the neighbor sets of `a` and of `b` one element larger each; for all `a`, `b` it
leaves the entry of every other id in the adjacency relation as it was; and a
second `addEdge a b` leaves the state produced by the first unchanged. -/
theorem addEdge_once_per_side_and_idempotent (s : SocialNetwork) (a b : Int) :
    (a ≠ b → b ∉ s.neighbors a → a ∉ s.neighbors b →
      ((s.addEdge a b).neighbors a).length = (s.neighbors a).length + 1 ∧
      ((s.addEdge a b).neighbors b).length = (s.neighbors b).length + 1) ∧
    (∀ x, x ≠ a → x ≠ b →
      umFind (s.addEdge a b).adjList x = umFind s.adjList x ∧
      (s.addEdge a b).neighbors x = s.neighbors x) ∧
    (s.addEdge a b).addEdge a b = s.addEdge a b := by
  refine ⟨?_, ?_, ?_⟩
  · intro hab hb ha
    have hba : ¬ b = a := fun e => hab e.symm
    constructor
    · rw [neighbors_addEdge]
      simp only [hab, if_false, if_true]
      exact length_usInsert_of_not_mem _ _ hb
    · rw [neighbors_addEdge]
      simp only [hba, if_false, if_true]
      exact length_usInsert_of_not_mem _ _ ha
  · intro x hxa hxb
    constructor
    · rw [umFind_addEdge]; simp [hxa, hxb]
    · rw [neighbors_addEdge]; simp [hxa, hxb]
  · have key : ∀ (t : SocialNetwork) (x y : Int), x ∈ umKeys t.adjList →
        y ∈ t.neighbors x →
        umUpdate (umEmplace t.adjList x []) x (fun ns => usInsert ns y) = t.adjList := by
      intro t x y hx hy
      rw [umEmplace_of_mem _ _ _ hx]
      apply umUpdate_of_fixed
      intro v hv
      apply usInsert_of_mem
      have : t.neighbors x = v := by unfold neighbors; rw [hv]; rfl
      rw [← this]; exact hy
    have e1 := key (s.addEdge a b) a b ((mem_umKeys_addEdge s a b a).mpr (Or.inl rfl))
      ((mem_neighbors_addEdge s a b a b).mpr (Or.inr (Or.inl ⟨rfl, rfl⟩)))
    have e2 := key (s.addEdge a b) b a ((mem_umKeys_addEdge s a b b).mpr (Or.inr (Or.inl rfl)))
      ((mem_neighbors_addEdge s a b b a).mpr (Or.inr (Or.inr ⟨rfl, rfl⟩)))
    have e3 : ((s.addEdge a b).addEdge a b).adjList = (s.addEdge a b).adjList := by
      rw [addEdge_adjList (s.addEdge a b) a b, e1, e2]
    show (⟨(s.addEdge a b).nodes, ((s.addEdge a b).addEdge a b).adjList,
      (s.addEdge a b).availableCharacteristics⟩ : SocialNetwork) = s.addEdge a b
    rw [e3]

/-- Witness of C9 on `sampleNet` with the unconnected ids 2 and 3. -/
theorem addEdge_once_per_side_and_idempotent_witness :
    ((sampleNet.addEdge 2 3).neighbors 2).length = (sampleNet.neighbors 2).length + 1 ∧
    ((sampleNet.addEdge 2 3).neighbors 3).length = (sampleNet.neighbors 3).length + 1 :=
  (addEdge_once_per_side_and_idempotent sampleNet 2 3).1 (by decide) (by decide) (by decide)

/-- C10: in every well-formed state and for all `id`, `C1`, `C2`, after
`addNode id C1` followed by `addNode id C2` the node table has exactly one entry
for `id`, it is the node `id` with the characteristic set `C2` (whatever `C1` was),
the entry of every other id is as before the two calls, `postMessage k` labels `id`
as `Received` iff `k` is in `C2`, and `targetAds S` lists `id` iff every member of
`S` is in `C2`.  The two calls of `gui_v2.cpp` produce the same node table. -/
theorem addNode_replaces_characteristics (s : SocialNetwork) (hs : WF s) (id : Int)
    (C1 C2 : List String) :
    (umKeys ((s.addNode id C1).addNode id C2).nodes).count id = 1 ∧
    (∀ n, (id, n) ∈ ((s.addNode id C1).addNode id C2).nodes ↔ n = ⟨id, C2⟩) ∧
    (∀ x, x ≠ id →
      umFind ((s.addNode id C1).addNode id C2).nodes x = umFind s.nodes x) ∧
    (∀ k, (id, "Received") ∈ postMessage ((s.addNode id C1).addNode id C2) k ↔ k ∈ C2) ∧
    (∀ k, (id, "Not Received") ∈ postMessage ((s.addNode id C1).addNode id C2) k ↔ k ∉ C2) ∧
    (∀ S, id ∈ targetAds ((s.addNode id C1).addNode id C2) S ↔ ∀ t ∈ S, t ∈ C2) ∧
    (GuiV2.addNode (GuiV2.addNode s id C1) id C2).nodes =
      ((s.addNode id C1).addNode id C2).nodes := by
  have hw : NodeTableWF ((s.addNode id C1).addNode id C2) :=
    NodeTableWF_addNode _ id C2 (NodeTableWF_addNode s id C1 hs.table)
  have hfind : ∀ x, umFind ((s.addNode id C1).addNode id C2).nodes x =
      if x = id then some ⟨id, C2⟩ else umFind s.nodes x := by
    intro x
    simp only [umFind_addNode]
    by_cases hx : x = id
    · simp only [hx, if_true]
      cases hf : umFind s.nodes id with
      | none => rfl
      | some n =>
        have := hs.nodes_id _ (umFind_mem s.nodes id n hf)
        simp only at this
        simp [this]
    · simp only [hx, if_false]
  have hmem : ∀ n, (id, n) ∈ ((s.addNode id C1).addNode id C2).nodes ↔ n = ⟨id, C2⟩ := by
    intro n
    constructor
    · intro h
      have := umFind_of_mem _ id n hw.nodes_keys h
      rw [hfind] at this
      simp only [if_true, Option.some.injEq] at this
      exact this.symm
    · intro h
      apply umFind_mem
      rw [hfind, h]
      simp
  have hin : (id, (⟨id, C2⟩ : Node)) ∈ ((s.addNode id C1).addNode id C2).nodes :=
    (hmem _).mpr rfl
  have hpm := postMessage_classifies_helper ((s.addNode id C1).addNode id C2) hw
  refine ⟨?_, hmem, ?_, ?_, ?_, ?_, rfl⟩
  · apply List.count_eq_one_of_mem hw.nodes_keys
    exact List.mem_map.mpr ⟨_, hin, rfl⟩
  · intro x hx
    rw [hfind]; simp [hx]
  · intro k
    exact (hpm k _ hin).1
  · intro k
    exact (hpm k _ hin).2
  · intro S
    rw [mem_targetAds]
    constructor
    · rintro ⟨⟨j, n⟩, hp, e, hm⟩
      have hj : j = id := (hw.nodes_id _ hp).symm.trans e
      subst hj
      rw [(hmem n).mp hp] at hm
      exact hm
    · intro hm
      exact ⟨_, hin, rfl, hm⟩

/-- Witness of C10 on `sampleNet`, whose node 1 is overwritten twice. -/
theorem addNode_replaces_characteristics_witness :
    WF sampleNet ∧
    (umKeys ((sampleNet.addNode 1 ["green", "red"]).addNode 1 ["blue"]).nodes).count 1 = 1 :=
  ⟨WF_sampleNet,
   (addNode_replaces_characteristics sampleNet WF_sampleNet 1 ["green", "red"]
      ["blue"]).1⟩

end SocialNetwork

/-! ## Lemmas on the extraction of tokens -/

section Streams

theorem dropWhile_head_false {α : Type} (p : α → Bool) (l : List α) (c : α) (cs : List α)
    (h : l.dropWhile p = c :: cs) : p c = false := by
  induction l with
  | nil => simp at h
  | cons x xs ih =>
    by_cases hx : p x = true
    · rw [List.dropWhile_cons_of_pos hx] at h
      exact ih h
    · rw [List.dropWhile_cons_of_neg hx] at h
      injection h with h1 _
      rw [← h1]
      simpa using hx

theorem takeWhile_append_stop {α : Type} (p : α → Bool) (ds rest : List α)
    (hds : ∀ c ∈ ds, p c = true) (hrest : ∀ c cs, rest = c :: cs → p c = false) :
    (ds ++ rest).takeWhile p = ds ∧ (ds ++ rest).dropWhile p = rest := by
  induction ds with
  | nil =>
    cases rest with
    | nil => simp
    | cons c cs =>
      have := hrest c cs rfl
      simp [List.takeWhile, List.dropWhile, this]
  | cons d ds ih =>
    have hd : p d = true := hds d (List.mem_cons_self _ _)
    have := ih (fun c hc => hds c (List.mem_cons_of_mem _ hc))
    simp [List.takeWhile, List.dropWhile, hd, this]

end Streams

namespace SocialNetwork

theorem isSpace_not_digit (c : Char) (h : isSpace c = true) : c.isDigit = false := by
  unfold isSpace at h
  simp only [Bool.or_eq_true, decide_eq_true_eq] at h
  rcases h with ((((h | h) | h) | h) | h) | h
  · subst h; decide
  · subst h; decide
  · subst h; decide
  · subst h; decide
  · simp only [Char.isDigit, Bool.and_eq_false_imp, decide_eq_true_eq, ge_iff_le,
      decide_eq_false_iff_not, not_le]
    intro h1
    have h2 : (48 : Nat) ≤ c.toNat := h1
    omega
  · simp only [Char.isDigit, Bool.and_eq_false_imp, decide_eq_true_eq, ge_iff_le,
      decide_eq_false_iff_not, not_le]
    intro h1
    have h2 : (48 : Nat) ≤ c.toNat := h1
    omega

theorem splitSign_match (t : List Char) :
    (match t with
      | '-' :: u => (true, u)
      | '+' :: u => (false, u)
      | _ => (false, t)) = splitSign t := by
  unfold splitSign
  split <;> rfl

theorem splitSign_append (w rest : List Char) (hw : w ≠ []) :
    splitSign (w ++ rest) = ((splitSign w).1, (splitSign w).2 ++ rest) := by
  cases w with
  | nil => exact absurd rfl hw
  | cons c t =>
    by_cases h1 : c = '-'
    · subst h1; rfl
    · by_cases h2 : c = '+'
      · subst h2; rfl
      · have e1 : splitSign (c :: t) = (false, c :: t) := by
          unfold splitSign
          split
          · rename_i heq; injection heq with a _; exact absurd a h1
          · rename_i heq; injection heq with a _; exact absurd a h2
          · rfl
        have e2 : splitSign (c :: t ++ rest) = (false, c :: t ++ rest) := by
          unfold splitSign
          split
          · rename_i heq; injection heq with a _; exact absurd a h1
          · rename_i heq; injection heq with a _; exact absurd a h2
          · rfl
        rw [e1, e2]

/-- The extraction `iss >> id`, spelled out. -/
theorem extractInt_of_sign (s : List Char) (neg : Bool) (ds rest : List Char)
    (hs : splitSign (s.dropWhile isSpace) = (neg, ds ++ rest))
    (hds : ∀ c ∈ ds, c.isDigit = true) (hne : ds ≠ [])
    (hrest : ∀ c cs, rest = c :: cs → c.isDigit = false) :
    extractInt s =
      if -2147483648 ≤ (if neg then -(digitsValue ds : Int) else (digitsValue ds : Int)) ∧
          (if neg then -(digitsValue ds : Int) else (digitsValue ds : Int)) ≤ 2147483647
      then some ((if neg then -(digitsValue ds : Int) else (digitsValue ds : Int)), rest)
      else none := by
  obtain ⟨e1, e2⟩ := takeWhile_append_stop Char.isDigit ds rest hds hrest
  unfold extractInt
  simp only [splitSign_match, hs, e1, e2, hne, if_false]

end SocialNetwork

namespace SocialNetwork

theorem streamWords_acc (l cur : List Char) (h : cur ≠ []) :
    streamWords l cur =
      String.mk (cur.reverse ++ l.takeWhile (fun c => !isSpace c)) ::
        streamWords (l.dropWhile (fun c => !isSpace c)) [] := by
  induction l generalizing cur with
  | nil => simp [streamWords, h]
  | cons c cs ih =>
    by_cases hc : isSpace c = true
    · simp [streamWords, hc, h, List.takeWhile, List.dropWhile]
    · have hc2 : isSpace c = false := by simpa using hc
      rw [streamWords]
      simp only [hc2, Bool.false_eq_true, if_false]
      rw [ih (c :: cur) (List.cons_ne_nil _ _)]
      simp [List.takeWhile, List.dropWhile, hc2]

theorem streamWords_dropSpace (l : List Char) :
    streamWords l [] = streamWords (l.dropWhile isSpace) [] := by
  induction l with
  | nil => rfl
  | cons c cs ih =>
    by_cases hc : isSpace c = true
    · rw [List.dropWhile_cons_of_pos hc, ← ih]
      simp [streamWords, hc]
    · rw [List.dropWhile_cons_of_neg hc]

/-- One extraction `iss >> characteristic`: whitespace is skipped, the word runs up to
the next whitespace, and the loop goes on with what follows the word. -/
theorem tokens_unfold (l : List Char) :
    tokens l =
      if l.dropWhile isSpace = [] then []
      else String.mk ((l.dropWhile isSpace).takeWhile (fun c => !isSpace c)) ::
        tokens ((l.dropWhile isSpace).dropWhile (fun c => !isSpace c)) := by
  unfold tokens
  rw [streamWords_dropSpace]
  cases hl : l.dropWhile isSpace with
  | nil => simp [streamWords]
  | cons c cs =>
    have hc : isSpace c = false := dropWhile_head_false isSpace l c cs hl
    simp only [List.cons_ne_nil, if_false]
    rw [streamWords]
    simp only [hc, Bool.false_eq_true, if_false]
    rw [streamWords_acc cs [c] (List.cons_ne_nil _ _)]
    simp [List.takeWhile, List.dropWhile, hc]

theorem readCharacteristics_eq (rest : List Char) :
    readCharacteristics rest = (tokens rest).foldl usInsert [] := rfl

theorem intTokenValue_some (t : String) (v : Int) (h : intTokenValue t = some v) :
    (splitSign t.data).2 ≠ [] ∧ (∀ c ∈ (splitSign t.data).2, c.isDigit = true) ∧
    v = (if (splitSign t.data).1 then -(digitsValue (splitSign t.data).2 : Int)
         else (digitsValue (splitSign t.data).2 : Int)) ∧
    -2147483648 ≤ v ∧ v ≤ 2147483647 := by
  unfold intTokenValue at h
  by_cases hc : (splitSign t.data).2 ≠ [] ∧ (splitSign t.data).2.all Char.isDigit = true
  · simp only [hc, ne_eq, not_false_eq_true, and_self, if_true] at h
    by_cases hr : -2147483648 ≤ (if (splitSign t.data).1 then
          -(digitsValue (splitSign t.data).2 : Int)
          else (digitsValue (splitSign t.data).2 : Int)) ∧
        (if (splitSign t.data).1 then -(digitsValue (splitSign t.data).2 : Int)
          else (digitsValue (splitSign t.data).2 : Int)) ≤ 2147483647
    · rw [if_pos hr] at h
      injection h with h
      refine ⟨hc.1, fun c hcm => List.all_eq_true.mp hc.2 c hcm, h.symm, ?_⟩
      rw [← h]; exact hr
    · rw [if_neg hr] at h
      exact absurd h (by simp)
  · rw [if_neg hc] at h
    exact absurd h (by simp)

/-- A first token that is an integer as a whole is what `iss >> id` extracts, and the
stream is left at the end of that token. -/
theorem extractInt_first_token (line : List Char) (t : String) (ts : List String) (v : Int)
    (h : tokens line = t :: ts) (hv : intTokenValue t = some v) :
    ∃ rest, extractInt line = some (v, rest) ∧ tokens rest = ts := by
  rw [tokens_unfold] at h
  by_cases hnil : line.dropWhile isSpace = []
  · simp [hnil] at h
  · simp only [hnil, if_false, List.cons.injEq] at h
    obtain ⟨ht, hts⟩ := h
    refine ⟨(line.dropWhile isSpace).dropWhile (fun c => !isSpace c), ?_, hts⟩
    have hrest : ∀ c cs,
        (line.dropWhile isSpace).dropWhile (fun c => !isSpace c) = c :: cs →
          c.isDigit = false := by
      intro c cs e
      have := dropWhile_head_false _ _ c cs e
      exact isSpace_not_digit c (by simpa using this)
    have hsplit : line.dropWhile isSpace =
        (line.dropWhile isSpace).takeWhile (fun c => !isSpace c) ++
          (line.dropWhile isSpace).dropWhile (fun c => !isSpace c) :=
      (List.takeWhile_append_dropWhile _ _).symm
    have hdata : t.data = (line.dropWhile isSpace).takeWhile (fun c => !isSpace c) := by
      rw [← ht]
    obtain ⟨hne, hdig, hval, hlo, hhi⟩ := intTokenValue_some t v hv
    rw [hdata] at hne hdig hval
    have hw : (line.dropWhile isSpace).takeWhile (fun c => !isSpace c) ≠ [] := by
      intro e
      rw [e] at hne
      exact hne rfl
    have hs : splitSign (line.dropWhile isSpace) =
        ((splitSign ((line.dropWhile isSpace).takeWhile (fun c => !isSpace c))).1,
         (splitSign ((line.dropWhile isSpace).takeWhile (fun c => !isSpace c))).2 ++
           (line.dropWhile isSpace).dropWhile (fun c => !isSpace c)) := by
      conv => lhs; rw [hsplit]
      exact splitSign_append _ _ hw
    rw [extractInt_of_sign line _ _ _ hs hdig hne hrest, ← hval, if_pos ⟨hlo, hhi⟩]

end SocialNetwork

/-! ## Lemmas on the loop of `readFromFile` -/

namespace SocialNetwork

theorem readLine_marker (st : LoadState) :
    readLine st edgesLine =
      { st with readingNodes := false, lineNumber := nextLineNumber st.lineNumber } := by
  simp [readLine, edgesLine]

theorem readLine_nodeLine (st : LoadState) (line : List Char) (hl : line ≠ edgesLine)
    (hs : st.readingNodes = true) :
    readLine st line =
      match extractInt line with
      | none =>
        { st with lineNumber := nextLineNumber st.lineNumber,
                  diagnostics := st.diagnostics ++ [Diagnostic.nodeIdError (nextLineNumber st.lineNumber)] }
      | some (id, rest) =>
        { st with lineNumber := nextLineNumber st.lineNumber,
                  net := st.net.addNode id (readCharacteristics rest) } := by
  have hl2 : ¬ line = "edges".toList := hl
  unfold readLine
  simp only [hl2, if_false, hs, if_true]

theorem readLine_edgeLine (st : LoadState) (line : List Char) (hl : line ≠ edgesLine)
    (hs : st.readingNodes = false) :
    readLine st line =
      match extractInt line with
      | none =>
        { st with lineNumber := nextLineNumber st.lineNumber,
                  diagnostics := st.diagnostics ++ [Diagnostic.edgeError (nextLineNumber st.lineNumber)] }
      | some (id1, rest) =>
        match extractInt rest with
        | none =>
          { st with lineNumber := nextLineNumber st.lineNumber,
                    diagnostics :=
                      st.diagnostics ++ [Diagnostic.edgeError (nextLineNumber st.lineNumber)] }
        | some (id2, _) =>
          { st with lineNumber := nextLineNumber st.lineNumber, net := st.net.addEdge id1 id2 } := by
  have hl2 : ¬ line = "edges".toList := hl
  unfold readLine
  simp only [hl2, if_false, hs, Bool.false_eq_true]

/-- What one iteration does to a line that is not the marker, by cases on whether the
loop skips it. -/
theorem readLine_malformed (st : LoadState) (line : List Char) (hl : line ≠ edgesLine)
    (hm : isMalformed st.readingNodes line = true) :
    readLine st line =
      { st with lineNumber := nextLineNumber st.lineNumber,
                diagnostics := st.diagnostics ++
                  [if st.readingNodes then Diagnostic.nodeIdError (nextLineNumber st.lineNumber)
                   else Diagnostic.edgeError (nextLineNumber st.lineNumber)] } := by
  by_cases hs : st.readingNodes = true
  · rw [readLine_nodeLine st line hl hs]
    simp only [isMalformed, hs, if_true] at hm
    cases he : extractInt line with
    | none => simp [hs]
    | some r => simp [he] at hm
  · have hs2 : st.readingNodes = false := by simpa using hs
    rw [readLine_edgeLine st line hl hs2]
    simp only [isMalformed, hs2, Bool.false_eq_true, if_false] at hm
    cases he : extractInt line with
    | none => simp [hs2]
    | some r =>
      obtain ⟨id1, rest⟩ := r
      simp only [he] at hm
      cases he2 : extractInt rest with
      | none => simp [hs2, he2]
      | some r2 => simp [he2] at hm

theorem readLine_wellFormed (st : LoadState) (line : List Char) (hl : line ≠ edgesLine)
    (hm : isMalformed st.readingNodes line = false) :
    (readLine st line).readingNodes = st.readingNodes ∧
    (readLine st line).lineNumber = nextLineNumber st.lineNumber ∧
    (readLine st line).diagnostics = st.diagnostics ∧
    ((st.readingNodes = true ∧ ∃ id rest, extractInt line = some (id, rest) ∧
        (readLine st line).net = st.net.addNode id (readCharacteristics rest)) ∨
     (st.readingNodes = false ∧ ∃ id1 rest id2 rest2, extractInt line = some (id1, rest) ∧
        extractInt rest = some (id2, rest2) ∧
        (readLine st line).net = st.net.addEdge id1 id2)) := by
  by_cases hs : st.readingNodes = true
  · rw [readLine_nodeLine st line hl hs]
    simp only [isMalformed, hs, if_true] at hm
    cases he : extractInt line with
    | none => simp [he] at hm
    | some r =>
      obtain ⟨id, rest⟩ := r
      exact ⟨rfl, rfl, rfl, Or.inl ⟨hs, id, rest, rfl, rfl⟩⟩
  · have hs2 : st.readingNodes = false := by simpa using hs
    rw [readLine_edgeLine st line hl hs2]
    simp only [isMalformed, hs2, Bool.false_eq_true, if_false] at hm
    cases he : extractInt line with
    | none => simp [he] at hm
    | some r =>
      obtain ⟨id1, rest⟩ := r
      simp only [he] at hm
      cases he2 : extractInt rest with
      | none => simp [he2] at hm
      | some r2 =>
        obtain ⟨id2, rest2⟩ := r2
        refine ⟨?_, ?_, ?_, Or.inr ⟨hs2, id1, rest, id2, rest2, rfl, he2, ?_⟩⟩ <;>
          simp [he2]

theorem readLine_lineNumber (st : LoadState) (line : List Char) :
    (readLine st line).lineNumber = nextLineNumber st.lineNumber := by
  by_cases hl : line = edgesLine
  · rw [hl, readLine_marker]
  · cases hm : isMalformed st.readingNodes line with
    | true => rw [readLine_malformed st line hl hm]
    | false => exact (readLine_wellFormed st line hl hm).2.1

theorem readLine_readingNodes (st : LoadState) (line : List Char) :
    (readLine st line).readingNodes = (st.readingNodes && decide (line ≠ edgesLine)) := by
  by_cases hl : line = edgesLine
  · rw [hl, readLine_marker]; simp
  · cases hm : isMalformed st.readingNodes line with
    | true => rw [readLine_malformed st line hl hm]; simp [hl]
    | false => rw [(readLine_wellFormed st line hl hm).1]; simp [hl]

theorem readLine_specNodeLine (st : LoadState) (line : List Char) (c : Call)
    (hl : line ≠ edgesLine) (hs : st.readingNodes = true) (hc : specNodeLine line = some c) :
    readLine st line = { st with lineNumber := nextLineNumber st.lineNumber, net := Call.run st.net c } := by
  unfold specNodeLine at hc
  cases htok : tokens line with
  | nil => simp [htok] at hc
  | cons t ts =>
    simp only [htok] at hc
    cases hv : intTokenValue t with
    | none => simp [hv] at hc
    | some v =>
      simp only [hv, Option.map_some', Option.some.injEq] at hc
      obtain ⟨rest, he, hrest⟩ := extractInt_first_token line t ts v htok hv
      rw [readLine_nodeLine st line hl hs, he, ← hc]
      simp only [Call.run, readCharacteristics_eq, hrest]

theorem readLine_specEdgeLine (st : LoadState) (line : List Char) (c : Call)
    (hl : line ≠ edgesLine) (hs : st.readingNodes = false) (hc : specEdgeLine line = some c) :
    readLine st line = { st with lineNumber := nextLineNumber st.lineNumber, net := Call.run st.net c } := by
  unfold specEdgeLine at hc
  split at hc
  · rename_i a b htok
    split at hc
    · rename_i id1 id2 h1 h2
      injection hc with hc
      obtain ⟨rest, he, hrest⟩ := extractInt_first_token line a [b] id1 htok h1
      obtain ⟨rest2, he2, _⟩ := extractInt_first_token rest b [] id2 hrest h2
      rw [readLine_edgeLine st line hl hs, he]
      simp only [he2, ← hc, Call.run]
    · exact absurd hc (by simp)
  · exact absurd hc (by simp)

theorem foldl_readLine_specCalls (lines : List (List Char)) (st : LoadState)
    (calls : List Call) (h : specCalls st.readingNodes lines = some calls) :
    (lines.foldl readLine st).net = calls.foldl Call.run st.net ∧
    (lines.foldl readLine st).diagnostics = st.diagnostics := by
  induction lines generalizing st calls with
  | nil =>
    simp only [specCalls, Option.some.injEq] at h
    simp [← h]
  | cons line rest ih =>
    rw [List.foldl_cons]
    unfold specCalls at h
    by_cases hl : line = edgesLine
    · simp only [hl, if_true] at h
      rw [hl, readLine_marker]
      exact ih _ calls h
    · simp only [hl, if_false] at h
      cases hs : st.readingNodes with
      | true =>
        simp only [hs, if_true] at h
        cases hc : specNodeLine line with
        | none => simp [hc] at h
        | some c =>
          cases hcs : specCalls true rest with
          | none => simp [hc, hcs] at h
          | some cs =>
            simp only [hc, hcs, Option.some.injEq] at h
            rw [readLine_specNodeLine st line c hl hs hc, ← h]
            exact ih _ cs (by simpa [hs] using hcs)
      | false =>
        simp only [hs, Bool.false_eq_true, if_false] at h
        cases hc : specEdgeLine line with
        | none => simp [hc] at h
        | some c =>
          cases hcs : specCalls false rest with
          | none => simp [hc, hcs] at h
          | some cs =>
            simp only [hc, hcs, Option.some.injEq] at h
            rw [readLine_specEdgeLine st line c hl hs hc, ← h]
            exact ih _ cs (by simpa [hs] using hcs)

end SocialNetwork

namespace SocialNetwork

theorem nextLineNumber_of_lt (n : Int) (h : n < 2147483647) : nextLineNumber n = n + 1 := by
  unfold nextLineNumber
  rw [if_neg (by omega)]

/-- As long as the counter does not pass `INT_MAX` it counts the lines read. -/
theorem foldl_readLine_lineNumber (lines : List (List Char)) (st : LoadState)
    (h : st.lineNumber + lines.length ≤ 2147483647) :
    (lines.foldl readLine st).lineNumber = st.lineNumber + lines.length := by
  induction lines generalizing st with
  | nil => simp
  | cons l ls ih =>
    rw [List.length_cons] at h
    push_cast at h
    have h1 : (readLine st l).lineNumber = st.lineNumber + 1 := by
      rw [readLine_lineNumber, nextLineNumber_of_lt _ (by omega)]
    rw [List.foldl_cons, ih _ (by rw [h1]; omega), h1, List.length_cons]
    push_cast
    omega

theorem foldl_readLine_readingNodes (lines : List (List Char)) (st : LoadState) :
    (lines.foldl readLine st).readingNodes =
      (st.readingNodes && decide (edgesLine ∉ lines)) := by
  induction lines generalizing st with
  | nil => simp
  | cons l ls ih =>
    rw [List.foldl_cons, ih, readLine_readingNodes]
    by_cases hl : l = edgesLine
    · simp [hl]
    · have hl2 : ¬ edgesLine = l := fun e => hl e.symm
      simp [hl, hl2, Bool.and_assoc]

/-- The network and the section after one iteration depend on the network and the
section before it only. -/
theorem readLine_congr (st1 st2 : LoadState) (line : List Char)
    (hn : st1.net = st2.net) (hr : st1.readingNodes = st2.readingNodes) :
    (readLine st1 line).net = (readLine st2 line).net ∧
    (readLine st1 line).readingNodes = (readLine st2 line).readingNodes := by
  refine ⟨?_, by rw [readLine_readingNodes, readLine_readingNodes, hr]⟩
  by_cases hl : line = edgesLine
  · rw [hl, readLine_marker, readLine_marker]; exact hn
  · cases hm : isMalformed st1.readingNodes line with
    | true =>
      rw [readLine_malformed st1 line hl hm, readLine_malformed st2 line hl (hr ▸ hm)]
      exact hn
    | false =>
      have h1 := (readLine_wellFormed st1 line hl hm).2.2.2
      have h2 := (readLine_wellFormed st2 line hl (hr ▸ hm)).2.2.2
      rcases h1 with ⟨hs1, id, rest, he, hnet⟩ | ⟨hs1, id1, rest, id2, rest2, he, he2, hnet⟩
      · rcases h2 with ⟨_, id', rest', he', hnet'⟩ | ⟨hs2, _⟩
        · rw [he] at he'
          injection he' with he'
          injection he' with e1 e2
          rw [hnet, hnet', hn, e1, e2]
        · rw [← hr, hs1] at hs2; exact absurd hs2 (by simp)
      · rcases h2 with ⟨hs2, _⟩ | ⟨_, id1', rest', id2', rest2', he', he2', hnet'⟩
        · rw [← hr, hs1] at hs2; exact absurd hs2 (by simp)
        · rw [he] at he'
          injection he' with he'
          injection he' with e1 e2
          rw [← e2, he2] at he2'
          injection he2' with he2'
          injection he2' with e3 _
          rw [hnet, hnet', hn, e1, e3]

theorem foldl_readLine_congr (lines : List (List Char)) (st1 st2 : LoadState)
    (hn : st1.net = st2.net) (hr : st1.readingNodes = st2.readingNodes) :
    (lines.foldl readLine st1).net = (lines.foldl readLine st2).net := by
  induction lines generalizing st1 st2 with
  | nil => exact hn
  | cons l ls ih =>
    rw [List.foldl_cons, List.foldl_cons]
    exact ih _ _ (readLine_congr st1 st2 l hn hr).1 (readLine_congr st1 st2 l hn hr).2

/-- Dropping the malformed lines does not change the network the loop builds. -/
theorem foldl_readLine_dropMalformed (lines : List (List Char)) (st : LoadState) :
    ((dropMalformed st.readingNodes lines).foldl readLine st).net =
      (lines.foldl readLine st).net := by
  induction lines generalizing st with
  | nil => rfl
  | cons l ls ih =>
    unfold dropMalformed
    by_cases hl : l = edgesLine
    · simp only [hl, if_true, List.foldl_cons]
      have hr : (readLine st edgesLine).readingNodes = false := by
        rw [readLine_marker]
      have := ih (readLine st edgesLine)
      rw [hr] at this
      by_cases hs : st.readingNodes = true
      · simp only [hs, if_true, List.foldl_cons]
        exact this
      · have hs2 : st.readingNodes = false := by simpa using hs
        simp only [hs2, Bool.false_eq_true, if_false]
        rw [← this]
        apply foldl_readLine_congr
        · rw [readLine_marker]
        · rw [readLine_marker, hs2]
    · simp only [hl, if_false]
      cases hm : isMalformed st.readingNodes l with
      | true =>
        simp only [if_true, List.foldl_cons]
        rw [ih st]
        apply foldl_readLine_congr
        · rw [readLine_malformed st l hl hm]
        · rw [readLine_malformed st l hl hm]
      | false =>
        simp only [Bool.false_eq_true, if_false, List.foldl_cons]
        have := ih (readLine st l)
        rw [(readLine_wellFormed st l hl hm).1] at this
        exact this

theorem getLines_line (l rest cur : List Char) (h : '\n' ∉ l) :
    getLines (l ++ '\n' :: rest) cur = (cur.reverse ++ l) :: getLines rest [] := by
  induction l generalizing cur with
  | nil => simp [getLines]
  | cons c cs ih =>
    have hc : c ≠ '\n' := fun e => h (by simp [e])
    have hcs : '\n' ∉ cs := fun e => h (List.mem_cons_of_mem _ e)
    rw [List.cons_append, getLines]
    simp only [hc, if_false]
    rw [ih (c :: cur) hcs]
    simp

theorem getLines_joinLines (ls : List (List Char)) (h : ∀ l ∈ ls, '\n' ∉ l) :
    getLines (joinLines ls) [] = ls := by
  induction ls with
  | nil => simp [joinLines, getLines]
  | cons l rest ih =>
    rw [joinLines, getLines_line l _ [] (h l (List.mem_cons_self _ _)),
      ih (fun x hx => h x (List.mem_cons_of_mem _ hx))]
    simp

theorem getLines_no_newline (text cur : List Char) (hcur : '\n' ∉ cur) :
    ∀ l ∈ getLines text cur, '\n' ∉ l := by
  induction text generalizing cur with
  | nil =>
    intro l hl
    unfold getLines at hl
    split at hl
    · simp at hl
    · simp only [List.mem_singleton] at hl
      rw [hl]; simpa using hcur
  | cons c cs ih =>
    intro l hl
    unfold getLines at hl
    split at hl
    · rcases List.mem_cons.mp hl with e | e
      · rw [e]; simpa using hcur
      · exact ih [] (by simp) l e
    · rename_i hc
      exact ih (c :: cur) (by
        intro e
        rcases List.mem_cons.mp e with e | e
        · exact hc e.symm
        · exact hcur e) l hl

theorem dropMalformed_subset (inNodes : Bool) (lines : List (List Char)) :
    ∀ l ∈ dropMalformed inNodes lines, l ∈ lines := by
  induction lines generalizing inNodes with
  | nil => intro l hl; simp [dropMalformed] at hl
  | cons x xs ih =>
    intro l hl
    unfold dropMalformed at hl
    split at hl
    · split at hl
      · rcases List.mem_cons.mp hl with e | e
        · rw [e]; exact List.mem_cons_self _ _
        · exact List.mem_cons_of_mem _ (ih _ l e)
      · exact List.mem_cons_of_mem _ (ih _ l hl)
    · split at hl
      · exact List.mem_cons_of_mem _ (ih _ l hl)
      · rcases List.mem_cons.mp hl with e | e
        · rw [e]; exact List.mem_cons_self _ _
        · exact List.mem_cons_of_mem _ (ih _ l e)

/-- The diagnostics the loop has written are the ones the specification owes, as long
as the counter does not pass `INT_MAX`. -/
theorem foldl_readLine_diagnostics (rest seen : List (List Char)) (st : LoadState)
    (hn : st.lineNumber = seen.length)
    (hr : st.readingNodes = decide (edgesLine ∉ seen))
    (hb : seen.length + rest.length ≤ 2147483647) :
    (rest.foldl readLine st).diagnostics =
      st.diagnostics ++ specDiagnosticsAfter seen rest := by
  induction rest generalizing seen st with
  | nil => simp [specDiagnosticsAfter]
  | cons l ls ih =>
    rw [List.foldl_cons, specDiagnosticsAfter]
    rw [List.length_cons] at hb
    have hnext : nextLineNumber st.lineNumber = (seen.length : Int) + 1 := by
      rw [nextLineNumber_of_lt _ (by rw [hn]; omega), hn]
    have hn2 : (readLine st l).lineNumber = ((seen ++ [l]).length : Nat) := by
      rw [readLine_lineNumber, hnext]; simp
    have hr2 : (readLine st l).readingNodes = decide (edgesLine ∉ seen ++ [l]) := by
      rw [readLine_readingNodes, hr]
      by_cases hl : l = edgesLine
      · simp [hl]
      · have hl2 : ¬ edgesLine = l := fun e => hl e.symm
        simp [hl, hl2]
    rw [ih (seen ++ [l]) (readLine st l) hn2 hr2 (by simp; omega), ← List.append_assoc]
    congr 1
    unfold specDiagnosticOf
    by_cases hl : l = edgesLine
    · rw [hl, readLine_marker]; simp
    · simp only [hl, if_false]
      rw [← hr, ← hnext]
      cases hm : isMalformed st.readingNodes l with
      | true =>
        rw [readLine_malformed st l hl hm]
        simp
      | false =>
        rw [(readLine_wellFormed st l hl hm).2.2.1]
        simp

end SocialNetwork

namespace GuiV2

open SocialNetwork

theorem guiAddNode_nodes (s : SocialNetwork) (id : Int) (cs : List String) :
    (GuiV2.addNode s id cs).nodes = (s.addNode id cs).nodes := rfl

theorem guiAddNode_adjList (s : SocialNetwork) (id : Int) (cs : List String) :
    (GuiV2.addNode s id cs).adjList = s.adjList := rfl

theorem guiAddNode_vocabulary (s : SocialNetwork) (id : Int) (cs : List String) :
    (GuiV2.addNode s id cs).availableCharacteristics = s.availableCharacteristics := rfl

theorem nodes_addNode_congr (s t : SocialNetwork) (h : s.nodes = t.nodes) (id : Int)
    (cs : List String) : (GuiV2.addNode s id cs).nodes = (t.addNode id cs).nodes := by
  rw [GuiV2.guiAddNode_nodes, SocialNetwork.addNode_nodes, SocialNetwork.addNode_nodes, h]

theorem adjList_addEdge_congr (s t : SocialNetwork) (h : s.adjList = t.adjList) (a b : Int) :
    (s.addEdge a b).adjList = (t.addEdge a b).adjList := by
  rw [addEdge_adjList, addEdge_adjList, h]

/-- The loop of `gui_v2.cpp` and the loop of `v7.cc` build the same node table and the
same adjacency relation and write the same diagnostics; the former never touches
the vocabulary. -/
theorem readLine_simulation (st1 st2 : LoadState) (line : List Char)
    (hn : st1.net.nodes = st2.net.nodes) (ha : st1.net.adjList = st2.net.adjList)
    (hr : st1.readingNodes = st2.readingNodes) (hl : st1.lineNumber = st2.lineNumber)
    (hd : st1.diagnostics = st2.diagnostics) :
    (GuiV2.readLine st1 line).net.nodes = (SocialNetwork.readLine st2 line).net.nodes ∧
    (GuiV2.readLine st1 line).net.adjList = (SocialNetwork.readLine st2 line).net.adjList ∧
    (GuiV2.readLine st1 line).readingNodes = (SocialNetwork.readLine st2 line).readingNodes ∧
    (GuiV2.readLine st1 line).lineNumber = (SocialNetwork.readLine st2 line).lineNumber ∧
    (GuiV2.readLine st1 line).diagnostics = (SocialNetwork.readLine st2 line).diagnostics ∧
    (GuiV2.readLine st1 line).net.availableCharacteristics =
      st1.net.availableCharacteristics := by
  unfold GuiV2.readLine SocialNetwork.readLine
  rw [← hr, ← hl, ← hd]
  by_cases hm : line = "edges".toList
  · rw [if_pos hm, if_pos hm]
    exact ⟨hn, ha, rfl, rfl, rfl, rfl⟩
  · rw [if_neg hm, if_neg hm]
    by_cases hs : st1.readingNodes = true
    · simp only [hs, if_true]
      cases extractInt line with
      | none => exact ⟨hn, ha, rfl, rfl, rfl, rfl⟩
      | some r =>
        obtain ⟨id, rest⟩ := r
        exact ⟨nodes_addNode_congr _ _ hn _ _, ha, rfl, rfl, rfl, rfl⟩
    · simp only [hs, if_false]
      cases extractInt line with
      | none => exact ⟨hn, ha, rfl, rfl, rfl, rfl⟩
      | some r =>
        obtain ⟨id1, rest⟩ := r
        simp only
        cases extractInt rest with
        | none => exact ⟨hn, ha, rfl, rfl, rfl, rfl⟩
        | some r2 =>
          obtain ⟨id2, rest2⟩ := r2
          exact ⟨hn, adjList_addEdge_congr _ _ ha _ _, rfl, rfl, rfl, rfl⟩

theorem foldl_readLine_simulation (lines : List (List Char)) (st1 st2 : LoadState)
    (hn : st1.net.nodes = st2.net.nodes) (ha : st1.net.adjList = st2.net.adjList)
    (hr : st1.readingNodes = st2.readingNodes) (hl : st1.lineNumber = st2.lineNumber)
    (hd : st1.diagnostics = st2.diagnostics) :
    (lines.foldl GuiV2.readLine st1).net.nodes =
      (lines.foldl SocialNetwork.readLine st2).net.nodes ∧
    (lines.foldl GuiV2.readLine st1).net.adjList =
      (lines.foldl SocialNetwork.readLine st2).net.adjList ∧
    (lines.foldl GuiV2.readLine st1).diagnostics =
      (lines.foldl SocialNetwork.readLine st2).diagnostics ∧
    (lines.foldl GuiV2.readLine st1).net.availableCharacteristics =
      st1.net.availableCharacteristics := by
  induction lines generalizing st1 st2 with
  | nil => exact ⟨hn, ha, hd, rfl⟩
  | cons l ls ih =>
    obtain ⟨h1, h2, h3, h4, h5, h6⟩ := readLine_simulation st1 st2 l hn ha hr hl hd
    rw [List.foldl_cons, List.foldl_cons]
    have := ih _ _ h1 h2 h3 h4 h5
    rw [h6] at this
    exact this

/-- Loading with `gui_v2.cpp` and with `v7.cc` gives the same node table, adjacency
relation and diagnostics. -/
theorem readFromFile_simulation (s : SocialNetwork) (filename : String)
    (file : Option String) :
    (GuiV2.readFromFile s filename file).1.nodes =
      (SocialNetwork.readFromFile s filename file).1.nodes ∧
    (GuiV2.readFromFile s filename file).1.adjList =
      (SocialNetwork.readFromFile s filename file).1.adjList ∧
    (GuiV2.readFromFile s filename file).2 = (SocialNetwork.readFromFile s filename file).2 ∧
    (GuiV2.readFromFile s filename file).1.availableCharacteristics =
      s.availableCharacteristics := by
  cases file with
  | none => exact ⟨rfl, rfl, rfl, rfl⟩
  | some content =>
    exact foldl_readLine_simulation _ ⟨s, true, 0, []⟩ ⟨s, true, 0, []⟩ rfl rfl rfl rfl rfl

end GuiV2

/-! ## The claims on the vocabulary and on loading -/

namespace SocialNetwork

theorem mem_vocabulary_addNode (s : SocialNetwork) (id : Int) (cs : List String) (c : String) :
    c ∈ (s.addNode id cs).availableCharacteristics ↔
      c ∈ s.availableCharacteristics ∨ c ∈ cs :=
  mem_foldl_usInsert cs s.availableCharacteristics c

/-- C11: the vocabulary read by `getAvailableCharacteristics` never shrinks.  After
`addNode id C` it has exactly the members of the old vocabulary and of `C`;
`addEdge` leaves it as it is; after `readFromFile` it contains the old one; a call
of `calculateDominanceAndInfluence` that returns leaves it as it is (`postMessage`
and `targetAds` assign no member of the class and are functions of the state); and
a characteristic of `C1` is still in the vocabulary after `addNode id C1` followed
by `addNode id C2`, as `red` is after its only node has been overwritten. -/
theorem vocabulary_only_grows (s : SocialNetwork) :
    (∀ id C c, c ∈ getAvailableCharacteristics (s.addNode id C) ↔
      c ∈ getAvailableCharacteristics s ∨ c ∈ C) ∧
    (∀ a b, getAvailableCharacteristics (s.addEdge a b) = getAvailableCharacteristics s) ∧
    (∀ filename file c, c ∈ getAvailableCharacteristics s →
      c ∈ getAvailableCharacteristics (s.readFromFile filename file).1) ∧
    (∀ S out, calculateDominanceAndInfluence s S = some out →
      getAvailableCharacteristics out.1 = getAvailableCharacteristics s) ∧
    (∀ id C1 C2 c, c ∈ C1 →
      c ∈ getAvailableCharacteristics ((s.addNode id C1).addNode id C2)) ∧
    ("red" ∈ getAvailableCharacteristics ((empty.addNode 1 ["red"]).addNode 1 ["blue"]) ∧
      targetAds ((empty.addNode 1 ["red"]).addNode 1 ["blue"]) ["red"] = []) := by
  refine ⟨fun id C c => mem_vocabulary_addNode s id C c, fun a b => rfl, ?_, ?_, ?_,
    by decide⟩
  · intro filename file c hc
    exact readFromFile_preserves (fun t => c ∈ t.availableCharacteristics)
      (fun t id cs ht _ => (mem_vocabulary_addNode t id cs c).mpr (Or.inl ht))
      (fun t a b ht => ht) s filename file hc
  · intro S out h
    rw [calculateDominance_some s S out h]
  · intro id C1 C2 c hc
    exact (mem_vocabulary_addNode _ id C2 c).mpr
      (Or.inl ((mem_vocabulary_addNode s id C1 c).mpr (Or.inr hc)))

/-- Witness of C11 on `sampleNet`, whose node 2 is overwritten without `Red`. -/
theorem vocabulary_only_grows_witness :
    "Red" ∈ getAvailableCharacteristics ((sampleNet.addNode 2 ["Red"]).addNode 2 []) ∧
    "Red" ∈ getAvailableCharacteristics (sampleNet.readFromFile "nodes.txt" (some "2\n")).1 :=
  ⟨(vocabulary_only_grows sampleNet).2.2.2.2.1 2 ["Red"] [] "Red" (by decide),
   (vocabulary_only_grows sampleNet).2.2.1 "nodes.txt" (some "2\n") "Red" (by decide)⟩

/-- C12: loading is the left-to-right fold of the lines into calls.  In the node
section a line whose first token is an integer performs `addNode` of that integer
and of the set of the remaining tokens, in the edge section a line of exactly two
integer tokens performs `addEdge` of them, neither writes a diagnostic, and a
source all of whose lines are of these forms (or the marker) yields the network
obtained by running the calls in file order.  Loading `5 red blue`, `edges`, `5 7`
into the fresh network gives a node table with node 5 only, carrying `red` and
`blue`, with 7 a neighbor of 5 and 5 a neighbor of 7. -/
theorem load_is_fold_of_calls (s : SocialNetwork) (filename : String) :
    (∀ st line c, line ≠ edgesLine → st.readingNodes = true → specNodeLine line = some c →
      readLine st line =
        { st with lineNumber := nextLineNumber st.lineNumber, net := Call.run st.net c }) ∧
    (∀ st line c, line ≠ edgesLine → st.readingNodes = false → specEdgeLine line = some c →
      readLine st line =
        { st with lineNumber := nextLineNumber st.lineNumber, net := Call.run st.net c }) ∧
    (∀ text calls, specCalls true (linesOf text) = some calls →
      s.readFromFile filename (some text) = (calls.foldl Call.run s, [])) ∧
    (specCalls true (linesOf "5 red blue\nedges\n5 7") =
        some [Call.addNode 5 ["blue", "red"], Call.addEdge 5 7] ∧
      loadedNet.nodes = [(5, ⟨5, ["blue", "red"]⟩)] ∧
      (7 : Int) ∈ loadedNet.neighbors 5 ∧ (5 : Int) ∈ loadedNet.neighbors 7 ∧
      (7 : Int) ∉ umKeys loadedNet.nodes) := by
  refine ⟨fun st line c hl hs hc => readLine_specNodeLine st line c hl hs hc,
    fun st line c hl hs hc => readLine_specEdgeLine st line c hl hs hc, ?_, by decide⟩
  intro text calls h
  have := foldl_readLine_specCalls (linesOf text) ⟨s, true, 0, []⟩ calls h
  show (((linesOf text).foldl readLine ⟨s, true, 0, []⟩).net,
    ((linesOf text).foldl readLine ⟨s, true, 0, []⟩).diagnostics) = _
  exact Prod.ext this.1 this.2

/-- Witness of C12 on the three-line source of the specification. -/
theorem load_is_fold_of_calls_witness :
    empty.readFromFile "nodes.txt" (some "5 red blue\nedges\n5 7") =
      ([Call.addNode 5 ["blue", "red"], Call.addEdge 5 7].foldl Call.run empty, []) :=
  (load_is_fold_of_calls empty "nodes.txt").2.2.1 "5 red blue\nedges\n5 7"
    [Call.addNode 5 ["blue", "red"], Call.addEdge 5 7] (by decide)

/-- C13: malformed lines are recovered locally.  For every source text, loading the
text whose lines are those of the source without the malformed ones (a node-section
line without a leading integer, such as `abc red` or a blank line; an edge-section
line that does not start with two integers, a further `edges` line among them)
gives the same network as loading the source, and so does the loop from any state.
A malformed line changes neither the network nor the section, and the valid line
that follows it is applied: a node line performs its `addNode`, an edge line its
`addEdge`, on the network as it was before the malformed line.  When the lines that
remain are well-formed, the network loaded from the whole source is the one their
calls build, in file order; the source `abc red`, blank, `5 red`, `edges`, `x 1`,
`edges`, `5 7` loads node 5 with `red` and the edge between 5 and 7.
`readFromFile` is a total function: no line aborts it. -/
theorem malformed_lines_skipped (s : SocialNetwork) (filename : String) (text : String) :
    (s.readFromFile filename
        (some (String.mk (joinLines (dropMalformed true (linesOf text)))))).1 =
      (s.readFromFile filename (some text)).1 ∧
    (∀ (st : LoadState) (lines : List (List Char)),
      ((dropMalformed st.readingNodes lines).foldl readLine st).net =
        (lines.foldl readLine st).net) ∧
    (∀ (st : LoadState) (line : List Char), line ≠ edgesLine →
      isMalformed st.readingNodes line = true →
      (readLine st line).net = st.net ∧
      (readLine st line).readingNodes = st.readingNodes) ∧
    (∀ (st : LoadState), st.readingNodes = false →
      (readLine st edgesLine).net = st.net ∧
      (readLine st edgesLine).readingNodes = st.readingNodes) ∧
    (∀ (st : LoadState) (bad good : List Char) (id : Int) (rest : List Char),
      st.readingNodes = true → bad ≠ edgesLine → good ≠ edgesLine →
      isMalformed true bad = true → extractInt good = some (id, rest) →
      (readLine (readLine st bad) good).net =
        st.net.addNode id (readCharacteristics rest)) ∧
    (∀ (st : LoadState) (bad good : List Char) (id1 id2 : Int) (rest rest2 : List Char),
      st.readingNodes = false → bad ≠ edgesLine → good ≠ edgesLine →
      isMalformed false bad = true → extractInt good = some (id1, rest) →
      extractInt rest = some (id2, rest2) →
      (readLine (readLine st bad) good).net = st.net.addEdge id1 id2) ∧
    (∀ calls, specCalls true (dropMalformed true (linesOf text)) = some calls →
      (s.readFromFile filename (some text)).1 = calls.foldl Call.run s) ∧
    (isMalformed true "abc red".toList = true ∧ isMalformed true [] = true ∧
      isMalformed false "5".toList = true ∧ isMalformed false "5 x".toList = true ∧
      dropMalformed true (linesOf "abc red\n\n5 red\nedges\nx 1\nedges\n5 7") =
        ["5 red".toList, "edges".toList, "5 7".toList] ∧
      (empty.readFromFile "nodes.txt" (some "abc red\n\n5 red\nedges\nx 1\nedges\n5 7")).1 =
        ⟨[(5, ⟨5, ["red"]⟩)], [(7, [5]), (5, [7])], ["red"]⟩ ∧
      (empty.readFromFile "nodes.txt" (some "5 red\nedges\n5 7")).1 =
        ⟨[(5, ⟨5, ["red"]⟩)], [(7, [5]), (5, [7])], ["red"]⟩) := by
  have skip : ∀ (st : LoadState) (line : List Char), line ≠ edgesLine →
      isMalformed st.readingNodes line = true →
      (readLine st line).net = st.net ∧
      (readLine st line).readingNodes = st.readingNodes := by
    intro st line hl hm
    rw [readLine_malformed st line hl hm]
    exact ⟨rfl, rfl⟩
  refine ⟨?_, fun st lines => foldl_readLine_dropMalformed lines st, skip, ?_, ?_, ?_, ?_,
    by decide⟩
  · have hlines : linesOf (String.mk (joinLines (dropMalformed true (linesOf text)))) =
        dropMalformed true (linesOf text) := by
      apply getLines_joinLines
      intro l hl
      exact getLines_no_newline text.toList [] (by simp) l (dropMalformed_subset _ _ l hl)
    show ((linesOf (String.mk (joinLines (dropMalformed true (linesOf text))))).foldl
        readLine ⟨s, true, 0, []⟩).net = ((linesOf text).foldl readLine ⟨s, true, 0, []⟩).net
    rw [hlines]
    exact foldl_readLine_dropMalformed (linesOf text) ⟨s, true, 0, []⟩
  · intro st hs
    rw [readLine_marker, hs]
    exact ⟨rfl, rfl⟩
  · intro st bad good id rest hs hb hg hm he
    obtain ⟨h1, h2⟩ := skip st bad hb (by rw [hs]; exact hm)
    rw [readLine_nodeLine _ good hg (h2.trans hs), he]
    simp only [h1]
  · intro st bad good id1 id2 rest rest2 hs hb hg hm he he2
    obtain ⟨h1, h2⟩ := skip st bad hb (by rw [hs]; exact hm)
    rw [readLine_edgeLine _ good hg (h2.trans hs), he]
    simp only [he2, h1]
  · intro calls hc
    have h1 := foldl_readLine_dropMalformed (linesOf text) ⟨s, true, 0, []⟩
    have h2 := (foldl_readLine_specCalls (dropMalformed true (linesOf text))
      ⟨s, true, 0, []⟩ calls hc).1
    show ((linesOf text).foldl readLine ⟨s, true, 0, []⟩).net = _
    rw [← h1]
    exact h2

/-- Witness of C13 on the malformed line `abc red` followed by the node line `5 red`. -/
theorem malformed_lines_skipped_witness :
    (readLine (readLine ⟨empty, true, 0, []⟩ "abc red".toList) "5 red".toList).net =
      empty.addNode 5 (readCharacteristics " red".toList) :=
  (malformed_lines_skipped empty "nodes.txt" "").2.2.2.2.1 ⟨empty, true, 0, []⟩
    "abc red".toList "5 red".toList 5 " red".toList rfl (by decide) (by decide) (by decide)
    (by decide)

/-- C14: when the file cannot be opened `readFromFile` writes the open-failure
diagnostic and returns the network it was given; on a fresh network the node
table, the adjacency relation and the vocabulary are empty.  The same holds for the
function of `gui_v2.cpp`. -/
theorem load_unopenable_leaves_model (s : SocialNetwork) (filename : String) :
    s.readFromFile filename none = (s, [Diagnostic.openError filename]) ∧
    GuiV2.readFromFile s filename none = (s, [Diagnostic.openError filename]) ∧
    (empty.readFromFile filename none).1.nodes = [] ∧
    (empty.readFromFile filename none).1.adjList = [] ∧
    getAvailableCharacteristics (empty.readFromFile filename none).1 = [] ∧
    (GuiV2.readFromFile empty filename none).1.nodes = [] ∧
    (GuiV2.readFromFile empty filename none).1.adjList = [] :=
  ⟨rfl, rfl, rfl, rfl, rfl, rfl, rfl⟩

end SocialNetwork

namespace SocialNetwork

theorem mem_readCharacteristics (rest : List Char) (c : String) :
    c ∈ readCharacteristics rest ↔ c ∈ tokens rest := by
  rw [readCharacteristics_eq, mem_foldl_usInsert]
  simp

/-- C15 (counterexample): the edge-section lines `1 2 3` and `1 2 x` have three
tokens, so they are not lines of exactly two integer tokens, and yet the loop
performs `addEdge 1 2` for each of them and writes no diagnostic. -/
theorem edge_line_extra_tokens_accepted :
    tokens "1 2 3".toList = ["1", "2", "3"] ∧
    specEdgeLine "1 2 3".toList = none ∧
    readLine ⟨empty, false, 1, []⟩ "1 2 3".toList = ⟨empty.addEdge 1 2, false, 2, []⟩ ∧
    tokens "1 2 x".toList = ["1", "2", "x"] ∧
    specEdgeLine "1 2 x".toList = none ∧
    readLine ⟨empty, false, 1, []⟩ "1 2 x".toList = ⟨empty.addEdge 1 2, false, 2, []⟩ ∧
    (empty.addEdge 1 2).neighbors 1 = [2] ∧
    empty.readFromFile "nodes.txt" (some "edges\n1 2 3") = (empty.addEdge 1 2, []) := by
  decide

/-- C15 (amended): in the edge section a further marker line `edges` is skipped
without a diagnostic and changes nothing but the line counter.  For every other
edge-section line the loop performs `addEdge id1 id2` exactly when the extraction
`iss >> id1 >> id2` succeeds, that is when the line starts with two integers,
whatever follows the second one; this is the case of every line of exactly two
integer tokens, with their values.  Every other line (no leading integer, or no
integer after the first) only advances the line counter and appends the edge
diagnostic: the network is unchanged. -/
theorem edge_line_needs_two_leading_integers (st : LoadState) (line : List Char)
    (hs : st.readingNodes = false) :
    (line = edgesLine →
      readLine st line =
        { st with readingNodes := false, lineNumber := nextLineNumber st.lineNumber } ∧
      (readLine st line).net = st.net ∧
      (readLine st line).diagnostics = st.diagnostics) ∧
    (line ≠ edgesLine →
      (∀ id1 rest id2 rest2, extractInt line = some (id1, rest) →
        extractInt rest = some (id2, rest2) →
        readLine st line =
          { st with lineNumber := nextLineNumber st.lineNumber,
                    net := st.net.addEdge id1 id2 }) ∧
      (∀ a b id1 id2, tokens line = [a, b] → intTokenValue a = some id1 →
        intTokenValue b = some id2 →
        readLine st line =
          { st with lineNumber := nextLineNumber st.lineNumber,
                    net := st.net.addEdge id1 id2 }) ∧
      ((extractInt line = none ∨
          ∃ id1 rest, extractInt line = some (id1, rest) ∧ extractInt rest = none) →
        readLine st line =
          { st with lineNumber := nextLineNumber st.lineNumber,
                    diagnostics :=
                      st.diagnostics ++
                        [Diagnostic.edgeError (nextLineNumber st.lineNumber)] })) := by
  constructor
  · intro hl
    rw [hl, readLine_marker]
    exact ⟨rfl, rfl, rfl⟩
  · intro hl
    have first : ∀ id1 rest id2 rest2, extractInt line = some (id1, rest) →
        extractInt rest = some (id2, rest2) →
        readLine st line =
          { st with lineNumber := nextLineNumber st.lineNumber,
                    net := st.net.addEdge id1 id2 } := by
      intro id1 rest id2 rest2 he he2
      rw [readLine_edgeLine st line hl hs, he]
      simp only [he2]
    refine ⟨first, ?_, ?_⟩
    · intro a b id1 id2 htok h1 h2
      obtain ⟨rest, he, hrest⟩ := extractInt_first_token line a [b] id1 htok h1
      obtain ⟨rest2, he2, _⟩ := extractInt_first_token rest b [] id2 hrest h2
      exact first id1 rest id2 rest2 he he2
    · intro h
      have hm : isMalformed st.readingNodes line = true := by
        rw [hs]
        rcases h with h | ⟨id1, rest, he, he2⟩
        · simp [isMalformed, h]
        · simp [isMalformed, he, he2]
      rw [readLine_malformed st line hl hm]
      simp [hs]

/-- Witness of the amended C15 on the line `1 2 3`. -/
theorem edge_line_needs_two_leading_integers_witness :
    readLine ⟨empty, false, 1, []⟩ "1 2 3".toList =
      { (⟨empty, false, 1, []⟩ : LoadState) with
        lineNumber := nextLineNumber 1, net := empty.addEdge 1 2 } :=
  ((edge_line_needs_two_leading_integers ⟨empty, false, 1, []⟩ "1 2 3".toList rfl).2
    (by decide)).1 1 " 2 3".toList 2 " 3".toList (by decide) (by decide)

/-- C16 (counterexample): the first token of the node-section line `5abc red` is
`5abc`, which is not an integer, and yet the loop does not skip the line: it adds
node 5 with the characteristics `abc` and `red` and writes no diagnostic. -/
theorem node_line_partial_integer_accepted :
    tokens "5abc red".toList = ["5abc", "red"] ∧
    intTokenValue "5abc" = none ∧
    specNodeLine "5abc red".toList = none ∧
    readLine ⟨empty, true, 0, []⟩ "5abc red".toList =
      ⟨empty.addNode 5 ["red", "abc"], true, 1, []⟩ ∧
    (empty.addNode 5 ["red", "abc"]).nodes = [(5, ⟨5, ["red", "abc"]⟩)] ∧
    empty.readFromFile "nodes.txt" (some "5abc red") =
      (empty.addNode 5 ["red", "abc"], []) := by
  decide

/-- C16 (amended): for a node-section line other than the marker, the loop performs
`addNode` exactly when the extraction `iss >> id` succeeds, that is when the line
starts with an integer; the id is that integer and the characteristic set is
duplicate-free and has exactly the tokens of what follows the integer as members.
When the first token is an integer as a whole, the id is its value and the
characteristic set is the set of the remaining tokens.  A line without a leading
integer only increments the line counter and appends the node diagnostic: no node
is added. -/
theorem node_line_needs_leading_integer (st : LoadState) (line : List Char)
    (hl : line ≠ edgesLine) (hs : st.readingNodes = true) :
    (∀ id rest, extractInt line = some (id, rest) →
      readLine st line =
        { st with lineNumber := nextLineNumber st.lineNumber,
                  net := st.net.addNode id (readCharacteristics rest) } ∧
      (readCharacteristics rest).Nodup ∧
      ∀ c, c ∈ readCharacteristics rest ↔ c ∈ tokens rest) ∧
    (∀ t ts id, tokens line = t :: ts → intTokenValue t = some id →
      ∃ cs, readLine st line =
          { st with lineNumber := nextLineNumber st.lineNumber, net := st.net.addNode id cs } ∧
        cs.Nodup ∧ ∀ c, c ∈ cs ↔ c ∈ ts) ∧
    (extractInt line = none →
      readLine st line =
        { st with lineNumber := nextLineNumber st.lineNumber,
                  diagnostics :=
                    st.diagnostics ++ [Diagnostic.nodeIdError (nextLineNumber st.lineNumber)] }) := by
  have first : ∀ id rest, extractInt line = some (id, rest) →
      readLine st line =
        { st with lineNumber := nextLineNumber st.lineNumber,
                  net := st.net.addNode id (readCharacteristics rest) } := by
    intro id rest he
    rw [readLine_nodeLine st line hl hs, he]
  refine ⟨fun id rest he => ⟨first id rest he, nodup_readCharacteristics rest,
    mem_readCharacteristics rest⟩, ?_, ?_⟩
  · intro t ts id htok hv
    obtain ⟨rest, he, hrest⟩ := extractInt_first_token line t ts id htok hv
    refine ⟨readCharacteristics rest, first id rest he, nodup_readCharacteristics rest, ?_⟩
    intro c
    rw [mem_readCharacteristics, hrest]
  · intro he
    rw [readLine_nodeLine st line hl hs, he]

/-- Witness of the amended C16 on the line `5abc red`. -/
theorem node_line_needs_leading_integer_witness :
    readLine ⟨empty, true, 0, []⟩ "5abc red".toList =
      { (⟨empty, true, 0, []⟩ : LoadState) with
        lineNumber := nextLineNumber 0,
        net := empty.addNode 5 (readCharacteristics "abc red".toList) } :=
  ((node_line_needs_leading_integer ⟨empty, true, 0, []⟩ "5abc red".toList
    (by decide) rfl).1 5 "abc red".toList (by decide)).1

end SocialNetwork

namespace SocialNetwork

theorem readLine_nodeSection (st : LoadState) (line : List Char)
    (hs : st.readingNodes = true) :
    (readLine st line).net.adjList = st.net.adjList := by
  by_cases hl : line = edgesLine
  · rw [hl, readLine_marker]
  · cases hm : isMalformed st.readingNodes line with
    | true => rw [readLine_malformed st line hl hm]
    | false =>
      rcases (readLine_wellFormed st line hl hm).2.2.2 with ⟨_, id, rest, _, hnet⟩ | ⟨h, _⟩
      · rw [hnet]; rfl
      · rw [hs] at h; exact absurd h (by simp)

theorem readLine_edgeSection (st : LoadState) (line : List Char)
    (hs : st.readingNodes = false) :
    (readLine st line).net.nodes = st.net.nodes ∧
    (readLine st line).net.availableCharacteristics = st.net.availableCharacteristics := by
  by_cases hl : line = edgesLine
  · rw [hl, readLine_marker]; exact ⟨rfl, rfl⟩
  · cases hm : isMalformed st.readingNodes line with
    | true => rw [readLine_malformed st line hl hm]; exact ⟨rfl, rfl⟩
    | false =>
      rcases (readLine_wellFormed st line hl hm).2.2.2 with
        ⟨h, _⟩ | ⟨_, id1, rest, id2, rest2, _, _, hnet⟩
      · rw [hs] at h; exact absurd h (by simp)
      · rw [hnet]; exact ⟨rfl, rfl⟩

theorem foldl_readLine_nodeSection (pre : List (List Char)) (st : LoadState)
    (hs : st.readingNodes = true) (hpre : edgesLine ∉ pre) :
    (pre.foldl readLine st).readingNodes = true ∧
    (pre.foldl readLine st).net.adjList = st.net.adjList := by
  induction pre generalizing st with
  | nil => exact ⟨hs, rfl⟩
  | cons l ls ih =>
    have hl : l ≠ edgesLine := fun e => hpre (by simp [e])
    have hls : edgesLine ∉ ls := fun e => hpre (List.mem_cons_of_mem _ e)
    have hs2 : (readLine st l).readingNodes = true := by
      rw [readLine_readingNodes, hs]; simp [hl]
    rw [List.foldl_cons]
    obtain ⟨h1, h2⟩ := ih (readLine st l) hs2 hls
    exact ⟨h1, h2.trans (readLine_nodeSection st l hs)⟩

theorem foldl_readLine_edgeSection (post : List (List Char)) (st : LoadState)
    (hs : st.readingNodes = false) :
    (post.foldl readLine st).readingNodes = false ∧
    (post.foldl readLine st).net.nodes = st.net.nodes ∧
    (post.foldl readLine st).net.availableCharacteristics =
      st.net.availableCharacteristics := by
  induction post generalizing st with
  | nil => exact ⟨hs, rfl, rfl⟩
  | cons l ls ih =>
    have hs2 : (readLine st l).readingNodes = false := by
      rw [readLine_readingNodes, hs]; simp
    rw [List.foldl_cons]
    obtain ⟨h1, h2, h3⟩ := ih (readLine st l) hs2
    exact ⟨h1, h2.trans (readLine_edgeSection st l hs).1,
      h3.trans (readLine_edgeSection st l hs).2⟩

/-- C17: only a line equal to `edges` switches sections.  As long as no such line has
been read the loop stays in the node section and never changes the adjacency
relation; the marker line switches to the edge section and changes nothing else;
from then on the loop stays in the edge section and never changes the node table
(nor the vocabulary); a line other than the marker, such as ` edges` or `edges `,
leaves the section as it is; a source without a marker line leaves the adjacency
relation as it was, hence empty on a fresh network.  So `5 7` before the marker
makes node 5 with the characteristic `7` and no edge, and `8 red` after the marker
makes no node.  The loop of `gui_v2.cpp` and `social.cpp` builds the same node
table and adjacency relation. -/
theorem section_switch_only_on_marker (s : SocialNetwork) (filename : String) :
    (∀ (st : LoadState) (pre : List (List Char)), st.readingNodes = true →
      edgesLine ∉ pre →
      (pre.foldl readLine st).readingNodes = true ∧
      (pre.foldl readLine st).net.adjList = st.net.adjList) ∧
    (∀ st, (readLine st edgesLine).readingNodes = false ∧
      (readLine st edgesLine).net = st.net) ∧
    (∀ (st : LoadState) (post : List (List Char)), st.readingNodes = false →
      (post.foldl readLine st).readingNodes = false ∧
      (post.foldl readLine st).net.nodes = st.net.nodes ∧
      (post.foldl readLine st).net.availableCharacteristics =
        st.net.availableCharacteristics) ∧
    (∀ st line, line ≠ edgesLine → (readLine st line).readingNodes = st.readingNodes) ∧
    (∀ text, edgesLine ∉ linesOf text →
      (s.readFromFile filename (some text)).1.adjList = s.adjList ∧
      (empty.readFromFile filename (some text)).1.adjList = []) ∧
    (∀ file,
      (GuiV2.readFromFile s filename file).1.nodes = (s.readFromFile filename file).1.nodes ∧
      (GuiV2.readFromFile s filename file).1.adjList =
        (s.readFromFile filename file).1.adjList) ∧
    (empty.readFromFile "nodes.txt" (some "5 7\nedges") =
        (⟨[(5, ⟨5, ["7"]⟩)], [], ["7"]⟩, []) ∧
      empty.readFromFile "nodes.txt" (some "edges\n8 red") =
        (empty, [Diagnostic.edgeError 2]) ∧
      empty.readFromFile "nodes.txt" (some " edges\n1 2") =
        (⟨[(1, ⟨1, ["2"]⟩)], [], ["2"]⟩, [Diagnostic.nodeIdError 1]) ∧
      empty.readFromFile "nodes.txt" (some "edges \n1 2") =
        (⟨[(1, ⟨1, ["2"]⟩)], [], ["2"]⟩, [Diagnostic.nodeIdError 1])) := by
  refine ⟨fun st pre hs hpre => foldl_readLine_nodeSection pre st hs hpre, ?_,
    fun st post hs => foldl_readLine_edgeSection post st hs, ?_, ?_, ?_, by decide⟩
  · intro st
    rw [readLine_marker]
    exact ⟨rfl, rfl⟩
  · intro st line hl
    rw [readLine_readingNodes]
    simp [hl]
  · intro text h
    exact ⟨(foldl_readLine_nodeSection (linesOf text) ⟨s, true, 0, []⟩ rfl h).2,
      (foldl_readLine_nodeSection (linesOf text) ⟨empty, true, 0, []⟩ rfl h).2⟩
  · intro file
    exact ⟨(GuiV2.readFromFile_simulation s filename file).1,
      (GuiV2.readFromFile_simulation s filename file).2.1⟩

/-- Witness of C17 on the lines `5 7`, ` edges`, `edges ` read in the node section. -/
theorem section_switch_only_on_marker_witness :
    (["5 7".toList, " edges".toList, "edges ".toList].foldl readLine
        ⟨empty, true, 0, []⟩).readingNodes = true ∧
    (["5 7".toList, " edges".toList, "edges ".toList].foldl readLine
        ⟨empty, true, 0, []⟩).net.adjList = [] :=
  (section_switch_only_on_marker empty "nodes.txt").1 ⟨empty, true, 0, []⟩
    ["5 7".toList, " edges".toList, "edges ".toList] rfl (by decide)

theorem passesFilter_iff (s : SocialNetwork) (hs : NodeTableWF s) (S : List String)
    (hS : S ≠ []) (p : Int × List Int) :
    passesFilter S s.nodes p = true ↔ p.1 ∈ targetAds s S := by
  rw [mem_targetAds]
  simp only [passesFilter, hS, decide_False, Bool.false_or]
  constructor
  · intro h
    cases hf : umFind s.nodes p.1 with
    | none => simp [hf] at h
    | some n =>
      simp only [hf] at h
      have hin := umFind_mem s.nodes p.1 n hf
      exact ⟨(p.1, n), hin, hs.nodes_id _ hin, (matchesTarget_iff _ _).mp h⟩
  · rintro ⟨⟨j, n⟩, hq, e, hm⟩
    have hj : j = p.1 := (hs.nodes_id _ hq).symm.trans e
    subst hj
    rw [umFind_of_mem s.nodes _ n hs.nodes_keys hq]
    exact (matchesTarget_iff _ _).mpr hm

/-- C18: in a well-formed state in which every key of the adjacency relation is a
node, and for a non-empty target `S`, the filtered ranking of `v7.cc` returns and
leaves the network as it was; its ids are exactly the keys of the adjacency
relation that `targetAds S` returns, none twice; each entry carries the whole
stored neighbor list of its id; and the vector is a rearrangement of the unfiltered
ranking without its non-matching entries, both being in non-increasing order of
neighbor count. -/
theorem dominance_filtered_is_unfiltered_restricted (s : SocialNetwork) (hs : WF s)
    (hclosed : ∀ k ∈ umKeys s.adjList, k ∈ umKeys s.nodes) (S : List String) (hS : S ≠ []) :
    ∃ r r0, calculateDominanceAndInfluence s S = some (s, r) ∧
      calculateDominanceAndInfluence s [] = some (s, r0) ∧
      (∀ i, i ∈ r.map Prod.fst ↔ i ∈ umKeys s.adjList ∧ i ∈ targetAds s S) ∧
      (r.map Prod.fst).Nodup ∧
      (∀ e ∈ r, e.2 = s.neighbors e.1) ∧
      r.Perm (r0.filter (fun e => decide (e.1 ∈ targetAds s S))) ∧
      r.Pairwise (fun a b => a.2.length ≥ b.2.length) ∧
      (r0.filter (fun e => decide (e.1 ∈ targetAds s S))).Pairwise
        (fun a b => a.2.length ≥ b.2.length) := by
  have hfilter : s.adjList.filter (passesFilter S s.nodes) =
      s.adjList.filter (fun e => decide (e.1 ∈ targetAds s S)) := by
    apply List.filter_congr
    intro p _
    by_cases h : p.1 ∈ targetAds s S
    · simp [h, (passesFilter_iff s hs.table S hS p).mpr h]
    · have : passesFilter S s.nodes p = false := by
        cases hp : passesFilter S s.nodes p with
        | false => rfl
        | true => exact absurd ((passesFilter_iff s hs.table S hS p).mp hp) h
      simp [h, this]
  have hperm : (stdSort bySize (s.adjList.filter (passesFilter S s.nodes))).Perm
      (s.adjList.filter (fun e => decide (e.1 ∈ targetAds s S))) := by
    rw [← hfilter]; exact perm_stdSort _ _
  have hperm0 : (stdSort bySize s.adjList).Perm s.adjList := perm_stdSort _ _
  refine ⟨stdSort bySize (s.adjList.filter (passesFilter S s.nodes)),
    stdSort bySize s.adjList, calculateDominance_total s S (Or.inr hclosed),
    calculateDominance_nil s, ?_, ?_, ?_, ?_, pairwise_stdSort_bySize _, ?_⟩
  · intro i
    rw [(hperm.map Prod.fst).mem_iff]
    simp only [List.mem_map, List.mem_filter, decide_eq_true_eq, umKeys]
    constructor
    · rintro ⟨p, ⟨hp, ht⟩, e⟩
      exact ⟨⟨p, hp, e⟩, e ▸ ht⟩
    · rintro ⟨⟨p, hp, e⟩, ht⟩
      exact ⟨p, ⟨hp, e ▸ ht⟩, e⟩
  · rw [(hperm.map Prod.fst).nodup_iff]
    exact List.Nodup.sublist (List.Sublist.map _ (List.filter_sublist _)) hs.adj_keys
  · intro e he
    have hmem := List.mem_of_mem_filter (hperm.mem_iff.mp he)
    exact (neighbors_of_mem s hs.adj_keys e hmem).symm
  · exact hperm.trans (hperm0.filter _).symm
  · exact List.Pairwise.filter _ (pairwise_stdSort_bySize _)

/-- Witness of C18 on `sampleNet` with the target `red`. -/
theorem dominance_filtered_is_unfiltered_restricted_witness :
    WF sampleNet ∧
    ∃ r r0, calculateDominanceAndInfluence sampleNet ["red"] = some (sampleNet, r) ∧
      calculateDominanceAndInfluence sampleNet [] = some (sampleNet, r0) ∧
      (∀ i, i ∈ r.map Prod.fst ↔
        i ∈ umKeys sampleNet.adjList ∧ i ∈ targetAds sampleNet ["red"]) ∧
      (r.map Prod.fst).Nodup ∧
      (∀ e ∈ r, e.2 = sampleNet.neighbors e.1) ∧
      r.Perm (r0.filter (fun e => decide (e.1 ∈ targetAds sampleNet ["red"]))) ∧
      r.Pairwise (fun a b => a.2.length ≥ b.2.length) ∧
      (r0.filter (fun e => decide (e.1 ∈ targetAds sampleNet ["red"]))).Pairwise
        (fun a b => a.2.length ≥ b.2.length) :=
  ⟨WF_sampleNet,
   dominance_filtered_is_unfiltered_restricted sampleNet WF_sampleNet (by decide) ["red"]
     (by decide)⟩

theorem readFromFile_diagnostics (s : SocialNetwork) (filename : String) (text : String) :
    (s.readFromFile filename (some text)).2 =
      ((linesOf text).foldl readLine ⟨s, true, 0, []⟩).diagnostics := rfl

theorem foldl_replicate_wellFormed (line : List Char) (hl : line ≠ edgesLine)
    (hm : isMalformed true line = false) (n : Nat) (st : LoadState)
    (hs : st.readingNodes = true) :
    ((List.replicate n line).foldl readLine st).readingNodes = true ∧
    ((List.replicate n line).foldl readLine st).diagnostics = st.diagnostics := by
  induction n generalizing st with
  | zero => exact ⟨hs, rfl⟩
  | succ n ih =>
    have hw := readLine_wellFormed st line hl (by rw [hs]; exact hm)
    rw [List.replicate_succ, List.foldl_cons]
    obtain ⟨h1, h2⟩ := ih (readLine st line) (hw.1.trans hs)
    exact ⟨h1, h2.trans hw.2.2.1⟩

/-- C19 (counterexample): two departures from the claim.  A second `edges` line is an
edge-section line that does not start with two integers, and the loop skips it
without a diagnostic.  And in a source of 2^31 lines, 2^31 - 1 node lines `5`
followed by the line `abc`, the only malformed line is at position 2147483648, a
number the `int` counter cannot hold: the diagnostic carries -2147483648. -/
theorem diagnostics_marker_and_overflow :
    (isMalformed false edgesLine = true ∧
      empty.readFromFile "nodes.txt" (some "edges\nedges") = (empty, []) ∧
      empty.readFromFile "nodes.txt" (some "edges\nx\nedges") =
        (empty, [Diagnostic.edgeError 2])) ∧
    ((List.replicate 2147483647 "5".toList ++ ["abc".toList]).length = 2147483648 ∧
      (empty.readFromFile "nodes.txt"
        (some (String.mk
          (joinLines (List.replicate 2147483647 "5".toList ++ ["abc".toList]))))).2 =
        [Diagnostic.nodeIdError (-2147483648)] ∧
      Diagnostic.nodeIdError (-2147483648) ≠ Diagnostic.nodeIdError 2147483648) := by
  refine ⟨by decide, ?_, ?_, by decide⟩
  · rw [List.length_append, List.length_replicate]
    rfl
  · have hlines : linesOf (String.mk
        (joinLines (List.replicate 2147483647 "5".toList ++ ["abc".toList]))) =
        List.replicate 2147483647 "5".toList ++ ["abc".toList] := by
      apply getLines_joinLines
      intro l hl
      rcases List.mem_append.mp hl with h | h
      · rw [List.eq_of_mem_replicate h]; decide
      · rw [List.mem_singleton.mp h]; decide
    have hfive : "5".toList ≠ edgesLine := by decide
    have hpre := foldl_replicate_wellFormed "5".toList hfive (by decide) 2147483647
      ⟨empty, true, 0, []⟩ rfl
    have hnum := foldl_readLine_lineNumber (List.replicate 2147483647 "5".toList)
      ⟨empty, true, 0, []⟩ (by rw [List.length_replicate]; decide)
    rw [List.length_replicate] at hnum
    rw [readFromFile_diagnostics, hlines, List.foldl_append, List.foldl_cons, List.foldl_nil,
      readLine_nodeLine _ "abc".toList (by decide) hpre.1]
    have he : extractInt "abc".toList = none := by decide
    rw [he]
    simp only [hpre.2, hnum]
    decide

/-- C19 (amended): for a source of at most 2^31 - 1 lines whose file opens, the
diagnostics written by `readFromFile` are, in order, one diagnostic for every line
the loop skips as malformed (a node-section line without a leading integer, an
edge-section line other than the marker that does not start with two integers) and
none for any other line, marker lines included; the number in the diagnostic of a
line is one more than the number of lines before it, every line counted (blank
lines, skipped lines, the marker).  The loop of `gui_v2.cpp` writes the same ones. -/
theorem diagnostics_number_every_line (s : SocialNetwork) (filename : String)
    (text : String) (hb : (linesOf text).length ≤ 2147483647) :
    (s.readFromFile filename (some text)).2 = specDiagnostics (linesOf text) ∧
    (GuiV2.readFromFile s filename (some text)).2 = specDiagnostics (linesOf text) ∧
    (∀ (st : LoadState) (lines : List (List Char)),
      st.lineNumber + lines.length ≤ 2147483647 →
      (lines.foldl readLine st).lineNumber = st.lineNumber + lines.length) ∧
    (∀ (st : LoadState), (readLine st edgesLine).diagnostics = st.diagnostics) ∧
    (empty.readFromFile "nodes.txt"
        (some "abc red\n\n5 red\n 12 x y\nedges\n1 2\n1 x\n\nedges\nx\n")).2 =
      [Diagnostic.nodeIdError 1, Diagnostic.nodeIdError 2, Diagnostic.edgeError 7,
       Diagnostic.edgeError 8, Diagnostic.edgeError 10] := by
  have h : (s.readFromFile filename (some text)).2 = specDiagnostics (linesOf text) := by
    have := foldl_readLine_diagnostics (linesOf text) [] ⟨s, true, 0, []⟩ rfl (by simp)
      (by simpa using hb)
    simpa [specDiagnostics] using this
  refine ⟨h, ?_, fun st lines hl => foldl_readLine_lineNumber lines st hl, ?_, by decide⟩
  · rw [(GuiV2.readFromFile_simulation s filename (some text)).2.2.1]
    exact h
  · intro st
    rw [readLine_marker]

/-- Witness of the amended C19 on a source of three lines. -/
theorem diagnostics_number_every_line_witness :
    (empty.readFromFile "nodes.txt" (some "abc\nedges\nx")).2 =
      specDiagnostics (linesOf "abc\nedges\nx") :=
  (diagnostics_number_every_line empty "nodes.txt" "abc\nedges\nx" (by decide)).1

/-- C20: the frame of the two mutators.  `addEdge id1 id2` is defined for all ids,
nodes or not, stores each id in the neighbor set of the other, and leaves the node
table and the vocabulary as they were; `addNode` (of `v7.cc` and of `gui_v2.cpp`)
leaves the adjacency relation as it was. -/
theorem mutators_frame (s : SocialNetwork) (id1 id2 id : Int) (C : List String) :
    (s.addEdge id1 id2).nodes = s.nodes ∧
    getAvailableCharacteristics (s.addEdge id1 id2) = getAvailableCharacteristics s ∧
    umKeys (s.addEdge id1 id2).nodes = umKeys s.nodes ∧
    id2 ∈ (s.addEdge id1 id2).neighbors id1 ∧
    id1 ∈ (s.addEdge id1 id2).neighbors id2 ∧
    (s.addNode id C).adjList = s.adjList ∧
    (GuiV2.addNode s id C).adjList = s.adjList ∧
    (∀ a, (s.addNode id C).neighbors a = s.neighbors a) :=
  ⟨rfl, rfl, rfl,
   (mem_neighbors_addEdge s id1 id2 id1 id2).mpr (Or.inr (Or.inl ⟨rfl, rfl⟩)),
   (mem_neighbors_addEdge s id1 id2 id2 id1).mpr (Or.inr (Or.inr ⟨rfl, rfl⟩)),
   rfl, rfl, fun _ => rfl⟩

end SocialNetwork

/-! ## The claims on self-loops and on the relations between the queries -/

namespace SocialNetwork

/-- C21: self-loops are accepted and stored once.  After `addEdge a a` the id `a` is in
its own neighbor set; that set has one element more than before when `a` was not
in it and is unchanged when it was; the entry of every other id is as before; and
a symmetric adjacency relation stays symmetric. -/
theorem addEdge_self_loop_stored_once (s : SocialNetwork) (a : Int) :
    a ∈ (s.addEdge a a).neighbors a ∧
    (a ∉ s.neighbors a →
      ((s.addEdge a a).neighbors a).length = (s.neighbors a).length + 1) ∧
    (a ∈ s.neighbors a →
      (s.addEdge a a).neighbors a = s.neighbors a ∧
      ((s.addEdge a a).neighbors a).length = (s.neighbors a).length) ∧
    (∀ x, x ≠ a →
      umFind (s.addEdge a a).adjList x = umFind s.adjList x ∧
      (s.addEdge a a).neighbors x = s.neighbors x) ∧
    (Symmetric s → Symmetric (s.addEdge a a)) := by
  have hself : (s.addEdge a a).neighbors a = usInsert (s.neighbors a) a := by
    rw [neighbors_addEdge]
    simp only [if_true]
    exact usInsert_of_mem _ _ ((mem_usInsert _ _ _).mpr (Or.inl rfl))
  refine ⟨?_, ?_, ?_, ?_, fun h => Symmetric_addEdge s a a h⟩
  · rw [hself]; exact (mem_usInsert _ _ _).mpr (Or.inl rfl)
  · intro h
    rw [hself]; exact length_usInsert_of_not_mem _ _ h
  · intro h
    rw [hself, usInsert_of_mem _ _ h]
    exact ⟨rfl, rfl⟩
  · intro x hx
    constructor
    · rw [umFind_addEdge]; simp [hx]
    · rw [neighbors_addEdge]; simp [hx]

/-- Witness of C21 on `sampleNet`, whose node 1 is not its own neighbor. -/
theorem addEdge_self_loop_stored_once_witness :
    ((sampleNet.addEdge 1 1).neighbors 1).length = (sampleNet.neighbors 1).length + 1 :=
  (addEdge_self_loop_stored_once sampleNet 1).2.1 (by decide)

/-- C23: the two forms of the ranking agree.  In every state the ranking of `v7.cc`
with the empty target returns, and replacing each of its entries `(id, list)` by
`(id, length of list)` gives a rearrangement of the vector of `gui_v2.cpp`; both
vectors are in non-increasing order of count. -/
theorem ranking_forms_agree (s : SocialNetwork) :
    ∃ r, calculateDominanceAndInfluence s [] = some (s, r) ∧
      (r.map (fun e => (e.1, (e.2.length : Int)))).Perm
        (GuiV2.calculateDominanceAndInfluence s) ∧
      r.Pairwise (fun a b => a.2.length ≥ b.2.length) ∧
      (GuiV2.calculateDominanceAndInfluence s).Pairwise (fun a b => a.2 ≥ b.2) := by
  refine ⟨stdSort bySize s.adjList, calculateDominance_nil s, ?_,
    pairwise_stdSort_bySize _, pairwise_stdSort_byCount _⟩
  have h1 : ((stdSort bySize s.adjList).map (fun e => (e.1, (e.2.length : Int)))).Perm
      (s.adjList.map (fun e => (e.1, (e.2.length : Int)))) :=
    (perm_stdSort bySize s.adjList).map _
  exact h1.trans (perm_stdSort GuiV2.byCount _).symm

/-- C24: `postMessage` and `targetAds` agree on a single keyword.  In every well-formed
state the ids labelled `Received` by `postMessage k` are exactly the ids returned
by `targetAds` of the singleton `k`, and the ids labelled `Not Received` are
exactly the ids of the node table that it does not return. -/
theorem postMessage_agrees_with_targetAds (s : SocialNetwork) (hs : WF s) (k : String) :
    (∀ i, (i, "Received") ∈ postMessage s k ↔ i ∈ targetAds s [k]) ∧
    (∀ i, (i, "Not Received") ∈ postMessage s k ↔
      i ∈ umKeys s.nodes ∧ i ∉ targetAds s [k]) := by
  constructor
  · intro i
    rw [mem_postMessage, mem_targetAds]
    constructor
    · rintro (⟨_, p, hp, e, hk⟩ | ⟨e, _⟩)
      · exact ⟨p, hp, e, by simpa using hk⟩
      · exact absurd e (by decide)
    · rintro ⟨p, hp, e, hk⟩
      exact Or.inl ⟨rfl, p, hp, e, by simpa using hk⟩
  · intro i
    rw [mem_postMessage, mem_targetAds]
    constructor
    · rintro (⟨e, _⟩ | ⟨_, p, hp, e, hk⟩)
      · exact absurd e (by decide)
      · refine ⟨List.mem_map.mpr ⟨p, hp, (hs.nodes_id p hp).symm.trans e⟩, ?_⟩
        rintro ⟨q, hq, e2, hm⟩
        have := node_unique s hs.table q p hq hp (e2.trans e.symm)
        subst this
        exact hk (by simpa using hm)
    · rintro ⟨hi, hn⟩
      obtain ⟨p, hp, e⟩ := List.mem_map.mp hi
      have e2 : p.2.id = i := (hs.nodes_id p hp).trans e
      refine Or.inr ⟨rfl, p, hp, e2, ?_⟩
      intro hk
      exact hn ⟨p, hp, e2, by simpa using hk⟩

/-- Witness of C24 on `sampleNet` with the keyword `red`. -/
theorem postMessage_agrees_with_targetAds_witness :
    WF sampleNet ∧
    (((1 : Int), "Received") ∈ postMessage sampleNet "red" ↔
      (1 : Int) ∈ targetAds sampleNet ["red"]) :=
  ⟨WF_sampleNet, (postMessage_agrees_with_targetAds sampleNet WF_sampleNet "red").1 1⟩

/-- C25: `targetAds` turns the union of two requirement sets into the intersection of
the results.  In every well-formed state an id is returned for `S ++ T`, and for
every list with the members of `S` and of `T`, iff it is returned for `S` and for
`T`; and when every member of `S` is in `T`, every id returned for `T` is returned
for `S`. -/
theorem targetAds_union_is_intersection (s : SocialNetwork) (hs : WF s)
    (S T : List String) :
    (∀ i, i ∈ targetAds s (S ++ T) ↔ i ∈ targetAds s S ∧ i ∈ targetAds s T) ∧
    (∀ U : List String, (∀ t, t ∈ U ↔ t ∈ S ∨ t ∈ T) →
      ∀ i, i ∈ targetAds s U ↔ i ∈ targetAds s S ∧ i ∈ targetAds s T) ∧
    ((∀ t ∈ S, t ∈ T) → ∀ i, i ∈ targetAds s T → i ∈ targetAds s S) := by
  have main : ∀ U : List String, (∀ t, t ∈ U ↔ t ∈ S ∨ t ∈ T) →
      ∀ i, i ∈ targetAds s U ↔ i ∈ targetAds s S ∧ i ∈ targetAds s T := by
    intro U hU i
    simp only [mem_targetAds]
    constructor
    · rintro ⟨p, hp, e, hm⟩
      exact ⟨⟨p, hp, e, fun t ht => hm t ((hU t).mpr (Or.inl ht))⟩,
        ⟨p, hp, e, fun t ht => hm t ((hU t).mpr (Or.inr ht))⟩⟩
    · rintro ⟨⟨p, hp, e, hm⟩, ⟨q, hq, e2, hm2⟩⟩
      have := node_unique s hs.table q p hq hp (e2.trans e.symm)
      subst this
      refine ⟨q, hq, e2, ?_⟩
      intro t ht
      rcases (hU t).mp ht with h | h
      · exact hm t h
      · exact hm2 t h
  refine ⟨main (S ++ T) (fun t => List.mem_append), main, ?_⟩
  intro hST i
  simp only [mem_targetAds]
  rintro ⟨p, hp, e, hm⟩
  exact ⟨p, hp, e, fun t ht => hm t (hST t ht)⟩

/-- Witness of C25 on `sampleNet` with the sets `red` and `blue`. -/
theorem targetAds_union_is_intersection_witness :
    WF sampleNet ∧
    ((1 : Int) ∈ targetAds sampleNet (["red"] ++ ["blue"]) ↔
      (1 : Int) ∈ targetAds sampleNet ["red"] ∧ (1 : Int) ∈ targetAds sampleNet ["blue"]) :=
  ⟨WF_sampleNet, (targetAds_union_is_intersection sampleNet WF_sampleNet ["red"] ["blue"]).1 1⟩

/-- C28: in the vector returned by `postMessage k` the `Received` entries come first:
the vector is a block of `Received` entries followed by a block of `Not Received`
entries, so no `Not Received` entry precedes a `Received` one; in a well-formed
state the vector has as many entries as the node table has nodes.  The function of
`gui_v2.cpp` returns the same vector. -/
theorem postMessage_received_first (s : SocialNetwork) (hs : WF s) (k : String) :
    (∃ l1 l2, postMessage s k = l1 ++ l2 ∧ (∀ e ∈ l1, e.2 = "Received") ∧
      (∀ e ∈ l2, e.2 = "Not Received")) ∧
    (postMessage s k).Pairwise (fun a b => ¬ (a.2 = "Not Received" ∧ b.2 = "Received")) ∧
    (postMessage s k).length = s.nodes.length ∧
    GuiV2.postMessage s k = postMessage s k := by
  have h1 : ∀ e ∈ (classify k s.nodes ([], [])).1.map (fun nodeId => (nodeId, "Received")),
      e.2 = "Received" := by
    intro e he
    obtain ⟨x, _, rfl⟩ := List.mem_map.mp he
    rfl
  have h2 : ∀ e ∈ (classify k s.nodes ([], [])).2.map
      (fun nodeId => (nodeId, "Not Received")), e.2 = "Not Received" := by
    intro e he
    obtain ⟨x, _, rfl⟩ := List.mem_map.mp he
    rfl
  refine ⟨⟨_, _, rfl, h1, h2⟩, ?_, ?_, rfl⟩
  · unfold postMessage
    simp only
    rw [List.pairwise_append]
    refine ⟨?_, ?_, ?_⟩
    · apply List.pairwise_of_forall_mem_list
      intro a ha b _ hab
      rw [h1 a ha] at hab
      exact absurd hab.1 (by decide)
    · apply List.pairwise_of_forall_mem_list
      intro a _ b hb hab
      rw [h2 b hb] at hab
      exact absurd hab.2 (by decide)
    · intro a ha b _ hab
      rw [h1 a ha] at hab
      exact absurd hab.1 (by decide)
  · have hperm : ((postMessage s k).map Prod.fst).Perm (umKeys s.nodes) :=
      (List.perm_ext_iff_of_nodup (nodup_postMessage_ids s hs.table k) hs.nodes_keys).mpr
        (fun i => mem_postMessage_ids s hs.table k i)
    have := hperm.length_eq
    simpa [umKeys] using this

/-- Witness of C28 on `sampleNet` with the keyword `red`. -/
theorem postMessage_received_first_witness :
    WF sampleNet ∧ (postMessage sampleNet "red").length = sampleNet.nodes.length :=
  ⟨WF_sampleNet, (postMessage_received_first sampleNet WF_sampleNet "red").2.2.1⟩

end SocialNetwork

/-! ## The claims on the invariants of reachable and built networks -/

namespace SocialNetwork

theorem build_append (calls : List Call) (c : Call) :
    build (calls ++ [c]) = Call.run (build calls) c := by
  simp [build, List.foldl_append]

theorem run_addNode_adjList (s : SocialNetwork) (id : Int) (cs : List String) :
    (Call.run s (Call.addNode id cs)).adjList = s.adjList := rfl

/-- The keys of the adjacency relation of a built network are the endpoints of its
`addEdge` calls. -/
theorem mem_umKeys_build (calls : List Call) (x : Int) :
    x ∈ umKeys (build calls).adjList ↔
      ∃ a b, Call.addEdge a b ∈ calls ∧ (x = a ∨ x = b) := by
  induction calls using List.reverseRecOn with
  | nil => simp [build, empty, umKeys]
  | append_singleton calls c ih =>
    rw [build_append]
    cases c with
    | addNode id cs =>
      rw [run_addNode_adjList, ih]
      simp
    | addEdge a b =>
      show x ∈ umKeys ((build calls).addEdge a b).adjList ↔ _
      rw [mem_umKeys_addEdge, ih]
      constructor
      · rintro (h | h | ⟨a2, b2, hm, h⟩)
        · exact ⟨a, b, by simp, Or.inl h⟩
        · exact ⟨a, b, by simp, Or.inr h⟩
        · exact ⟨a2, b2, by simp [hm], h⟩
      · rintro ⟨a2, b2, hm, h⟩
        rcases List.mem_append.mp hm with hm | hm
        · exact Or.inr (Or.inr ⟨a2, b2, hm, h⟩)
        · simp only [List.mem_singleton, Call.addEdge.injEq] at hm
          obtain ⟨e1, e2⟩ := hm
          subst e1; subst e2
          rcases h with h | h
          · exact Or.inl h
          · exact Or.inr (Or.inl h)

theorem nonempty_sets_addEdge (s : SocialNetwork) (a b : Int)
    (h : ∀ x v, umFind s.adjList x = some v → v ≠ []) :
    ∀ x v, umFind (s.addEdge a b).adjList x = some v → v ≠ [] := by
  intro x v hv
  rw [umFind_addEdge] at hv
  have ne : ∀ (l : List Int) (y : Int), usInsert l y ≠ [] := by
    intro l y e
    have : y ∈ usInsert l y := (mem_usInsert l y y).mpr (Or.inl rfl)
    rw [e] at this
    exact absurd this (List.not_mem_nil _)
  by_cases hb : x = b
  · simp only [hb, if_true, Option.some.injEq] at hv
    rw [← hv]; exact ne _ _
  · by_cases ha : x = a
    · subst ha
      simp only [hb, if_false, if_true, Option.some.injEq] at hv
      rw [← hv]; exact ne _ _
    · simp only [hb, ha, if_false] at hv
      exact h x v hv

theorem mem_dominance_ids (s : SocialNetwork) (i : Int) :
    i ∈ (GuiV2.calculateDominanceAndInfluence s).map Prod.fst ↔ i ∈ umKeys s.adjList := by
  have hp : ((GuiV2.calculateDominanceAndInfluence s).map Prod.fst).Perm (umKeys s.adjList) := by
    have := (perm_stdSort GuiV2.byCount
      (s.adjList.map (fun pair => (pair.1, (pair.2.length : Int))))).map Prod.fst
    simpa [umKeys, List.map_map, Function.comp_def] using this
  exact hp.mem_iff

/-- C22: in every state reached from the fresh network by `addNode`, `addEdge` and
`readFromFile`, every entry of the adjacency relation has a non-empty neighbor
set; so every entry of the unfiltered ranking has a count of at least one, in
`gui_v2.cpp` and in `v7.cc`, and an id without a stored neighbor is not in the
ranking.  In a network built by calls, an id that is an endpoint of no `addEdge`
call is not in the ranking, whether or not an `addNode` call made it a node. -/
theorem adjacency_keys_have_neighbors (s : SocialNetwork) (h : Reachable s) :
    (∀ p ∈ s.adjList, p.2 ≠ []) ∧
    (∀ e ∈ GuiV2.calculateDominanceAndInfluence s, 1 ≤ e.2) ∧
    (∃ r, calculateDominanceAndInfluence s [] = some (s, r) ∧
      (∀ e ∈ r, 1 ≤ e.2.length) ∧
      ∀ i, s.neighbors i = [] → i ∉ r.map Prod.fst) ∧
    (∀ i, s.neighbors i = [] →
      i ∉ (GuiV2.calculateDominanceAndInfluence s).map Prod.fst) ∧
    (∀ (calls : List Call) (i : Int),
      (∀ a b, Call.addEdge a b ∈ calls → i ≠ a ∧ i ≠ b) →
      i ∉ (GuiV2.calculateDominanceAndInfluence (build calls)).map Prod.fst) := by
  have hwf := Reachable.wf h
  have hq : ∀ x v, umFind s.adjList x = some v → v ≠ [] :=
    Reachable.invariant (fun t => ∀ x v, umFind t.adjList x = some v → v ≠ [])
      (by intro x v hv; simp [empty, umFind] at hv)
      (fun t id cs ht _ => ht)
      (fun t a b ht => nonempty_sets_addEdge t a b ht) h
  have hne : ∀ p ∈ s.adjList, p.2 ≠ [] := fun p hp =>
    hq p.1 p.2 (umFind_of_mem s.adjList p.1 p.2 hwf.adj_keys hp)
  have hkey : ∀ i, s.neighbors i = [] → i ∉ umKeys s.adjList := by
    intro i hi hk
    obtain ⟨v, hv⟩ := (umFind_isSome_iff s.adjList i).mpr hk
    have : s.neighbors i = v := by unfold neighbors; rw [hv]; rfl
    exact hq i v hv (this ▸ hi)
  refine ⟨hne, ?_, ⟨stdSort bySize s.adjList, calculateDominance_nil s, ?_, ?_⟩, ?_, ?_⟩
  · intro e he
    have hm := (perm_stdSort GuiV2.byCount _).mem_iff.mp he
    obtain ⟨p, hp, rfl⟩ := List.mem_map.mp hm
    have := List.length_pos.mpr (hne p hp)
    simp only
    omega
  · intro e he
    have hm := (perm_stdSort bySize _).mem_iff.mp he
    exact List.length_pos.mpr (hne e hm)
  · intro i hi hin
    have := ((perm_stdSort bySize s.adjList).map Prod.fst).mem_iff.mp hin
    exact hkey i hi this
  · intro i hi hin
    exact hkey i hi ((mem_dominance_ids s i).mp hin)
  · intro calls i hcalls hin
    obtain ⟨a, b, hm, hab⟩ := (mem_umKeys_build calls i).mp ((mem_dominance_ids _ i).mp hin)
    rcases hab with e | e
    · exact (hcalls a b hm).1 e
    · exact (hcalls a b hm).2 e

/-- Witness of C22 on the network loaded from `5 red blue`, `6 green`, `edges`, `5 7`,
whose node 6 is an endpoint of no edge. -/
theorem adjacency_keys_have_neighbors_witness :
    Reachable (empty.readFromFile "nodes.txt" (some "5 red blue\n6 green\nedges\n5 7")).1 ∧
    (6 : Int) ∉ (GuiV2.calculateDominanceAndInfluence
      (empty.readFromFile "nodes.txt" (some "5 red blue\n6 green\nedges\n5 7")).1).map
        Prod.fst :=
  ⟨Reachable.load _ _ Reachable.init,
   (adjacency_keys_have_neighbors _ (Reachable.load _ _ Reachable.init)).2.2.2.1 6
     (by decide)⟩

end SocialNetwork

section DegreeSum

theorem sum_lengths_umEmplace (m : List (Int × List Int)) (k : Int) :
    ((umEmplace m k []).map (fun p => p.2.length)).sum =
      (m.map (fun p => p.2.length)).sum := by
  unfold umEmplace
  cases umFind m k <;> simp

theorem sum_lengths_umUpdate (m : List (Int × List Int)) (k v : Int) (hk : k ∈ umKeys m)
    (hv : v ∉ (umFind m k).getD []) :
    ((umUpdate m k (fun ns => usInsert ns v)).map (fun p => p.2.length)).sum =
      (m.map (fun p => p.2.length)).sum + 1 := by
  induction m with
  | nil => simp [umKeys] at hk
  | cons p m ih =>
    obtain ⟨k1, v1⟩ := p
    by_cases h : k1 = k
    · subst h
      simp only [umFind, if_true, Option.getD_some] at hv
      simp only [umUpdate, if_true, List.map_cons, List.sum_cons,
        length_usInsert_of_not_mem _ _ hv]
      omega
    · simp only [umFind, h, if_false] at hv
      have hk2 : k ∈ umKeys m := by
        simp only [umKeys, List.map_cons, List.mem_cons] at hk
        rcases hk with e | e
        · exact absurd e.symm h
        · exact e
      simp only [umUpdate, h, if_false, List.map_cons, List.sum_cons, ih hk2 hv]
      omega

theorem mem_umKeys_umEmplace_self (m : List (Int × List Int)) (k : Int) (d : List Int) :
    k ∈ umKeys (umEmplace m k d) := by
  rw [umKeys_umEmplace]
  split
  · assumption
  · exact List.mem_cons_self _ _

theorem sum_lengths_update_emplace (m : List (Int × List Int)) (k v : Int)
    (hv : v ∉ (umFind m k).getD []) :
    ((umUpdate (umEmplace m k []) k (fun ns => usInsert ns v)).map
        (fun p => p.2.length)).sum = (m.map (fun p => p.2.length)).sum + 1 := by
  rw [sum_lengths_umUpdate _ k v (mem_umKeys_umEmplace_self m k []), sum_lengths_umEmplace]
  rw [umFind_umEmplace]
  simpa using hv

theorem update_emplace_of_mem (m : List (Int × List Int)) (k y : Int)
    (h : y ∈ (umFind m k).getD []) :
    umUpdate (umEmplace m k []) k (fun ns => usInsert ns y) = m := by
  have hk : k ∈ umKeys m := by
    apply (umFind_isSome_iff m k).mp
    cases hf : umFind m k with
    | none => simp [hf] at h
    | some v => exact ⟨v, rfl⟩
  rw [umEmplace_of_mem m k [] hk]
  apply umUpdate_of_fixed
  intro v hv
  apply usInsert_of_mem
  simpa [hv] using h

end DegreeSum

namespace SocialNetwork

theorem degreeSum_addEdge_new (s : SocialNetwork) (a b : Int) (hab : a ≠ b)
    (hb : b ∉ s.neighbors a) (ha : a ∉ s.neighbors b) :
    degreeSum (s.addEdge a b) = degreeSum s + 2 := by
  unfold degreeSum
  rw [addEdge_adjList, sum_lengths_update_emplace, sum_lengths_update_emplace]
  · exact hb
  · rw [umFind_update_emplace]
    have hba : ¬ b = a := fun e => hab e.symm
    simpa [hba] using ha

theorem addEdge_adjList_of_connected (s : SocialNetwork) (a b : Int)
    (hb : b ∈ s.neighbors a) (ha : a ∈ s.neighbors b) :
    (s.addEdge a b).adjList = s.adjList := by
  rw [addEdge_adjList, update_emplace_of_mem s.adjList a b hb,
    update_emplace_of_mem s.adjList b a ha]

theorem unorderedPair_eq_iff (x y a b : Int) :
    unorderedPair x y = unorderedPair a b ↔ (x = a ∧ y = b) ∨ (x = b ∧ y = a) := by
  unfold unorderedPair
  split <;> split <;> simp only [Prod.mk.injEq] <;> omega

theorem mem_addedPairs (calls : List Call) (q : Int × Int) :
    q ∈ addedPairs calls ↔ ∃ a b, Call.addEdge a b ∈ calls ∧ unorderedPair a b = q := by
  simp only [addedPairs, List.mem_toFinset, List.mem_filterMap]
  constructor
  · rintro ⟨c, hc, e⟩
    cases c with
    | addNode id cs => simp [Call.pair] at e
    | addEdge a b =>
      simp only [Call.pair, Option.some.injEq] at e
      exact ⟨a, b, hc, e⟩
  · rintro ⟨a, b, hc, e⟩
    exact ⟨Call.addEdge a b, hc, by simp [Call.pair, e]⟩

theorem addedPairs_append_addEdge (calls : List Call) (a b : Int) :
    addedPairs (calls ++ [Call.addEdge a b]) =
      insert (unorderedPair a b) (addedPairs calls) := by
  ext q
  simp only [Finset.mem_insert, mem_addedPairs, List.mem_append, List.mem_singleton,
    Call.addEdge.injEq]
  constructor
  · rintro ⟨a2, b2, h | ⟨e1, e2⟩, e⟩
    · exact Or.inr ⟨a2, b2, h, e⟩
    · subst e1; subst e2; exact Or.inl e.symm
  · rintro (e | ⟨a2, b2, h, e⟩)
    · exact ⟨a, b, Or.inr ⟨rfl, rfl⟩, e.symm⟩
    · exact ⟨a2, b2, Or.inl h, e⟩

theorem addedPairs_append_addNode (calls : List Call) (id : Int) (cs : List String) :
    addedPairs (calls ++ [Call.addNode id cs]) = addedPairs calls := by
  ext q
  simp only [mem_addedPairs, List.mem_append, List.mem_singleton]
  constructor
  · rintro ⟨a, b, h | h, e⟩
    · exact ⟨a, b, h, e⟩
    · exact absurd h (by simp)
  · rintro ⟨a, b, h, e⟩
    exact ⟨a, b, Or.inl h, e⟩

/-- The stored neighbors of a built network are the partners in its `addEdge` calls. -/
theorem mem_neighbors_build (calls : List Call) (x y : Int) :
    y ∈ (build calls).neighbors x ↔
      ∃ a b, Call.addEdge a b ∈ calls ∧ ((x = a ∧ y = b) ∨ (x = b ∧ y = a)) := by
  induction calls using List.reverseRecOn with
  | nil => simp [build, empty, neighbors, umFind]
  | append_singleton calls c ih =>
    rw [build_append]
    cases c with
    | addNode id cs =>
      show y ∈ ((build calls).addNode id cs).neighbors x ↔ _
      rw [neighbors_addNode, ih]
      simp
    | addEdge a b =>
      show y ∈ ((build calls).addEdge a b).neighbors x ↔ _
      rw [mem_neighbors_addEdge, ih]
      constructor
      · rintro (⟨a2, b2, hm, h⟩ | h)
        · exact ⟨a2, b2, by simp [hm], h⟩
        · exact ⟨a, b, by simp, h⟩
      · rintro ⟨a2, b2, hm, h⟩
        rcases List.mem_append.mp hm with hm | hm
        · exact Or.inl ⟨a2, b2, hm, h⟩
        · simp only [List.mem_singleton, Call.addEdge.injEq] at hm
          obtain ⟨e1, e2⟩ := hm
          subst e1; subst e2
          exact Or.inr h

theorem mem_neighbors_build_iff_pair (calls : List Call) (a b : Int) :
    b ∈ (build calls).neighbors a ↔ unorderedPair a b ∈ addedPairs calls := by
  rw [mem_neighbors_build, mem_addedPairs]
  constructor
  · rintro ⟨a2, b2, hm, h⟩
    exact ⟨a2, b2, hm, (unorderedPair_eq_iff a2 b2 a b).mpr (by tauto)⟩
  · rintro ⟨a2, b2, hm, e⟩
    exact ⟨a2, b2, hm, by have := (unorderedPair_eq_iff a2 b2 a b).mp e; tauto⟩

/-- The handshake invariant of a network built without self-loops. -/
theorem degreeSum_build (calls : List Call)
    (hne : ∀ a b, Call.addEdge a b ∈ calls → a ≠ b) :
    degreeSum (build calls) = 2 * (addedPairs calls).card := by
  induction calls using List.reverseRecOn with
  | nil => simp [build, empty, degreeSum, addedPairs]
  | append_singleton calls c ih =>
    have ih2 := ih (fun a b h => hne a b (List.mem_append.mpr (Or.inl h)))
    rw [build_append]
    cases c with
    | addNode id cs =>
      rw [addedPairs_append_addNode, ← ih2]
      rfl
    | addEdge a b =>
      have hab : a ≠ b := hne a b (by simp)
      rw [addedPairs_append_addEdge]
      show degreeSum ((build calls).addEdge a b) = _
      by_cases hb : b ∈ (build calls).neighbors a
      · have ha : a ∈ (build calls).neighbors b := by
          rw [mem_neighbors_build] at hb ⊢
          obtain ⟨a2, b2, hm, h⟩ := hb
          exact ⟨a2, b2, hm, by tauto⟩
        have hp := (mem_neighbors_build_iff_pair calls a b).mp hb
        rw [Finset.insert_eq_of_mem hp, ← ih2]
        unfold degreeSum
        rw [addEdge_adjList_of_connected _ a b hb ha]
      · have ha : a ∉ (build calls).neighbors b := by
          intro h
          apply hb
          rw [mem_neighbors_build] at h ⊢
          obtain ⟨a2, b2, hm, h⟩ := h
          exact ⟨a2, b2, hm, by tauto⟩
        have hp : unorderedPair a b ∉ addedPairs calls :=
          fun h => hb ((mem_neighbors_build_iff_pair calls a b).mpr h)
        rw [Finset.card_insert_of_not_mem hp, degreeSum_addEdge_new _ a b hab hb ha, ih2]
        omega

theorem sum_cast_lengths (l : List (Int × List Int)) :
    ((l.map (fun pair => (pair.1, (pair.2.length : Int)))).map Prod.snd).sum =
      (((l.map (fun pair => pair.2.length)).sum : Nat) : Int) := by
  induction l with
  | nil => simp
  | cons p l ih =>
    simp only [List.map_cons, List.sum_cons, ih]
    push_cast
    rfl

/-- C26: the handshake property.  For every network built from the fresh one by a
sequence of `addNode` and `addEdge` calls in which no `addEdge` joins an id to
itself, the counts of the unfiltered ranking of `gui_v2.cpp` add up to twice the
number of distinct unordered pairs of the `addEdge` calls, and so do the lengths of
the neighbor lists of the unfiltered ranking of `v7.cc`. -/
theorem degree_sum_is_twice_edges (calls : List Call)
    (hne : ∀ a b, Call.addEdge a b ∈ calls → a ≠ b) :
    ((GuiV2.calculateDominanceAndInfluence (build calls)).map Prod.snd).sum =
      2 * ((addedPairs calls).card : Int) ∧
    ∃ r, calculateDominanceAndInfluence (build calls) [] = some (build calls, r) ∧
      (r.map (fun e => e.2.length)).sum = 2 * (addedPairs calls).card := by
  have hd := degreeSum_build calls hne
  constructor
  · have hp := ((perm_stdSort GuiV2.byCount
      ((build calls).adjList.map (fun pair => (pair.1, (pair.2.length : Int))))).map
        Prod.snd).sum_eq
    unfold GuiV2.calculateDominanceAndInfluence
    rw [hp, sum_cast_lengths]
    unfold degreeSum at hd
    rw [hd]
    push_cast
    rfl
  · refine ⟨stdSort bySize (build calls).adjList, calculateDominance_nil _, ?_⟩
    have hp := ((perm_stdSort bySize (build calls).adjList).map
      (fun e => e.2.length)).sum_eq
    rw [hp]
    exact hd

/-- Witness of C26 on four calls that add the pair of 1 and 2 twice. -/
theorem degree_sum_is_twice_edges_witness :
    ((GuiV2.calculateDominanceAndInfluence
        (build [Call.addEdge 1 2, Call.addNode 3 ["x"], Call.addEdge 2 1,
          Call.addEdge 2 3])).map Prod.snd).sum =
      2 * ((addedPairs [Call.addEdge 1 2, Call.addNode 3 ["x"], Call.addEdge 2 1,
        Call.addEdge 2 3]).card : Int) :=
  (degree_sum_is_twice_edges
    [Call.addEdge 1 2, Call.addNode 3 ["x"], Call.addEdge 2 1, Call.addEdge 2 3]
    (by
      intro a b h
      simp only [List.mem_cons, Call.addEdge.injEq, List.mem_singleton, List.not_mem_nil,
        or_false] at h
      rcases h with ⟨rfl, rfl⟩ | h | ⟨rfl, rfl⟩ | ⟨rfl, rfl⟩
      · decide
      · exact absurd h (by simp)
      · decide
      · decide)).1

end SocialNetwork

namespace SocialNetwork

theorem covered_addNode (s : SocialNetwork) (id : Int) (cs : List String)
    (h : ∀ p ∈ s.nodes, ∀ c ∈ p.2.characteristics, c ∈ s.availableCharacteristics) :
    ∀ p ∈ (s.addNode id cs).nodes, ∀ c ∈ p.2.characteristics,
      c ∈ (s.addNode id cs).availableCharacteristics := by
  intro p hp c hc
  rw [mem_vocabulary_addNode]
  rw [addNode_nodes] at hp
  rcases mem_umUpdate _ id _ p hp with h1 | ⟨v, _, e⟩
  · rcases mem_umEmplace _ id _ p h1 with h2 | h2
    · exact Or.inl (h p h2 c hc)
    · rw [h2] at hc
      exact absurd hc (List.not_mem_nil _)
  · rw [e] at hc
    exact Or.inr hc

/-- The vocabulary after the loop, started in the node section, has the members it
had and the characteristic tokens of the accepted node lines. -/
theorem mem_vocabulary_foldl_readLine (lines : List (List Char)) (st : LoadState)
    (hs : st.readingNodes = true) (c : String) :
    c ∈ (lines.foldl readLine st).net.availableCharacteristics ↔
      c ∈ st.net.availableCharacteristics ∨ c ∈ acceptedNodeTokens lines := by
  induction lines generalizing st with
  | nil => simp [acceptedNodeTokens]
  | cons l ls ih =>
    rw [List.foldl_cons]
    unfold acceptedNodeTokens
    by_cases hl : l = edgesLine
    · simp only [hl, if_true, List.not_mem_nil, or_false]
      have hs2 : (readLine st edgesLine).readingNodes = false := by
        rw [readLine_marker]
      rw [(foldl_readLine_edgeSection ls _ hs2).2.2, readLine_marker]
    · simp only [hl, if_false, List.mem_append]
      have hs2 : (readLine st l).readingNodes = true := by
        rw [readLine_readingNodes, hs]; simp [hl]
      rw [ih (readLine st l) hs2, readLine_nodeLine st l hl hs]
      cases he : extractInt l with
      | none => simp
      | some r =>
        obtain ⟨id, rest⟩ := r
        simp only [mem_vocabulary_addNode, mem_readCharacteristics]
        tauto

/-- C27: the vocabulary covers the node table.  In every state reached from the fresh
network by `addNode`, `addEdge` and `readFromFile`, every characteristic of every
node of the table is in the vocabulary; and after loading into the fresh network
the vocabulary has exactly the characteristic tokens of the accepted node lines
(the tokens that follow the id of a line read in the node section: the remaining
tokens when the first token is an integer as a whole), those of a line whose node
a later line overwrites included, as `red` in `1 red`, `1 blue`. -/
theorem vocabulary_covers_nodes (s : SocialNetwork) (h : Reachable s) :
    (∀ p ∈ s.nodes, ∀ c ∈ p.2.characteristics, c ∈ getAvailableCharacteristics s) ∧
    (∀ (filename : String) (text : String) (c : String),
      c ∈ getAvailableCharacteristics (empty.readFromFile filename (some text)).1 ↔
        c ∈ acceptedNodeTokens (linesOf text)) ∧
    (∀ (line : List Char) (t : String) (ts : List String) (id : Int),
      tokens line = t :: ts → intTokenValue t = some id →
      ∃ afterId, extractInt line = some (id, afterId) ∧ tokens afterId = ts) ∧
    (acceptedNodeTokens (linesOf "1 red\n1 blue\nedges\n1 2") = ["red", "blue"] ∧
      (empty.readFromFile "nodes.txt" (some "1 red\n1 blue\nedges\n1 2")).1.nodes =
        [(1, ⟨1, ["blue"]⟩)] ∧
      "red" ∈ getAvailableCharacteristics
        (empty.readFromFile "nodes.txt" (some "1 red\n1 blue\nedges\n1 2")).1) := by
  refine ⟨?_, ?_, fun line t ts id ht hv => extractInt_first_token line t ts id ht hv,
    by decide⟩
  · exact Reachable.invariant
      (fun t => ∀ p ∈ t.nodes, ∀ c ∈ p.2.characteristics, c ∈ t.availableCharacteristics)
      (by intro p hp; simp [empty] at hp)
      (fun t id cs ht _ => covered_addNode t id cs ht)
      (fun t a b ht => ht) h
  · intro filename text c
    have := mem_vocabulary_foldl_readLine (linesOf text) ⟨empty, true, 0, []⟩ rfl c
    simpa [empty] using this

/-- Witness of C27 on the network loaded from `5 red blue`, `edges`, `5 7`. -/
theorem vocabulary_covers_nodes_witness :
    Reachable loadedNet ∧
    ∀ p ∈ loadedNet.nodes, ∀ c ∈ p.2.characteristics,
      c ∈ getAvailableCharacteristics loadedNet :=
  ⟨Reachable.load _ _ Reachable.init,
   (vocabulary_covers_nodes loadedNet (Reachable.load _ _ Reachable.init)).1⟩

end SocialNetwork
